import Mathlib

/-!
# queue.c : a circular doubly-linked queue of strings

A shallow embedding of `queue.c` (insert, remove, size, delete-middle,
delete-duplicates, pairwise swap, reverse, merge sort) over an explicit heap,
followed by theorems about the embedded functions.

* Pointers are natural numbers, `0` is `NULL`.
* A `struct list_head` at address `p` has the fields `next p` and `prev p`.
  An `element_t` is identified with the address of its embedded `list`
  member, so `list_entry` is the identity; `value p` is its `char *value`
  (`none` is a `NULL` string pointer, `some s` the bytes before the
  terminator).
* Every dereference is checked: reading or writing through `NULL` is
  undefined behaviour and yields `Res.fault`.
* Loops and the recursion of `q_merge` are bounded by a fuel argument;
  running out of fuel yields `Res.timeout`. The theorems show that a fuel
  larger than the length of the queue always suffices.
* The counter `int len` of `q_size` is a 32-bit `int`: incrementing it at
  `INT_MAX` is a signed overflow, undefined behaviour, and yields `Res.fault`.
  The theorems about functions that call `q_size` bound the length of the
  queue by `INT_MAX = 2147483647`.
* The answers of the allocator (`malloc`, `strdup`) are inputs of the model.
-/

namespace Queue

/-! ## Results of running C code -/

/-- Outcome of a run: a value, undefined behaviour (a `NULL` dereference or an
out-of-bounds write), or exhausted fuel. -/
inductive Res (α : Type) where
  | ok (a : α) : Res α
  | fault : Res α
  | timeout : Res α
  deriving DecidableEq

/-- Sequencing of runs: the first failure is the outcome. -/
def Res.bind {α β : Type} : Res α → (α → Res β) → Res β
  | .ok a, f => f a
  | .fault, _ => .fault
  | .timeout, _ => .timeout

instance : Monad Res where
  pure := Res.ok
  bind := Res.bind

/-! ## Heap -/

/-- Pointwise update of a field table. -/
def upd {α : Type} (f : Nat → α) (p : Nat) (v : α) : Nat → α :=
  fun q => if q = p then v else f q

/-- The heap: the `next` and `prev` fields of every `struct list_head`, the
`value` field of every `element_t`, and which blocks are currently allocated. -/
structure Heap where
  next : Nat → Nat
  prev : Nat → Nat
  value : Nat → Option (List Nat)
  live : Nat → Bool

/-- Read `p->next`. -/
def Heap.rdNext (h : Heap) (p : Nat) : Res Nat :=
  if p = 0 then .fault else .ok (h.next p)

/-- Read `p->prev`. -/
def Heap.rdPrev (h : Heap) (p : Nat) : Res Nat :=
  if p = 0 then .fault else .ok (h.prev p)

/-- Read `p->value`. -/
def Heap.rdValue (h : Heap) (p : Nat) : Res (Option (List Nat)) :=
  if p = 0 then .fault else .ok (h.value p)

/-- Write `p->next = v`. -/
def Heap.wrNext (h : Heap) (p v : Nat) : Res Heap :=
  if p = 0 then .fault else .ok { h with next := upd h.next p v }

/-- Write `p->prev = v`. -/
def Heap.wrPrev (h : Heap) (p v : Nat) : Res Heap :=
  if p = 0 then .fault else .ok { h with prev := upd h.prev p v }

/-- Write `p->value = v`. -/
def Heap.wrValue (h : Heap) (p : Nat) (v : Option (List Nat)) : Res Heap :=
  if p = 0 then .fault else .ok { h with value := upd h.value p v }

/-! ## Library functions used by queue.c -/

/-- Modelled from the spec: `malloc` of harness.h / stdlib. The allocator's
answer `m` is an input of the model: `0` when the allocation fails, otherwise
the address of the block handed out, which becomes live. -/
def malloc (h : Heap) (m : Nat) : Heap × Nat :=
  if m = 0 then (h, 0) else ({ h with live := upd h.live m true }, m)

/-- Modelled from the spec: `free`. `free(NULL)` does nothing. -/
def free (h : Heap) (p : Nat) : Heap :=
  if p = 0 then h else { h with live := upd h.live p false }

/-- Modelled from the spec: `strdup` ("duplicates text into newly owned
storage"); `succeeds` is the allocator's answer, `NULL` comes back on failure. -/
def strdup (s : List Nat) (succeeds : Bool) : Option (List Nat) :=
  if succeeds then some s else none

/-- The sign of `strcmp` on the bytes of two strings (byte-wise lexicographic
comparison). -/
def strcmp : List Nat → List Nat → Int
  | [], [] => 0
  | [], _ :: _ => -1
  | _ :: _, [] => 1
  | a :: s, b :: t => if a < b then -1 else if b < a then 1 else strcmp s t

/-- `strcmp` on two `char *`: dereferencing a `NULL` string is a fault. -/
def strcmpPtr : Option (List Nat) → Option (List Nat) → Res Int
  | some s, some t => .ok (strcmp s t)
  | _, _ => .fault

/-- `strncpy(dst, src, n)`: the first `n` bytes of `dst` become the bytes of
`src`, cut at `n` or padded with zeros up to `n`. Writing past the end of
`dst` is a fault. -/
def strncpy (dst src : List Nat) (n : Nat) : Res (List Nat) :=
  if dst.length < n then .fault
  else .ok ((src ++ List.replicate n 0).take n ++ dst.drop n)

/-! ## list.h -/

/-- Modelled from the spec: `INIT_LIST_HEAD` of list.h ("initializes
self-referential ring"). -/
def INIT_LIST_HEAD (h : Heap) (head : Nat) : Res Heap := do
  let h ← h.wrNext head head
  h.wrPrev head head

/-- Modelled from the spec: `list_add` of list.h ("links the new Element
immediately after the sentinel"): `node` is linked in right after `head`. -/
def list_add (h : Heap) (node head : Nat) : Res Heap := do
  let next ← h.rdNext head
  let h ← h.wrPrev next node
  let h ← h.wrNext node next
  let h ← h.wrPrev node head
  h.wrNext head node

/-- Modelled from the spec: `list_add_tail` of list.h ("links the new Element
immediately before the sentinel"): `node` is linked in right before `head`. -/
def list_add_tail (h : Heap) (node head : Nat) : Res Heap := do
  let prev ← h.rdPrev head
  let h ← h.wrNext prev node
  let h ← h.wrNext node head
  let h ← h.wrPrev node prev
  h.wrPrev head node

/-- Modelled from the spec: `list_del` of list.h ("unlinks the Element from the
ring"): the neighbours of `node` are linked to each other. -/
def list_del (h : Heap) (node : Nat) : Res Heap := do
  let next ← h.rdNext node
  let prev ← h.rdPrev node
  let h ← h.wrPrev next prev
  h.wrNext prev next

/-- Modelled from the spec: `list_del_init` of list.h: unlink `node`, then make
it a ring of its own. -/
def list_del_init (h : Heap) (node : Nat) : Res Heap := do
  let h ← list_del h node
  INIT_LIST_HEAD h node

/-- Modelled from the spec: `list_move` of list.h ("detach the element and
re-insert it at the sentinel position"): unlink `node`, then link it in right
after `head`. -/
def list_move (h : Heap) (node head : Nat) : Res Heap := do
  let h ← list_del h node
  list_add h node head

/-! ## queue.c -/

/-- `q_new`: allocate the sentinel and make it an empty ring. -/
def q_new (h : Heap) (m : Nat) : Res (Heap × Nat) :=
  let r := malloc h m
  if r.2 = 0 then .ok (r.1, 0)
  else do
    let h ← INIT_LIST_HEAD r.1 r.2
    .ok (h, r.2)

/-- `q_release_element`: `free(e->value); free(e);`. Reading `e->value`
dereferences `e`; the payload storage is given back (the `value` entry is
cleared) and the block of the element is no longer live. -/
def q_release_element (h : Heap) (e : Nat) : Res Heap := do
  let _ ← h.rdValue e
  let h ← h.wrValue e none
  .ok (free h e)

/-- The loop of `q_free` (`list_for_each_entry_safe`). -/
def q_free_loop : Nat → Heap → Nat → Nat → Nat → Res Heap
  | 0, _, _, _, _ => .timeout
  | fuel + 1, h, l, el, safe =>
    if el = l then .ok h
    else do
      let h ← q_release_element h el
      let el := safe
      let safe ← h.rdNext safe
      q_free_loop fuel h l el safe

/-- `q_free`. -/
def q_free (fuel : Nat) (h : Heap) (l : Nat) : Res Heap :=
  if l = 0 then .ok h
  else do
    let el ← h.rdNext l
    let safe ← h.rdNext el
    let h ← q_free_loop fuel h l el safe
    .ok (free h l)

/-- `q_insert_head`; `m` is the answer of `malloc`, `sd` whether `strdup`
succeeds. -/
def q_insert_head (h : Heap) (head : Nat) (s : List Nat) (m : Nat) (sd : Bool) :
    Res (Heap × Bool) :=
  if head = 0 then .ok (h, false)
  else
    let r := malloc h m
    if r.2 = 0 then .ok (r.1, false)
    else do
      let h ← r.1.wrValue r.2 (strdup s sd)
      let h ← list_add h r.2 head
      .ok (h, true)

/-- `q_insert_tail`; `m` is the answer of `malloc`, `sd` whether `strdup`
succeeds. -/
def q_insert_tail (h : Heap) (head : Nat) (s : List Nat) (m : Nat) (sd : Bool) :
    Res (Heap × Bool) :=
  if head = 0 then .ok (h, false)
  else
    let r := malloc h m
    if r.2 = 0 then .ok (r.1, false)
    else do
      let h ← r.1.wrValue r.2 (strdup s sd)
      let h ← list_add_tail h r.2 head
      .ok (h, true)

/-- The largest value of the C type `int` (32 bits), `INT_MAX` of `<limits.h>`. -/
def INT_MAX : Nat := 2147483647

/-- The loop of `q_size` (`list_for_each`, body `len++`). The counter is an
`int`: `len++` at `INT_MAX` is a signed overflow, undefined behaviour. -/
def q_size_loop : Nat → Heap → Nat → Nat → Nat → Res Nat
  | 0, _, _, _, _ => .timeout
  | fuel + 1, h, head, li, len =>
    if li = head then .ok len
    else if len = INT_MAX then .fault
    else do
      let li ← h.rdNext li
      q_size_loop fuel h head li (len + 1)

/-- `q_size`: the number of elements, an `int` between `0` and `INT_MAX`. -/
def q_size (fuel : Nat) (h : Heap) (head : Nat) : Res Nat :=
  if head = 0 then .ok 0
  else do
    let li ← h.rdNext head
    q_size_loop fuel h head li 0

/-- The copy `if (sp) { strncpy(sp, ptr->value, bufsize); sp[bufsize - 1] = 0; }`
of `q_remove_head` and `q_remove_tail`. The buffer `sp` is `none` for `NULL`,
otherwise its bytes. -/
def copy_out (h : Heap) (ptr : Nat) (sp : Option (List Nat)) (bufsize : Nat) :
    Res (Option (List Nat)) :=
  match sp with
  | none => .ok none
  | some buf => do
    let v ← h.rdValue ptr
    match v with
    | none => .fault
    | some s => do
      let buf ← strncpy buf s bufsize
      if bufsize = 0 then .fault else .ok (some (buf.set (bufsize - 1) 0))

/-- `q_remove_head`: the heap, the removed element (`0` for `NULL`) and the
buffer afterwards. -/
def q_remove_head (fuel : Nat) (h : Heap) (head : Nat) (sp : Option (List Nat))
    (bufsize : Nat) : Res (Heap × Nat × Option (List Nat)) :=
  if head = 0 then .ok (h, 0, sp)
  else do
    let n ← q_size fuel h head
    if n = 0 then .ok (h, 0, sp)
    else do
      let ptr ← h.rdNext head
      let sp ← copy_out h ptr sp bufsize
      let first ← h.rdNext head
      let h ← list_del_init h first
      .ok (h, ptr, sp)

/-- `q_remove_tail`. -/
def q_remove_tail (fuel : Nat) (h : Heap) (head : Nat) (sp : Option (List Nat))
    (bufsize : Nat) : Res (Heap × Nat × Option (List Nat)) :=
  if head = 0 then .ok (h, 0, sp)
  else do
    let n ← q_size fuel h head
    if n = 0 then .ok (h, 0, sp)
    else do
      let ptr ← h.rdPrev head
      let sp ← copy_out h ptr sp bufsize
      let last ← h.rdPrev head
      let h ← list_del_init h last
      .ok (h, ptr, sp)

/-- The fast/slow loop of `q_delete_mid`; the result is `slow`. -/
def q_delete_mid_loop : Nat → Heap → Nat → Nat → Nat → Res Nat
  | 0, _, _, _, _ => .timeout
  | fuel + 1, h, head, slow, fast => do
    let fn ← h.rdNext fast
    let first ← h.rdNext head
    if fn = first then .ok slow
    else do
      let fnn ← h.rdNext fn
      let first ← h.rdNext head
      if fnn = first then .ok slow
      else do
        let slow ← h.rdNext slow
        let fn ← h.rdNext fast
        let fast ← h.rdNext fn
        q_delete_mid_loop fuel h head slow fast

/-- `q_delete_mid`. -/
def q_delete_mid (fuel : Nat) (h : Heap) (head : Nat) : Res (Heap × Bool) :=
  if head = 0 then .ok (h, false)
  else do
    let n ← q_size fuel h head
    if n = 0 then .ok (h, false)
    else do
      let first ← h.rdNext head
      let slow ← q_delete_mid_loop fuel h head first first
      let h ← list_del_init h slow
      let h ← q_release_element h slow
      .ok (h, true)

/-- The loop of `q_delete_dup`. -/
def q_delete_dup_loop : Nat → Heap → Nat → Nat → Res Heap
  | 0, _, _, _ => .timeout
  | fuel + 1, h, head, cur => do
    let nx ← h.rdNext cur
    if nx = head then .ok h
    else do
      let second ← h.rdNext cur
      let v1 ← h.rdValue cur
      let v2 ← h.rdValue second
      let c ← strcmpPtr v1 v2
      if c = 0 then do
        let nx ← h.rdNext cur
        let h ← list_del_init h nx
        let h ← q_release_element h second
        q_delete_dup_loop fuel h head cur
      else do
        let cur ← h.rdNext cur
        q_delete_dup_loop fuel h head cur

/-- `q_delete_dup`. -/
def q_delete_dup (fuel : Nat) (h : Heap) (head : Nat) : Res (Heap × Bool) := do
  let n ← q_size fuel h head
  if n = 0 then .ok (h, false)
  else do
    let cur ← h.rdNext head
    let h ← q_delete_dup_loop fuel h head cur
    .ok (h, true)

/-- The loop of `q_swap`. -/
def q_swap_loop : Nat → Heap → Nat → Nat → Nat → Res Heap
  | 0, _, _, _, _ => .timeout
  | fuel + 1, h, head, left, right =>
    if left ≠ head ∧ right ≠ head then do
      let h ← list_move h left right
      let left ← h.rdNext left
      let right ← h.rdNext left
      q_swap_loop fuel h head left right
    else .ok h

/-- `q_swap`. -/
def q_swap (fuel : Nat) (h : Heap) (head : Nat) : Res Heap := do
  let left ← h.rdNext head
  let right ← h.rdNext left
  q_swap_loop fuel h head left right

/-- The loop of `q_reverse` (`list_for_each_safe`). -/
def q_reverse_loop : Nat → Heap → Nat → Nat → Nat → Res Heap
  | 0, _, _, _, _ => .timeout
  | fuel + 1, h, head, li, safe =>
    if li = head then .ok h
    else do
      let h ← list_move h li head
      let li := safe
      let safe ← h.rdNext li
      q_reverse_loop fuel h head li safe

/-- `q_reverse`. -/
def q_reverse (fuel : Nat) (h : Heap) (head : Nat) : Res Heap := do
  let li ← h.rdNext head
  let safe ← h.rdNext li
  q_reverse_loop fuel h head li safe

/-- Read `*ptr` for `struct list_head **ptr`, which is `none` for the address
of the local variable `head` (whose content is `headv`) and `some a` for
`&a->next`. -/
def loadThrough (h : Heap) (headv : Nat) : Option Nat → Res Nat
  | none => .ok headv
  | some a => h.rdNext a

/-- Write `*ptr = v`; the result is the heap and the content of the local
variable `head`. -/
def storeThrough (h : Heap) (headv : Nat) (ptr : Option Nat) (v : Nat) :
    Res (Heap × Nat) :=
  match ptr with
  | none => .ok (h, v)
  | some a => do
    let h ← h.wrNext a v
    .ok (h, headv)

/-- The loop of `q_mergefinal` together with the two statements after it. -/
def q_mergefinal_loop : Nat → Heap → Nat → Nat → Nat → Nat → Option Nat →
    Res (Heap × Nat)
  | 0, _, _, _, _, _, _ => .timeout
  | fuel + 1, h, left, right, headv, prev, ptr =>
    if left ≠ 0 ∧ right ≠ 0 then do
      let v1 ← h.rdValue left
      let v2 ← h.rdValue right
      let c ← strcmpPtr v1 v2
      let fromLeft : Bool := decide (c < 0)
      let node := if fromLeft then left else right
      let h ← h.wrPrev node prev
      let prev := node
      let r ← storeThrough h headv ptr node
      let p ← loadThrough r.1 r.2 ptr
      let ptr := some p
      let nn ← r.1.rdNext node
      if fromLeft then q_mergefinal_loop fuel r.1 nn right r.2 prev ptr
      else q_mergefinal_loop fuel r.1 left nn r.2 prev ptr
    else do
      let r ← storeThrough h headv ptr (if left ≠ 0 then left else right)
      let p ← loadThrough r.1 r.2 ptr
      let h ← r.1.wrPrev p prev
      .ok (h, r.2)

/-- `q_mergefinal`. -/
def q_mergefinal (fuel : Nat) (h : Heap) (left right : Nat) : Res (Heap × Nat) :=
  q_mergefinal_loop fuel h left right left 0 none

/-- The fast/slow loop of `q_merge`; the result is `slow`. -/
def q_merge_loop : Nat → Heap → Nat → Nat → Nat → Res Nat
  | 0, _, _, _, _ => .timeout
  | fuel + 1, h, ptr, slow, fast => do
    let fn ← h.rdNext fast
    let pn ← h.rdNext ptr
    if fn = pn then .ok slow
    else do
      let fnn ← h.rdNext fn
      let pn ← h.rdNext ptr
      if fnn = pn then .ok slow
      else do
        let slow ← h.rdNext slow
        let fn ← h.rdNext fast
        let fast ← h.rdNext fn
        q_merge_loop fuel h ptr slow fast

/-- `q_merge`. -/
def q_merge : Nat → Heap → Nat → Res (Heap × Nat)
  | 0, _, _ => .timeout
  | fuel + 1, h, ptr =>
    if ptr = 0 then .ok (h, ptr)
    else do
      let nx ← h.rdNext ptr
      if nx = 0 then .ok (h, ptr)
      else do
        let slow ← q_merge_loop fuel h ptr ptr ptr
        let fast ← h.rdNext slow
        let h ← h.wrNext slow 0
        let l ← q_merge fuel h ptr
        let r ← q_merge fuel l.1 fast
        q_mergefinal fuel r.1 l.2 r.2

/-- The walk `while (ptr->next) ptr = ptr->next;` of `q_sort`. -/
def q_sort_loop : Nat → Heap → Nat → Res Nat
  | 0, _, _ => .timeout
  | fuel + 1, h, ptr => do
    let nx ← h.rdNext ptr
    if nx ≠ 0 then q_sort_loop fuel h nx else .ok ptr

/-- `q_sort`. -/
def q_sort (fuel : Nat) (h : Heap) (head : Nat) : Res Heap :=
  if head = 0 then .ok h
  else do
    let n ← q_size fuel h head
    if n = 0 then .ok h
    else do
      let n ← q_size fuel h head
      if n = 1 then .ok h
      else do
        let tail ← h.rdPrev head
        let h ← h.wrNext tail 0
        let first ← h.rdNext head
        let m ← q_merge fuel h first
        let h ← m.1.wrNext head m.2
        let h ← h.wrPrev m.2 head
        let ptr ← q_sort_loop fuel h m.2
        let h ← h.wrNext ptr head
        h.wrPrev head ptr

/-! ## Well-formed queues -/

/-- A list segment: following `f` from the pointer `p` visits exactly the
nodes `L`, in this order, and then arrives at the pointer `q`. -/
def Path (f : Nat → Nat) : Nat → List Nat → Nat → Prop
  | p, [], q => p = q
  | p, x :: xs, q => p = x ∧ Path f (f x) xs q

instance Path.instDecidable (f : Nat → Nat) :
    ∀ (p : Nat) (L : List Nat) (q : Nat), Decidable (Path f p L q)
  | p, [], q => inferInstanceAs (Decidable (p = q))
  | p, x :: xs, q =>
    @instDecidableAnd (p = x) (Path f (f x) xs q) _ (Path.instDecidable f (f x) xs q)

/-- A well-formed queue: `head` is a live sentinel, the forward traversal from
the sentinel visits the distinct live non-null elements `L` and returns to the
sentinel, and the backward traversal visits them in the reverse order. -/
def Ring (h : Heap) (head : Nat) (L : List Nat) : Prop :=
  head ≠ 0 ∧ 0 ∉ L ∧ (head :: L).Nodup ∧
  Path h.next (h.next head) L head ∧ Path h.prev (h.prev head) L.reverse head ∧
  ∀ x ∈ head :: L, h.live x = true

instance Ring.instDecidable (h : Heap) (head : Nat) (L : List Nat) :
    Decidable (Ring h head L) :=
  inferInstanceAs (Decidable (head ≠ 0 ∧ 0 ∉ L ∧ (head :: L).Nodup ∧
    Path h.next (h.next head) L head ∧ Path h.prev (h.prev head) L.reverse head ∧
    ∀ x ∈ head :: L, h.live x = true))

/-- The payloads of the elements `L` are the strings `vs` (none is `NULL`). -/
def Payloads (h : Heap) (L : List Nat) (vs : List (List Nat)) : Prop :=
  L.map h.value = vs.map some

instance Payloads.instDecidable (h : Heap) (L : List Nat) (vs : List (List Nat)) :
    Decidable (Payloads h L vs) :=
  inferInstanceAs (Decidable (L.map h.value = vs.map some))

/-- Following `f` around the cyclic list `C` from its first node returns to it. -/
def CycP (f : Nat → Nat) : List Nat → Prop
  | [] => True
  | a :: r => Path f (f a) r a

/-- The cyclic list `C` is traversed forwards by `f` and backwards by `g`. -/
def Cyc2 (f g : Nat → Nat) (C : List Nat) : Prop :=
  CycP f C ∧ CycP g C.reverse

/-- A ring seen as a cyclic list of nodes, the sentinel being one of them. -/
def RingC (h : Heap) (C : List Nat) : Prop :=
  C.Nodup ∧ 0 ∉ C ∧ Cyc2 h.next h.prev C ∧ ∀ x ∈ C, h.live x = true

/-- The heap after `list_del(node)`. -/
def Heap.unlink (h : Heap) (node : Nat) : Heap :=
  { h with
    prev := upd h.prev (h.next node) (h.prev node)
    next := upd (h.next) (h.prev node) (h.next node) }

/-- The heap after `list_add(node, y)`. -/
def Heap.linkAfter (h : Heap) (node y : Nat) : Heap :=
  { h with
    prev := upd (upd h.prev (h.next y) node) node y
    next := upd (upd h.next node (h.next y)) y node }

/-- The heap after `list_add_tail(node, y)`. -/
def Heap.linkBefore (h : Heap) (node y : Nat) : Heap :=
  { h with
    next := upd (upd h.next (h.prev y) node) node y
    prev := upd (upd h.prev node (h.prev y)) y node }

/-- The heap after `INIT_LIST_HEAD(node)`. -/
def Heap.selfLink (h : Heap) (node : Nat) : Heap :=
  { h with next := upd h.next node node, prev := upd h.prev node node }

/-- The heap after `q_release_element(e)`. -/
def Heap.release (h : Heap) (e : Nat) : Heap :=
  { h with value := upd h.value e none, live := upd h.live e false }

/-- The heap after `list_del_init(node); q_release_element(node)`. -/
def Heap.delete (h : Heap) (node : Nat) : Heap :=
  ((h.unlink node).selfLink node).release node

/-- The payload of an element as a string (`NULL` read as the empty string). -/
def Heap.str (h : Heap) (x : Nat) : List Nat :=
  (h.value x).getD []

/-- The test `strcmp(el->value, el2->value) < 0` of `q_mergefinal`, on payload
tables: the left node is taken exactly when its payload is strictly smaller. -/
def takeLeft (v : Nat → Option (List Nat)) (a b : Nat) : Bool :=
  decide (strcmp ((v a).getD []) ((v b).getD []) < 0)

/-- The order in which `q_mergefinal` chains the nodes of a left chain `A` and
a right chain `B`. -/
def mergeNodes (v : Nat → Option (List Nat)) : List Nat → List Nat → List Nat
  | [], B => B
  | a :: A, [] => a :: A
  | a :: A, b :: B =>
    if takeLeft v a b then a :: mergeNodes v A (b :: B) else b :: mergeNodes v (a :: A) B
termination_by A B => A.length + B.length

/-- The order in which `q_merge` leaves the nodes of a chain: the first node is
split off, the remainder is sorted, and the two are merged. -/
def sortNodes (v : Nat → Option (List Nat)) : List Nat → List Nat
  | [] => []
  | x :: R => mergeNodes v [x] (sortNodes v R)

/-- The `prev` fields inside a chain are consistent: going backwards from the
last node of `L` visits `L` in reverse. -/
def BackLinked (g : Nat → Nat) (L : List Nat) : Prop :=
  ∃ e, Path g (L.getLastD e) L.reverse e

/-- The output chain `O` built so far by `q_mergefinal`: `ptr` is the address
of the link that the next node will be stored through and `prev` the last node
of the output. -/
def OutInv (h : Heap) (headv : Nat) (ptr : Option Nat) (prev : Nat) (O : List Nat) : Prop :=
  (O = [] ∧ ptr = none ∧ prev = 0) ∨
    ∃ O' t, O = O' ++ [t] ∧ ptr = some t ∧ prev = t ∧ Path h.next headv O' t

/-- Ascending order of strings: `strcmp s t ≤ 0`. -/
def strLe (s t : List Nat) : Prop := strcmp s t ≤ 0

instance strLe.instDecidableRel : DecidableRel strLe :=
  fun s t => inferInstanceAs (Decidable (strcmp s t ≤ 0))

/-- Strictly ascending order of strings: `strcmp s t < 0`. -/
def strLt (s t : List Nat) : Prop := strcmp s t < 0

instance strLt.instDecidableRel : DecidableRel strLt :=
  fun s t => inferInstanceAs (Decidable (strcmp s t < 0))

/-- Ascending order of the payloads of two elements. -/
def nodeLe (v : Nat → Option (List Nat)) (a b : Nat) : Prop :=
  strLe ((v a).getD []) ((v b).getD [])

/-- Strictly ascending order of the payloads of two elements. -/
def nodeLt (v : Nat → Option (List Nat)) (a b : Nat) : Prop :=
  strLt ((v a).getD []) ((v b).getD [])

instance nodeLe.instDecidable (v : Nat → Option (List Nat)) (a b : Nat) :
    Decidable (nodeLe v a b) :=
  inferInstanceAs (Decidable (strLe ((v a).getD []) ((v b).getD [])))

instance nodeLt.instDecidable (v : Nat → Option (List Nat)) (a b : Nat) :
    Decidable (nodeLt v a b) :=
  inferInstanceAs (Decidable (strLt ((v a).getD []) ((v b).getD [])))

/-! ## Concrete queues -/

/-- The successor of `p` in a list of nodes. -/
def succIn : List Nat → Nat → Nat
  | a :: b :: r, p => if p = a then b else succIn (b :: r) p
  | _, _ => 0

/-- The payload of `p` in a list of nodes with their payloads. -/
def valIn : List Nat → List (List Nat) → Nat → Option (List Nat)
  | x :: xs, v :: vs, p => if p = x then some v else valIn xs vs p
  | _, _, _ => none

/-- The heap holding one queue: sentinel `head`, elements `L` with payloads
`vals`. -/
def mkRing (head : Nat) (L : List Nat) (vals : List (List Nat)) : Heap where
  next := succIn (head :: (L ++ [head]))
  prev := succIn (head :: (L.reverse ++ [head]))
  value := valIn L vals
  live := fun p => decide (p ∈ head :: L)

/-- Follow `f` from `p` until `head`, at most `fuel` steps. -/
def walk : Nat → (Nat → Nat) → Nat → Nat → List Nat
  | 0, _, _, _ => []
  | fuel + 1, f, head, p => if p = head then [] else p :: walk fuel f head (f p)

/-- The elements met going forwards from the sentinel. -/
def Heap.elems (h : Heap) (head fuel : Nat) : List Nat :=
  walk fuel h.next head (h.next head)

/-- The payloads met going forwards from the sentinel. -/
def Heap.payloads (h : Heap) (head fuel : Nat) : List (Option (List Nat)) :=
  (h.elems head fuel).map h.value

/-- Apply a function to the value of a run. -/
def Res.map {α β : Type} (f : α → β) : Res α → Res β
  | .ok a => .ok (f a)
  | .fault => .fault
  | .timeout => .timeout

/-! ## List-level descriptions of the operations -/

/-- Exchange each adjacent pair counted from the front; a trailing single
element stays in place. -/
def swapPairs : List Nat → List Nat
  | a :: b :: r => b :: a :: swapPairs r
  | l => l

/-- Keep `cur`, drop the following elements while their key equals the key of
the kept one, and go on from the first element with another key. -/
def dedupFrom {κ : Type} [DecidableEq κ] (key : Nat → κ) : Nat → List Nat → List Nat
  | cur, [] => [cur]
  | cur, y :: R => if key cur = key y then dedupFrom key cur R else cur :: dedupFrom key y R

/-- Keep the first element of every run of adjacent elements with equal keys. -/
def dedupAdj {κ : Type} [DecidableEq κ] (key : Nat → κ) : List Nat → List Nat
  | [] => []
  | x :: R => dedupFrom key x R

/-- Every node `n` of the ring, the sentinel included, has
`n.next.prev == n` and `n.prev.next == n`. -/
def DoublyLinked (h : Heap) (head : Nat) (L : List Nat) : Prop :=
  ∀ n ∈ head :: L, h.prev (h.next n) = n ∧ h.next (h.prev n) = n

instance DoublyLinked.instDecidable (h : Heap) (head : Nat) (L : List Nat) :
    Decidable (DoublyLinked h head L) :=
  inferInstanceAs (Decidable (∀ n ∈ head :: L, h.prev (h.next n) = n ∧ h.next (h.prev n) = n))

/-- The ring invariant: the queue anchored at `head` is a ring of some
elements, traversed in opposite orders by `next` and `prev`, and every node is
consistently linked to its neighbours. -/
def WellFormed (h : Heap) (head : Nat) : Prop :=
  ∃ L, Ring h head L ∧ DoublyLinked h head L

/-- A destination buffer that is `NULL`, or has room for `bufsize ≥ 1` bytes. -/
def BufferFits (sp : Option (List Nat)) (bufsize : Nat) : Prop :=
  ∀ buf, sp = some buf → 0 < bufsize ∧ bufsize ≤ buf.length

/-- The queue `[c, a, b, a, c]`: sentinel `1`, elements `2 .. 6`. -/
def heapCabac : Heap :=
  mkRing 1 [2, 3, 4, 5, 6] [[99], [97], [98], [97], [99]]

/-- The queue `[a, a, b, c, c]`, sorted ascending: sentinel `1`, elements `2 .. 6`. -/
def heapAabcc : Heap :=
  mkRing 1 [2, 3, 4, 5, 6] [[97], [97], [98], [99], [99]]

/-- The queue `["0", "1", "2", "3", "4", "5"]`: sentinel `1`, elements `2 .. 7`. -/
def heapDigits : Heap :=
  mkRing 1 [2, 3, 4, 5, 6, 7] [[48], [49], [50], [51], [52], [53]]

/-- The queue `[a, a]` of two elements with equal payloads: sentinel `1`,
elements `2` and `3`. -/
def heapTie : Heap :=
  mkRing 1 [2, 3] [[97], [97]]

/-! ## Sequences of calls -/

/-- One call of an insertion or a removal function, with the arguments the
caller passes and, for an insertion, the answers of the allocator. -/
inductive Op where
  | insertHead (s : List Nat) (m : Nat) (sd : Bool)
  | insertTail (s : List Nat) (m : Nat) (sd : Bool)
  | removeHead (sp : Option (List Nat)) (bufsize : Nat)
  | removeTail (sp : Option (List Nat)) (bufsize : Nat)

/-- Run one call: the heap afterwards, whether an insertion succeeded, and the
element a removal returned (`0` for `NULL` and for an insertion). -/
def runOp (fuel : Nat) (h : Heap) (head : Nat) : Op → Res (Heap × Bool × Nat)
  | .insertHead s m sd => do
    let r ← q_insert_head h head s m sd
    .ok (r.1, r.2, 0)
  | .insertTail s m sd => do
    let r ← q_insert_tail h head s m sd
    .ok (r.1, r.2, 0)
  | .removeHead sp bufsize => do
    let r ← q_remove_head fuel h head sp bufsize
    .ok (r.1, false, r.2.1)
  | .removeTail sp bufsize => do
    let r ← q_remove_tail fuel h head sp bufsize
    .ok (r.1, false, r.2.1)

/-- Run a sequence of calls: the heap afterwards, the number of successful
insertions, and the elements returned by the successful removals, in order. -/
def runOps (fuel : Nat) : Heap → Nat → List Op → Res (Heap × Nat × List Nat)
  | h, _, [] => .ok (h, 0, [])
  | h, head, op :: ops => do
    let r ← runOp fuel h head op
    let t ← runOps fuel r.1 head ops
    .ok (t.1, (if r.2.1 then 1 else 0) + t.2.1, if r.2.2 = 0 then t.2.2 else r.2.2 :: t.2.2)

/-- A destination buffer that is `NULL`, or has room for `bufsize ≥ 1` bytes
(the decidable form of `BufferFits`). -/
def bufferFits : Option (List Nat) → Nat → Bool
  | none, _ => true
  | some buf, bufsize => decide (0 < bufsize ∧ bufsize ≤ buf.length)

/-- What a call may assume: `malloc` answers `NULL` or a block that is not
live, and a non-null destination buffer has room for `bufsize ≥ 1` bytes while
the element to remove, if there is one, has a payload. -/
def OpPre (h : Heap) (head : Nat) : Op → Prop
  | .insertHead _ m _ => m = 0 ∨ h.live m = false
  | .insertTail _ m _ => m = 0 ∨ h.live m = false
  | .removeHead sp bufsize => bufferFits sp bufsize = true ∧
      (sp.isSome = true → h.next head ≠ head → (h.value (h.next head)).isSome = true)
  | .removeTail sp bufsize => bufferFits sp bufsize = true ∧
      (sp.isSome = true → h.prev head ≠ head → (h.value (h.prev head)).isSome = true)

instance OpPre.instDecidable (h : Heap) (head : Nat) : ∀ op, Decidable (OpPre h head op)
  | .insertHead _ m _ => inferInstanceAs (Decidable (m = 0 ∨ h.live m = false))
  | .insertTail _ m _ => inferInstanceAs (Decidable (m = 0 ∨ h.live m = false))
  | .removeHead sp bufsize => inferInstanceAs (Decidable (bufferFits sp bufsize = true ∧
      (sp.isSome = true → h.next head ≠ head → (h.value (h.next head)).isSome = true)))
  | .removeTail sp bufsize => inferInstanceAs (Decidable (bufferFits sp bufsize = true ∧
      (sp.isSome = true → h.prev head ≠ head → (h.value (h.prev head)).isSome = true)))

/-- Every call of the sequence may assume `OpPre` in the heap it is made in. -/
def Admissible (fuel : Nat) : Heap → Nat → List Op → Prop
  | _, _, [] => True
  | h, head, op :: ops => OpPre h head op ∧
      match runOp fuel h head op with
      | .ok r => Admissible fuel r.1 head ops
      | _ => True

instance Admissible.instDecidable (fuel : Nat) :
    ∀ (h : Heap) (head : Nat) (ops : List Op), Decidable (Admissible fuel h head ops)
  | _, _, [] => isTrue trivial
  | h, head, op :: ops =>
    match hr : runOp fuel h head op with
    | .ok r =>
      match OpPre.instDecidable h head op, Admissible.instDecidable fuel r.1 head ops with
      | isTrue a, isTrue b => isTrue ⟨a, by rw [hr]; exact b⟩
      | isFalse a, _ => isFalse (fun c => a c.1)
      | _, isFalse b => isFalse (fun c => b (by have := c.2; rw [hr] at this; exact this))
    | .fault =>
      match OpPre.instDecidable h head op with
      | isTrue a => isTrue ⟨a, by rw [hr]; exact True.intro⟩
      | isFalse a => isFalse (fun c => a c.1)
    | .timeout =>
      match OpPre.instDecidable h head op with
      | isTrue a => isTrue ⟨a, by rw [hr]; exact True.intro⟩
      | isFalse a => isFalse (fun c => a c.1)

/-- The queue as a list of elements with their payloads. -/
abbrev Items := List (Nat × Option (List Nat))

/-- One call on the list of elements: the list afterwards, whether an
insertion succeeded, and the element removed. -/
def absOp (Q : Items) : Op → Items × Bool × Option (Nat × Option (List Nat))
  | .insertHead s m sd => if m = 0 then (Q, false, none) else ((m, strdup s sd) :: Q, true, none)
  | .insertTail s m sd => if m = 0 then (Q, false, none) else (Q ++ [(m, strdup s sd)], true, none)
  | .removeHead _ _ => (Q.tail, false, Q.head?)
  | .removeTail _ _ => (Q.dropLast, false, Q.getLast?)

/-- A sequence of calls on the list of elements: the list afterwards, the
number of successful insertions, and the elements removed, in order. -/
def absRun : Items → List Op → Items × Nat × Items
  | Q, [] => (Q, 0, [])
  | Q, op :: ops =>
    ((absRun (absOp Q op).1 ops).1,
      (if (absOp Q op).2.1 then 1 else 0) + (absRun (absOp Q op).1 ops).2.1,
      (absOp Q op).2.2.toList ++ (absRun (absOp Q op).1 ops).2.2)

/-- The heap holds the queue `Q`, and the elements of `Q` and the removed
elements `Rm` are live and carry their payloads. -/
def Tracks (h : Heap) (head : Nat) (Q Rm : Items) : Prop :=
  Ring h head (Q.map Prod.fst) ∧ ∀ p ∈ Q ++ Rm, h.value p.1 = p.2 ∧ h.live p.1 = true

/-- The calls inserting the strings of `items` at the head, one after another,
all allocations succeeding. -/
def insertHeads (items : List (List Nat × Nat)) : List Op :=
  items.map (fun p => Op.insertHead p.1 p.2 true)

/-- The bytes of the C string held by a buffer: those before the first zero. -/
def cstring (buf : List Nat) : List Nat :=
  buf.takeWhile (fun b => b ≠ 0)

/-- What `q_delete_dup` leaves behind an element `p`, in the words of the
claim: an element is removed exactly when its key equals the key of the
element immediately before it. -/
def afterPrev {κ : Type} [DecidableEq κ] (key : Nat → κ) : Nat → List Nat → List Nat
  | _, [] => []
  | p, y :: r => if key y = key p then afterPrev key y r else y :: afterPrev key y r

/-- The elements whose key differs from the key of the element immediately
before them, the first element included. -/
def survivors {κ : Type} [DecidableEq κ] (key : Nat → κ) : List Nat → List Nat
  | [] => []
  | x :: r => x :: afterPrev key x r

/-- The queue `[a, a, b]`, sorted ascending: sentinel `1`, elements `2, 3, 4`. -/
def heapAab : Heap :=
  mkRing 1 [2, 3, 4] [[97], [97], [98]]

/-- The queue `[a, b, a]`: sentinel `1`, elements `2, 3, 4`. -/
def heapAba : Heap :=
  mkRing 1 [2, 3, 4] [[97], [98], [97]]

/-- The empty queue with sentinel `1`. -/
def heapEmpty : Heap :=
  mkRing 1 [] []

/-- A null-terminated chain of the four nodes `2, 3, 4, 5` with payloads
`d, c, b, a`. -/
def heapChain : Heap where
  next := succIn [2, 3, 4, 5, 0]
  prev := fun _ => 0
  value := valIn [2, 3, 4, 5] [[100], [99], [98], [97]]
  live := fun p => decide (p ∈ [2, 3, 4, 5])

/-- The queue `["hello", "hi"]`: sentinel `1`, elements `2` and `3`. -/
def heapWords : Heap :=
  mkRing 1 [2, 3] [[104, 101, 108, 108, 111], [104, 105]]

/-! ## Basic facts -/

section Basics

variable {α β : Type}

@[simp]
theorem Res.ok_bind (a : α) (f : α → Res β) : (Res.ok a >>= f) = f a := rfl
@[simp]
theorem Res.fault_bind (f : α → Res β) : ((Res.fault : Res α) >>= f) = Res.fault := rfl
@[simp]
theorem Res.timeout_bind (f : α → Res β) :
    ((Res.timeout : Res α) >>= f) = Res.timeout := rfl
@[simp]
theorem Res.pure_eq (a : α) : (pure a : Res α) = Res.ok a := rfl

@[simp]
theorem upd_same (f : Nat → α) (p : Nat) (v : α) : upd f p v p = v := by
  simp [upd]

theorem upd_ne (f : Nat → α) {p q : Nat} (v : α) (hq : q ≠ p) : upd f p v q = f q := by
  simp [upd, hq]

end Basics

/-! ## List segments -/

theorem path_append_cons (f : Nat → Nat) (A : List Nat) (x : Nat) (B : List Nat) :
    ∀ p q, Path f p (A ++ x :: B) q ↔ Path f p A x ∧ Path f (f x) B q := by
  induction A with
  | nil => intro p q; simp [Path]
  | cons a A ih => intro p q; simp [Path, ih, and_assoc]

theorem path_snoc (f : Nat → Nat) (A : List Nat) (x p q : Nat) :
    Path f p (A ++ [x]) q ↔ Path f p A x ∧ f x = q := by
  rw [path_append_cons]; simp [Path]

theorem path_congr {f f' : Nat → Nat} : ∀ (L : List Nat) (p q : Nat),
    (∀ x ∈ L, f' x = f x) → (Path f' p L q ↔ Path f p L q) := by
  intro L
  induction L with
  | nil => intro p q _; simp [Path]
  | cons a L ih =>
    intro p q hf
    simp only [Path]
    rw [hf a (List.mem_cons_self _ _), ih _ _ (fun x hx => hf x (List.mem_cons_of_mem _ hx))]

theorem path_upd {f : Nat → Nat} {a : Nat} (v : Nat) {L : List Nat} (p q : Nat)
    (ha : a ∉ L) : Path (upd f a v) p L q ↔ Path f p L q :=
  path_congr L p q (fun _ hx => upd_ne f v (fun e => ha (e ▸ hx)))

theorem path_start {f : Nat → Nat} {p q : Nat} {L : List Nat} (hp : Path f p L q) :
    p = L.headD q := by
  cases L with
  | nil => simpa [Path] using hp
  | cons a L => simpa [Path] using hp.1

theorem getLastD_mem (S : List Nat) (a : Nat) : S.getLastD a ∈ a :: S := by
  induction S generalizing a with
  | nil => simp
  | cons b S ih =>
    have := ih b
    simp only [List.getLastD_cons]
    exact List.mem_cons_of_mem _ this

theorem headD_reverse (R : List Nat) (x : Nat) : R.reverse.headD x = R.getLastD x := by
  induction R generalizing x with
  | nil => rfl
  | cons b R ih =>
    rw [List.getLastD_cons, ← ih b, List.reverse_cons]
    cases R.reverse <;> rfl

theorem getLastD_reverse (R : List Nat) (x : Nat) : R.reverse.getLastD x = R.headD x := by
  have := headD_reverse R.reverse x
  rw [List.reverse_reverse] at this
  exact this.symm

/-- Redirecting the pointer that leaves a segment redirects the segment. -/
theorem path_retarget {f : Nat → Nat} (n : Nat) : ∀ (S : List Nat) (a x : Nat),
    Path f a (a :: S) x → (a :: S).Nodup →
    Path (upd f (S.getLastD a) n) a (a :: S) n := by
  intro S
  induction S with
  | nil => intro a _ _ _; simp [Path]
  | cons b S ih =>
    intro a x hp hn
    simp only [Path, true_and] at hp
    have hn' : (b :: S).Nodup := (List.nodup_cons.1 hn).2
    have hab : a ≠ S.getLastD b := fun e => (List.nodup_cons.1 hn).1 (e ▸ getLastD_mem S b)
    have := ih b x (by simp only [Path, true_and]; exact hp.2) hn'
    simp only [Path, true_and] at this ⊢
    rw [List.getLastD_cons, upd_ne _ _ hab]
    exact ⟨hp.1, this⟩

/-! ## Cyclic lists -/

theorem cycP_rotate (f : Nat → Nat) (A B : List Nat) : CycP f (A ++ B) ↔ CycP f (B ++ A) := by
  cases A with
  | nil => simp
  | cons a A =>
    cases B with
    | nil => simp
    | cons b B =>
      simp only [List.cons_append, CycP, path_append_cons]
      exact and_comm

theorem cyc2_rotate (f g : Nat → Nat) (A B : List Nat) :
    Cyc2 f g (A ++ B) ↔ Cyc2 f g (B ++ A) := by
  unfold Cyc2
  rw [cycP_rotate f A B, List.reverse_append, List.reverse_append,
    cycP_rotate g B.reverse A.reverse]

theorem cyc2_mirror (f g : Nat → Nat) (C : List Nat) : Cyc2 f g C ↔ Cyc2 g f C.reverse := by
  unfold Cyc2
  rw [List.reverse_reverse]
  exact and_comm

theorem cyc2_mirror_cons (f g : Nat → Nat) (y : Nat) (R : List Nat) :
    Cyc2 f g (y :: R) ↔ Cyc2 g f (y :: R.reverse) := by
  rw [cyc2_mirror, List.reverse_cons, cyc2_rotate]
  rfl

theorem cyc2_next_front {f g : Nat → Nat} {x : Nat} {R : List Nat} (h : Cyc2 f g (x :: R)) :
    f x = R.headD x :=
  path_start h.1

theorem cyc2_prev_front {f g : Nat → Nat} {x : Nat} {R : List Nat} (h : Cyc2 f g (x :: R)) :
    g x = R.getLastD x := by
  have := cyc2_next_front ((cyc2_mirror_cons f g x R).1 h)
  rw [this, headD_reverse]

theorem cycP_del {f : Nat → Nat} {x p : Nat} {R : List Nat} (hc : CycP f (x :: R))
    (hR : R ≠ []) (hn : (x :: R).Nodup) (hp : p = R.getLastD x) :
    CycP (upd f p (f x)) R := by
  cases R with
  | nil => exact absurd rfl hR
  | cons r R =>
    simp only [CycP, Path] at hc ⊢
    have h1 := path_retarget r R r x (by simp only [Path, true_and]; exact hc.2)
      (List.nodup_cons.1 hn).2
    simp only [Path, true_and] at h1
    rw [List.getLastD_cons] at hp
    rw [hp, hc.1]
    exact h1

theorem cyc2_del {f g : Nat → Nat} {x : Nat} {R : List Nat} (hc : Cyc2 f g (x :: R))
    (hR : R ≠ []) (hn : (x :: R).Nodup) :
    Cyc2 (upd f (g x) (f x)) (upd g (f x) (g x)) R := by
  refine ⟨cycP_del hc.1 hR hn (cyc2_prev_front hc), ?_⟩
  have hm := (cyc2_mirror_cons f g x R).1 hc
  refine cycP_del hm.1 (by simpa using hR) (by simpa using hn) ?_
  rw [cyc2_next_front hc, getLastD_reverse]

theorem cyc2_add {f g : Nat → Nat} {y node : Nat} {R : List Nat} (hc : Cyc2 f g (y :: R))
    (hn : (y :: R).Nodup) (hnode : node ∉ y :: R) :
    Cyc2 (upd (upd f node (f y)) y node) (upd (upd g (f y) node) node y) (y :: node :: R) := by
  have hny : node ≠ y := fun e => hnode (e ▸ List.mem_cons_self _ _)
  have hnR : node ∉ R := fun e => hnode (List.mem_cons_of_mem _ e)
  have hyR : y ∉ R := (List.nodup_cons.1 hn).1
  constructor
  · simp only [CycP, Path, upd_same, true_and]
    rw [upd_ne _ _ hny, upd_same, path_upd _ _ _ hyR, path_upd _ _ _ hnR]
    exact hc.1
  · have hm := (cyc2_mirror_cons f g y R).1 hc
    have h1 := path_retarget node R.reverse y y (by simp only [Path, true_and]; exact hm.1)
      (by simpa using hn)
    rw [getLastD_reverse, ← cyc2_next_front hc] at h1
    have h2 := (path_upd y y node (L := y :: R.reverse) (f := upd g (f y) node) (a := node)
      (by simpa using hnode)).2 h1
    have : (y :: node :: R).reverse = (R.reverse ++ [node]) ++ [y] := by simp
    rw [this, cycP_rotate]
    simp only [List.singleton_append, CycP, path_snoc, upd_same, and_true]
    simpa only [Path, true_and] using h2

/-! ## Rings and the list.h operations -/

theorem ringC_rotate (h : Heap) (A B : List Nat) : RingC h (A ++ B) ↔ RingC h (B ++ A) := by
  unfold RingC
  rw [List.nodup_append_comm, cyc2_rotate]
  simp only [List.mem_append]
  constructor <;> rintro ⟨h1, h2, h3, h4⟩ <;>
    exact ⟨h1, fun e => h2 e.symm, h3, fun x hx => h4 x hx.symm⟩

theorem cyc2_cons_iff (f g : Nat → Nat) (y : Nat) (R : List Nat) :
    Cyc2 f g (y :: R) ↔ Path f (f y) R y ∧ Path g (g y) R.reverse y := by
  unfold Cyc2
  rw [List.reverse_cons, cycP_rotate]
  rfl

theorem ring_iff (h : Heap) (head : Nat) (L : List Nat) : Ring h head L ↔ RingC h (head :: L) := by
  unfold Ring RingC
  rw [cyc2_cons_iff]
  simp only [List.mem_cons, not_or]
  constructor
  · rintro ⟨h1, h2, h3, h4, h5, h6⟩
    exact ⟨h3, ⟨fun e => h1 e.symm, h2⟩, ⟨h4, h5⟩, h6⟩
  · rintro ⟨h3, ⟨h1, h2⟩, ⟨h4, h5⟩, h6⟩
    exact ⟨fun e => h1 e.symm, h2, h3, h4, h5, h6⟩

theorem ringC_ne_zero {h : Heap} {C : List Nat} (hr : RingC h C) {x : Nat} (hx : x ∈ C) :
    x ≠ 0 := fun e => hr.2.1 (e ▸ hx)

theorem headD_mem_cons (R : List Nat) (x : Nat) : R.headD x ∈ x :: R := by
  cases R <;> simp

theorem ringC_next_mem {h : Heap} {x : Nat} {R : List Nat} (hr : RingC h (x :: R)) :
    h.next x ∈ x :: R := by
  rw [cyc2_next_front hr.2.2.1]; exact headD_mem_cons R x

theorem ringC_prev_mem {h : Heap} {x : Nat} {R : List Nat} (hr : RingC h (x :: R)) :
    h.prev x ∈ x :: R := by
  rw [cyc2_prev_front hr.2.2.1]; exact getLastD_mem R x

theorem list_del_eq {h : Heap} {x : Nat} (hx : x ≠ 0) (hn : h.next x ≠ 0) (hp : h.prev x ≠ 0) :
    list_del h x = .ok (h.unlink x) := by
  simp [list_del, Heap.rdNext, Heap.rdPrev, Heap.wrNext, Heap.wrPrev, hx, hn, hp, Heap.unlink]

theorem list_add_eq {h : Heap} {node y : Nat} (hy : y ≠ 0) (hn : h.next y ≠ 0)
    (hnode : node ≠ 0) : list_add h node y = .ok (h.linkAfter node y) := by
  simp [list_add, Heap.rdNext, Heap.wrNext, Heap.wrPrev, hy, hn, hnode, Heap.linkAfter]

theorem list_add_tail_eq {h : Heap} {node y : Nat} (hy : y ≠ 0) (hp : h.prev y ≠ 0)
    (hnode : node ≠ 0) : list_add_tail h node y = .ok (h.linkBefore node y) := by
  simp [list_add_tail, Heap.rdPrev, Heap.wrNext, Heap.wrPrev, hy, hp, hnode, Heap.linkBefore]

theorem init_list_head_eq {h : Heap} {x : Nat} (hx : x ≠ 0) :
    INIT_LIST_HEAD h x = .ok (h.selfLink x) := by
  simp [INIT_LIST_HEAD, Heap.wrNext, Heap.wrPrev, hx, Heap.selfLink]

theorem ringC_del {h : Heap} {x : Nat} {R : List Nat} (hr : RingC h (x :: R)) (hR : R ≠ []) :
    list_del h x = .ok (h.unlink x) ∧ RingC (h.unlink x) R := by
  have hx := ringC_ne_zero hr (List.mem_cons_self _ _)
  refine ⟨list_del_eq hx (ringC_ne_zero hr (ringC_next_mem hr))
    (ringC_ne_zero hr (ringC_prev_mem hr)), ?_⟩
  obtain ⟨h1, h2, h3, h4⟩ := hr
  exact ⟨(List.nodup_cons.1 h1).2, fun e => h2 (List.mem_cons_of_mem _ e), cyc2_del h3 hR h1,
    fun y hy => h4 y (List.mem_cons_of_mem _ hy)⟩

theorem ringC_add {h : Heap} {y node : Nat} {R : List Nat} (hr : RingC h (y :: R))
    (hnode : node ∉ y :: R) (h0 : node ≠ 0) (hl : h.live node = true) :
    list_add h node y = .ok (h.linkAfter node y) ∧
      RingC (h.linkAfter node y) (y :: node :: R) := by
  have hy := ringC_ne_zero hr (List.mem_cons_self _ _)
  refine ⟨list_add_eq hy (ringC_ne_zero hr (ringC_next_mem hr)) h0, ?_⟩
  obtain ⟨h1, h2, h3, h4⟩ := hr
  refine ⟨?_, ?_, cyc2_add h3 h1 hnode, ?_⟩
  · simp only [List.nodup_cons, List.mem_cons, not_or] at h1 hnode ⊢
    exact ⟨⟨fun e => hnode.1 e.symm, h1.1⟩, hnode.2, h1.2⟩
  · simp only [List.mem_cons, not_or] at h2 ⊢
    exact ⟨h2.1, fun e => h0 e.symm, h2.2⟩
  · intro z hz
    simp only [List.mem_cons] at hz
    rcases hz with rfl | rfl | hz
    · exact h4 _ (List.mem_cons_self _ _)
    · exact hl
    · exact h4 _ (List.mem_cons_of_mem _ hz)

theorem ringC_mirror_cons (h : Heap) (y : Nat) (R : List Nat) :
    RingC h (y :: R) ↔ RingC ⟨h.prev, h.next, h.value, h.live⟩ (y :: R.reverse) := by
  unfold RingC
  rw [cyc2_mirror_cons]
  simp

theorem ringC_add_tail {h : Heap} {y node : Nat} {R : List Nat} (hr : RingC h (y :: R))
    (hnode : node ∉ y :: R) (h0 : node ≠ 0) (hl : h.live node = true) :
    list_add_tail h node y = .ok (h.linkBefore node y) ∧
      RingC (h.linkBefore node y) (y :: (R ++ [node])) := by
  have hy := ringC_ne_zero hr (List.mem_cons_self _ _)
  refine ⟨list_add_tail_eq hy (ringC_ne_zero hr (ringC_prev_mem hr)) h0, ?_⟩
  have hm := (ringC_mirror_cons h y R).1 hr
  have := (ringC_add hm (by simpa using hnode) h0 hl).2
  rw [ringC_mirror_cons]
  simpa [Heap.linkAfter, Heap.linkBefore] using this

theorem ring_ne_zero {h : Heap} {head : Nat} {L : List Nat} (hr : Ring h head L) {x : Nat}
    (hx : x ∈ head :: L) : x ≠ 0 :=
  ringC_ne_zero ((ring_iff h head L).1 hr) hx

theorem ring_not_mem {h : Heap} {head : Nat} {L : List Nat} (hr : Ring h head L) : head ∉ L :=
  (List.nodup_cons.1 hr.2.2.1).1

theorem ring_nodup {h : Heap} {head : Nat} {L : List Nat} (hr : Ring h head L) : L.Nodup :=
  (List.nodup_cons.1 hr.2.2.1).2

/-- Only the fields of the nodes of a ring matter. -/
theorem ring_congr {h h' : Heap} {head : Nat} {L : List Nat} (hr : Ring h head L)
    (hn : ∀ z ∈ head :: L, h'.next z = h.next z) (hp : ∀ z ∈ head :: L, h'.prev z = h.prev z)
    (hl : ∀ z ∈ head :: L, h'.live z = h.live z) : Ring h' head L := by
  obtain ⟨h1, h2, h3, h4, h5, h6⟩ := hr
  refine ⟨h1, h2, h3, ?_, ?_, fun z hz => (hl z hz).trans (h6 z hz)⟩
  · rw [hn head (List.mem_cons_self _ _)]
    exact (path_congr L _ _ (fun x hx => hn x (List.mem_cons_of_mem _ hx))).2 h4
  · rw [hp head (List.mem_cons_self _ _)]
    exact (path_congr L.reverse _ _
      (fun x hx => hp x (List.mem_cons_of_mem _ (List.mem_reverse.1 hx)))).2 h5

theorem ring_next_head {h : Heap} {head : Nat} {L : List Nat} (hr : Ring h head L) :
    h.next head = L.headD head :=
  path_start hr.2.2.2.1

theorem ring_prev_head {h : Heap} {head : Nat} {L : List Nat} (hr : Ring h head L) :
    h.prev head = L.getLastD head := by
  rw [path_start hr.2.2.2.2.1, headD_reverse]

theorem ring_next_mid {h : Heap} {head x : Nat} {L1 L2 : List Nat}
    (hr : Ring h head (L1 ++ x :: L2)) : h.next x = L2.headD head :=
  path_start ((path_append_cons _ _ _ _ _ _).1 hr.2.2.2.1).2

theorem ring_prev_mid {h : Heap} {head x : Nat} {L1 L2 : List Nat}
    (hr : Ring h head (L1 ++ x :: L2)) : h.prev x = L1.getLastD head := by
  have := hr.2.2.2.2.1
  rw [List.reverse_append, List.reverse_cons, List.append_assoc, List.singleton_append,
    path_append_cons] at this
  rw [path_start this.2, headD_reverse]

theorem ring_del {h : Heap} {head x : Nat} {L1 L2 : List Nat}
    (hr : Ring h head (L1 ++ x :: L2)) :
    list_del h x = .ok (h.unlink x) ∧ Ring (h.unlink x) head (L1 ++ L2) := by
  have h1 : RingC h ((head :: L1) ++ (x :: L2)) := (ring_iff _ _ _).1 hr
  rw [ringC_rotate] at h1
  have h2 := ringC_del (R := L2 ++ (head :: L1)) h1 (by simp)
  refine ⟨h2.1, ?_⟩
  rw [ring_iff]
  have h3 := h2.2
  rw [ringC_rotate] at h3
  exact h3

theorem ring_add_head {h : Heap} {head node : Nat} {L : List Nat} (hr : Ring h head L)
    (hnode : node ∉ head :: L) (h0 : node ≠ 0) (hl : h.live node = true) :
    list_add h node head = .ok (h.linkAfter node head) ∧
      Ring (h.linkAfter node head) head (node :: L) := by
  have := ringC_add ((ring_iff _ _ _).1 hr) hnode h0 hl
  exact ⟨this.1, (ring_iff _ _ _).2 this.2⟩

theorem ring_add_tail {h : Heap} {head node : Nat} {L : List Nat} (hr : Ring h head L)
    (hnode : node ∉ head :: L) (h0 : node ≠ 0) (hl : h.live node = true) :
    list_add_tail h node head = .ok (h.linkBefore node head) ∧
      Ring (h.linkBefore node head) head (L ++ [node]) := by
  have := ringC_add_tail ((ring_iff _ _ _).1 hr) hnode h0 hl
  exact ⟨this.1, (ring_iff _ _ _).2 this.2⟩

theorem ring_add_after {h : Heap} {head y node : Nat} {L1 L2 : List Nat}
    (hr : Ring h head (L1 ++ y :: L2)) (hnode : node ∉ head :: (L1 ++ y :: L2))
    (h0 : node ≠ 0) (hl : h.live node = true) :
    list_add h node y = .ok (h.linkAfter node y) ∧
      Ring (h.linkAfter node y) head (L1 ++ y :: node :: L2) := by
  have h1 : RingC h ((head :: L1) ++ (y :: L2)) := (ring_iff _ _ _).1 hr
  rw [ringC_rotate] at h1
  have h2 := ringC_add (R := L2 ++ (head :: L1)) h1
    (by simp only [List.mem_cons, List.mem_append, not_or] at hnode ⊢; tauto) h0 hl
  refine ⟨h2.1, ?_⟩
  rw [ring_iff]
  have h3 : RingC (h.linkAfter node y) ((y :: node :: L2) ++ (head :: L1)) := h2.2
  rw [ringC_rotate] at h3
  simpa using h3

theorem ring_del_init {h : Heap} {head x : Nat} {L1 L2 : List Nat}
    (hr : Ring h head (L1 ++ x :: L2)) :
    list_del_init h x = .ok ((h.unlink x).selfLink x) ∧
      Ring ((h.unlink x).selfLink x) head (L1 ++ L2) := by
  have hx0 : x ≠ 0 := ring_ne_zero hr (by simp)
  have hd := ring_del hr
  have hxn : x ∉ head :: (L1 ++ L2) := by
    have := hr.2.2.1
    simp only [List.nodup_cons, List.mem_append, List.mem_cons, List.nodup_append, not_or] at this ⊢
    refine ⟨fun e => this.1.2.1 e.symm, ?_, this.2.2.1.1⟩
    intro hx; exact this.2.2.2 hx (List.mem_cons_self _ _)
  refine ⟨by simp [list_del_init, hd.1, init_list_head_eq hx0], ?_⟩
  refine ring_congr hd.2 ?_ ?_ (fun _ _ => rfl)
  · intro z hz; exact upd_ne _ _ (fun e => hxn (e ▸ hz))
  · intro z hz; exact upd_ne _ _ (fun e => hxn (e ▸ hz))

theorem ring_move_head {h : Heap} {head x : Nat} {L1 L2 : List Nat}
    (hr : Ring h head (L1 ++ x :: L2)) :
    list_move h x head = .ok ((h.unlink x).linkAfter x head) ∧
      Ring ((h.unlink x).linkAfter x head) head (x :: (L1 ++ L2)) := by
  have hx0 : x ≠ 0 := ring_ne_zero hr (by simp)
  have hd := ring_del hr
  have hxn : x ∉ head :: (L1 ++ L2) := by
    have := hr.2.2.1
    simp only [List.nodup_cons, List.mem_append, List.mem_cons, List.nodup_append, not_or] at this ⊢
    refine ⟨fun e => this.1.2.1 e.symm, ?_, this.2.2.1.1⟩
    intro hx; exact this.2.2.2 hx (List.mem_cons_self _ _)
  have ha := ring_add_head hd.2 hxn hx0 (hr.2.2.2.2.2 x (by simp))
  exact ⟨by simp [list_move, hd.1, ha.1], ha.2⟩

theorem ring_move_after {h : Heap} {head a b : Nat} {L1 L2 : List Nat}
    (hr : Ring h head (L1 ++ a :: b :: L2)) :
    list_move h a b = .ok ((h.unlink a).linkAfter a b) ∧
      Ring ((h.unlink a).linkAfter a b) head (L1 ++ b :: a :: L2) := by
  have hx0 : a ≠ 0 := ring_ne_zero hr (by simp)
  have hd := ring_del hr
  have hxn : a ∉ head :: (L1 ++ b :: L2) := by
    have := hr.2.2.1
    simp only [List.nodup_cons, List.mem_append, List.mem_cons, List.nodup_append, not_or] at this ⊢
    refine ⟨fun e => this.1.2.1 e.symm, ?_, this.2.2.1.1⟩
    intro hx; exact this.2.2.2 hx (List.mem_cons_self _ _)
  have ha := ring_add_after hd.2 hxn hx0 (hr.2.2.2.2.2 a (by simp))
  exact ⟨by simp [list_move, hd.1, ha.1], ha.2⟩

/-! ## q_size -/

theorem q_size_loop_eq (h : Heap) (head : Nat) : ∀ (R : List Nat) (li len fuel : Nat),
    Path h.next li R head → head ∉ R → 0 ∉ R → R.length < fuel →
    len + R.length ≤ 2147483647 →
    q_size_loop fuel h head li len = .ok (len + R.length) := by
  intro R
  induction R with
  | nil =>
    intro li len fuel hp _ _ hf _
    obtain ⟨fuel, rfl⟩ : ∃ k, fuel = k + 1 := ⟨fuel - 1, by simp at hf; omega⟩
    simp only [Path] at hp
    simp [q_size_loop, hp]
  | cons a R ih =>
    intro li len fuel hp hh h0 hf hi
    obtain ⟨fuel, rfl⟩ : ∃ k, fuel = k + 1 := ⟨fuel - 1, by simp at hf; omega⟩
    simp only [Path] at hp
    simp only [List.mem_cons, not_or] at hh h0
    simp only [List.length_cons] at hi
    have ha : a ≠ head := fun e => hh.1 e.symm
    have ha0 : a ≠ 0 := fun e => h0.1 e.symm
    have hlen : len ≠ INT_MAX := by simp only [INT_MAX]; omega
    simp only [q_size_loop, hp.1, ha, hlen, if_false, Heap.rdNext, ha0, Res.ok_bind]
    rw [ih _ _ _ hp.2 hh.2 h0.2 (by simpa using hf) (by omega)]
    simp only [List.length_cons]
    congr 1; omega

theorem q_size_eq {h : Heap} {head : Nat} {L : List Nat} (hr : Ring h head L) {fuel : Nat}
    (hf : L.length < fuel) (hi : L.length ≤ 2147483647) :
    q_size fuel h head = .ok L.length := by
  have := q_size_loop_eq h head L (h.next head) 0 fuel hr.2.2.2.1 (ring_not_mem hr) hr.2.1 hf
    (by omega)
  simp [q_size, hr.1, Heap.rdNext, this]

/-- On a ring of more than `INT_MAX` elements the counter of `q_size`
overflows. -/
theorem q_size_loop_overflow (h : Heap) (head : Nat) : ∀ (R : List Nat) (li len fuel : Nat),
    Path h.next li R head → head ∉ R → 0 ∉ R → R.length < fuel → len ≤ 2147483647 →
    2147483647 < len + R.length →
    q_size_loop fuel h head li len = .fault := by
  intro R
  induction R with
  | nil =>
    intro li len fuel _ _ _ _ hl hi
    simp at hi
    omega
  | cons a R ih =>
    intro li len fuel hp hh h0 hf hl hi
    obtain ⟨fuel, rfl⟩ : ∃ k, fuel = k + 1 := ⟨fuel - 1, by simp at hf; omega⟩
    simp only [Path] at hp
    simp only [List.mem_cons, not_or] at hh h0
    simp only [List.length_cons] at hi
    have ha : a ≠ head := fun e => hh.1 e.symm
    have ha0 : a ≠ 0 := fun e => h0.1 e.symm
    by_cases hlen : len = INT_MAX
    · simp [q_size_loop, hp.1, ha, hlen]
    · have hlen' : len < 2147483647 := by
        simp only [INT_MAX] at hlen
        omega
      simp only [q_size_loop, hp.1, ha, hlen, if_false, Heap.rdNext, ha0, Res.ok_bind]
      exact ih _ _ _ hp.2 hh.2 h0.2 (by simpa using hf) (by omega) (by omega)

/-! ## q_reverse -/

theorem headD_ne_zero {h : Heap} {head : Nat} {L : List Nat} (hr : Ring h head L)
    {R : List Nat} (hR : ∀ x ∈ R, x ∈ L) : R.headD head ≠ 0 := by
  apply ring_ne_zero hr
  cases R with
  | nil => simp
  | cons a R => simp [hR a (List.mem_cons_self _ _)]

theorem q_reverse_loop_spec (head : Nat) : ∀ (R D : List Nat) (h : Heap) (fuel : Nat),
    Ring h head (D ++ R) → R.length < fuel →
    ∃ h', q_reverse_loop fuel h head (R.headD head) (h.next (R.headD head)) = .ok h' ∧
      Ring h' head (R.reverse ++ D) ∧ h'.value = h.value ∧ h'.live = h.live := by
  intro R
  induction R with
  | nil =>
    intro D h fuel hr hf
    obtain ⟨fuel, rfl⟩ : ∃ k, fuel = k + 1 := ⟨fuel - 1, by simp at hf; omega⟩
    exact ⟨h, by simp [q_reverse_loop], by simpa using hr, rfl, rfl⟩
  | cons x R ih =>
    intro D h fuel hr hf
    obtain ⟨fuel, rfl⟩ : ∃ k, fuel = k + 1 := ⟨fuel - 1, by simp at hf; omega⟩
    have hxh : x ≠ head := fun e => ring_not_mem hr (by simp [← e])
    have hm := ring_move_head hr
    have hs : h.next x = R.headD head := ring_next_mid hr
    have hs0 : R.headD head ≠ 0 := headD_ne_zero hr (fun y hy => by simp [hy])
    obtain ⟨h', he, hr', hv, hl⟩ := ih (x :: D) _ fuel hm.2 (by simpa using hf)
    refine ⟨h', ?_, by simpa using hr', hv, hl⟩
    simp only [List.headD_cons, q_reverse_loop, hxh, if_false, hm.1, Res.ok_bind, hs,
      Heap.rdNext, hs0]
    exact he

theorem q_reverse_spec {h : Heap} {head : Nat} {L : List Nat} (hr : Ring h head L) {fuel : Nat}
    (hf : L.length < fuel) :
    ∃ h', q_reverse fuel h head = .ok h' ∧ Ring h' head L.reverse ∧
      h'.value = h.value ∧ h'.live = h.live := by
  obtain ⟨h', he, hr', hv, hl⟩ := q_reverse_loop_spec head L [] h fuel hr hf
  refine ⟨h', ?_, by simpa using hr', hv, hl⟩
  have h0 : L.headD head ≠ 0 := headD_ne_zero hr (fun y hy => hy)
  simp only [q_reverse, Heap.rdNext, hr.1, if_false, Res.ok_bind, ring_next_head hr, h0]
  exact he

/-! ## q_swap -/

theorem q_swap_loop_spec (head : Nat) : ∀ (n : Nat) (R D : List Nat) (h : Heap) (fuel : Nat),
    R.length ≤ n → Ring h head (D ++ R) → R.length < fuel →
    ∃ h', q_swap_loop fuel h head (R.headD head) (h.next (R.headD head)) = .ok h' ∧
      Ring h' head (D ++ swapPairs R) ∧ h'.value = h.value ∧ h'.live = h.live := by
  intro n
  induction n with
  | zero =>
    intro R D h fuel hn hr hf
    obtain ⟨fuel, rfl⟩ : ∃ k, fuel = k + 1 := ⟨fuel - 1, by omega⟩
    have : R = [] := List.length_eq_zero.1 (by omega)
    subst this
    exact ⟨h, by simp [q_swap_loop], by simpa [swapPairs] using hr, rfl, rfl⟩
  | succ n ih =>
    intro R D h fuel hn hr hf
    obtain ⟨fuel, rfl⟩ : ∃ k, fuel = k + 1 := ⟨fuel - 1, by omega⟩
    match R, hn, hr, hf with
    | [], _, hr, _ => exact ⟨h, by simp [q_swap_loop], by simpa [swapPairs] using hr, rfl, rfl⟩
    | [a], _, hr, _ =>
      have hs : h.next a = head := ring_next_mid hr
      exact ⟨h, by simp [q_swap_loop, hs], by simpa [swapPairs] using hr, rfl, rfl⟩
    | a :: b :: R, hn, hr, hf =>
      have hah : a ≠ head := fun e => ring_not_mem hr (by simp [← e])
      have hbh : b ≠ head := fun e => ring_not_mem hr (by simp [← e])
      have ha0 : a ≠ 0 := ring_ne_zero hr (by simp)
      have hs : h.next a = b := ring_next_mid hr
      have hm := ring_move_after hr
      have hr1 : Ring ((h.unlink a).linkAfter a b) head ((D ++ [b]) ++ a :: R) := by
        simpa using hm.2
      have hs1 : ((h.unlink a).linkAfter a b).next a = R.headD head := ring_next_mid hr1
      have hs0 : R.headD head ≠ 0 := headD_ne_zero hr (fun y hy => by simp [hy])
      have hr2 : Ring ((h.unlink a).linkAfter a b) head ((D ++ [b, a]) ++ R) := by
        simpa using hm.2
      obtain ⟨h', he, hr', hv, hl⟩ := ih R (D ++ [b, a]) _ fuel
        (by simp at hn; omega) hr2 (by simp at hf; omega)
      refine ⟨h', ?_, by simpa [swapPairs] using hr', hv, hl⟩
      simp only [List.headD_cons, q_swap_loop, hs, hah, hbh, ne_eq, not_false_eq_true, and_self,
        if_true, hm.1, Res.ok_bind]
      simp only [Heap.rdNext, ha0, if_false, Res.ok_bind, hs1, hs0]
      exact he

theorem q_swap_spec {h : Heap} {head : Nat} {L : List Nat} (hr : Ring h head L) {fuel : Nat}
    (hf : L.length < fuel) :
    ∃ h', q_swap fuel h head = .ok h' ∧ Ring h' head (swapPairs L) ∧
      h'.value = h.value ∧ h'.live = h.live := by
  obtain ⟨h', he, hr', hv, hl⟩ := q_swap_loop_spec head L.length L [] h fuel (le_refl _) hr hf
  refine ⟨h', ?_, by simpa using hr', hv, hl⟩
  have h0 : L.headD head ≠ 0 := headD_ne_zero hr (fun y hy => hy)
  simp only [q_swap, Heap.rdNext, hr.1, if_false, Res.ok_bind, ring_next_head hr, h0]
  exact he

/-! ## q_insert_head, q_insert_tail -/

theorem not_live_not_mem {h : Heap} {head : Nat} {L : List Nat} (hr : Ring h head L) {m : Nat}
    (hm : h.live m = false) : m ∉ head :: L := by
  intro hx
  have := hr.2.2.2.2.2 m hx
  rw [hm] at this
  exact Bool.noConfusion this

theorem q_insert_head_spec {h : Heap} {head : Nat} {L : List Nat} (hr : Ring h head L)
    (s : List Nat) {m : Nat} (sd : Bool) (hm0 : m ≠ 0) (hm : m ∉ head :: L) :
    ∃ h', q_insert_head h head s m sd = .ok (h', true) ∧ Ring h' head (m :: L) ∧
      h'.value m = strdup s sd ∧ ∀ x, x ≠ m → h'.value x = h.value x := by
  have hr1 : Ring { h with live := upd h.live m true, value := upd h.value m (strdup s sd) }
      head L :=
    ring_congr hr (fun _ _ => rfl) (fun _ _ => rfl)
      (fun z hz => upd_ne _ _ (fun e => hm (e ▸ hz)))
  have ha := ring_add_head hr1 hm hm0 (by simp)
  refine ⟨_, ?_, ha.2, by simp [Heap.linkAfter], fun x hx => by simp [Heap.linkAfter, upd_ne _ _ hx]⟩
  simp only [q_insert_head, hr.1, if_false, malloc, hm0, Heap.wrValue, Res.ok_bind]
  rw [ha.1]
  rfl

theorem q_insert_tail_spec {h : Heap} {head : Nat} {L : List Nat} (hr : Ring h head L)
    (s : List Nat) {m : Nat} (sd : Bool) (hm0 : m ≠ 0) (hm : m ∉ head :: L) :
    ∃ h', q_insert_tail h head s m sd = .ok (h', true) ∧ Ring h' head (L ++ [m]) ∧
      h'.value m = strdup s sd ∧ ∀ x, x ≠ m → h'.value x = h.value x := by
  have hr1 : Ring { h with live := upd h.live m true, value := upd h.value m (strdup s sd) }
      head L :=
    ring_congr hr (fun _ _ => rfl) (fun _ _ => rfl)
      (fun z hz => upd_ne _ _ (fun e => hm (e ▸ hz)))
  have ha := ring_add_tail hr1 hm hm0 (by simp)
  refine ⟨_, ?_, ha.2, by simp [Heap.linkBefore], fun x hx => by simp [Heap.linkBefore, upd_ne _ _ hx]⟩
  simp only [q_insert_tail, hr.1, if_false, malloc, hm0, Heap.wrValue, Res.ok_bind]
  rw [ha.1]
  rfl

theorem q_insert_head_fail (h : Heap) (head : Nat) (s : List Nat) (sd : Bool) :
    q_insert_head h head s 0 sd = .ok (h, false) := by
  simp [q_insert_head, malloc]

theorem q_insert_tail_fail (h : Heap) (head : Nat) (s : List Nat) (sd : Bool) :
    q_insert_tail h head s 0 sd = .ok (h, false) := by
  simp [q_insert_tail, malloc]

/-! ## q_remove_head, q_remove_tail -/

theorem q_remove_head_spec {h : Heap} {head x : Nat} {L : List Nat} (hr : Ring h head (x :: L))
    {fuel : Nat} (hf : (x :: L).length < fuel) (hi : (x :: L).length ≤ 2147483647)
    {sp sp' : Option (List Nat)} {bufsize : Nat}
    (hc : copy_out h x sp bufsize = .ok sp') :
    ∃ h', q_remove_head fuel h head sp bufsize = .ok (h', x, sp') ∧ Ring h' head L ∧
      h'.value = h.value ∧ h'.live = h.live := by
  have hd := @ring_del_init h head x [] L hr
  refine ⟨(h.unlink x).selfLink x, ?_, hd.2, rfl, rfl⟩
  have hn : h.next head = x := ring_next_head hr
  simp only [q_remove_head, hr.1, if_false, q_size_eq hr hf hi, Res.ok_bind, List.length_cons,
    Nat.succ_ne_zero, Heap.rdNext, hn, hc, hd.1]

theorem q_remove_tail_spec {h : Heap} {head x : Nat} {L : List Nat}
    (hr : Ring h head (L ++ [x]))
    {fuel : Nat} (hf : (L ++ [x]).length < fuel) (hi : (L ++ [x]).length ≤ 2147483647)
    {sp sp' : Option (List Nat)} {bufsize : Nat}
    (hc : copy_out h x sp bufsize = .ok sp') :
    ∃ h', q_remove_tail fuel h head sp bufsize = .ok (h', x, sp') ∧ Ring h' head L ∧
      h'.value = h.value ∧ h'.live = h.live := by
  have hd := @ring_del_init h head x L [] hr
  refine ⟨(h.unlink x).selfLink x, ?_, by simpa using hd.2, rfl, rfl⟩
  have hn : h.prev head = x := by rw [ring_prev_head hr]; simp
  simp only [q_remove_tail, hr.1, if_false, q_size_eq hr hf hi, Res.ok_bind, List.length_append,
    List.length_singleton, Nat.succ_ne_zero, Heap.rdPrev, hn, hc, hd.1]

theorem q_remove_head_empty {h : Heap} {head : Nat} (hr : Ring h head []) {fuel : Nat}
    (hf : 0 < fuel) (sp : Option (List Nat)) (bufsize : Nat) :
    q_remove_head fuel h head sp bufsize = .ok (h, 0, sp) := by
  simp [q_remove_head, hr.1, q_size_eq hr hf (Nat.zero_le _)]

theorem q_remove_tail_empty {h : Heap} {head : Nat} (hr : Ring h head []) {fuel : Nat}
    (hf : 0 < fuel) (sp : Option (List Nat)) (bufsize : Nat) :
    q_remove_tail fuel h head sp bufsize = .ok (h, 0, sp) := by
  simp [q_remove_tail, hr.1, q_size_eq hr hf (Nat.zero_le _)]

theorem ring_mid_not_mem {h : Heap} {head x : Nat} {L1 L2 : List Nat}
    (hr : Ring h head (L1 ++ x :: L2)) : x ∉ head :: (L1 ++ L2) := by
  have := hr.2.2.1
  simp only [List.nodup_cons, List.mem_append, List.mem_cons, List.nodup_append, not_or] at this ⊢
  refine ⟨fun e => this.1.2.1 e.symm, ?_, this.2.2.1.1⟩
  intro hx; exact this.2.2.2 hx (List.mem_cons_self _ _)

theorem q_release_element_eq {h : Heap} {e : Nat} (he : e ≠ 0) :
    q_release_element h e = .ok (h.release e) := by
  simp [q_release_element, Heap.rdValue, Heap.wrValue, free, he, Heap.release]

/-- Running `list_del_init(x); q_release_element(x)` on an element of a ring. -/
theorem ring_delete_run {β : Type} {h : Heap} {head x : Nat} {L1 L2 : List Nat}
    (hr : Ring h head (L1 ++ x :: L2)) (k : Heap → Res β) :
    (list_del_init h x >>= fun h1 => q_release_element h1 x >>= k) = k (h.delete x) := by
  have hx0 : x ≠ 0 := ring_ne_zero hr (by simp)
  simp [(ring_del_init hr).1, q_release_element_eq hx0, Heap.delete]

/-- Unlinking and releasing an element of a ring. -/
theorem ring_delete {h : Heap} {head x : Nat} {L1 L2 : List Nat}
    (hr : Ring h head (L1 ++ x :: L2)) :
    Ring (h.delete x) head (L1 ++ L2) ∧ (h.delete x).value = upd h.value x none ∧
      (h.delete x).live = upd h.live x false := by
  have hxn := ring_mid_not_mem hr
  refine ⟨?_, rfl, rfl⟩
  exact ring_congr (ring_del_init hr).2 (fun _ _ => rfl) (fun _ _ => rfl)
    (fun z hz => upd_ne _ _ (fun e => hxn (e ▸ hz)))

/-! ## q_delete_mid -/

theorem q_delete_mid_loop_spec (h : Heap) (head : Nat) (hh : head ≠ 0)
    (hne : h.next head ≠ head) :
    ∀ (n : Nat) (F S : List Nat) (slow fast fuel : Nat), F.length ≤ n → F.length ≤ S.length →
    Path h.next slow S head → Path h.next fast F head →
    h.next head ∉ F.tail → 0 ∉ F → 0 ∉ S → F.length < fuel →
    q_delete_mid_loop fuel h head slow fast = .ok (S.getD (F.length / 2) head) := by
  intro n
  induction n with
  | zero =>
    intro F S slow fast fuel hn _ hs hf _ _ _ hfu
    obtain ⟨fuel, rfl⟩ : ∃ k, fuel = k + 1 := ⟨fuel - 1, by omega⟩
    have : F = [] := List.length_eq_zero.1 (by omega)
    subst this
    simp only [Path] at hf
    have hs' := path_start hs
    cases S <;> simp_all [q_delete_mid_loop, Heap.rdNext]
  | succ n ih =>
    intro F S slow fast fuel hn hle hs hf hfirst hF0 hS0 hfu
    obtain ⟨fuel, rfl⟩ : ∃ k, fuel = k + 1 := ⟨fuel - 1, by omega⟩
    match F, hn, hle, hf, hfirst, hF0, hfu with
    | [], _, _, hf, _, _, _ =>
      simp only [Path] at hf
      have hs' := path_start hs
      cases S <;> simp_all [q_delete_mid_loop, Heap.rdNext]
    | [a], _, _, hf, _, hF0, _ =>
      simp only [Path] at hf
      have ha0 : a ≠ 0 := fun e => hF0 (by simp [e])
      have hs' := path_start hs
      have hne' : ¬ head = h.next head := fun e => hne e.symm
      cases S <;> simp_all [q_delete_mid_loop, Heap.rdNext]
    | a :: b :: F, hn, hle, hf, hfirst, hF0, hfu =>
      simp only [Path] at hf
      obtain ⟨rfl, hb, hf⟩ := hf
      simp only [List.tail_cons, List.mem_cons, not_or] at hfirst hF0
      have ha0 : fast ≠ 0 := fun e => hF0.1 e.symm
      have hb0 : h.next fast ≠ 0 := fun e => hF0.2.1 (by rw [← hb]; exact e.symm)
      have hfn : h.next fast ≠ h.next head := fun e => hfirst.1 (by rw [← hb]; exact e.symm)
      have hfnn : h.next (h.next fast) ≠ h.next head := by
        intro e
        have := path_start hf
        rw [hb, this] at e
        cases F with
        | nil => exact hne (by simpa using e.symm)
        | cons c F => exact hfirst.2 (by simp [← e])
      match S, hle, hs, hS0 with
      | [], hle, _, _ => simp at hle
      | s :: S, hle, hs, hS0 =>
        simp only [Path] at hs
        obtain ⟨rfl, hs⟩ := hs
        have hs0 : slow ≠ 0 := fun e => hS0 (by simp [e])
        have := ih F S (h.next slow) (h.next b) fuel (by simp at hn; omega)
          (by simp at hle; omega) hs hf
          (fun hx => hfirst.2 (List.mem_of_mem_tail hx)) hF0.2.2
          (fun hx => hS0 (List.mem_cons_of_mem _ hx)) (by simp at hfu; omega)
        simp only [q_delete_mid_loop, Heap.rdNext, ha0, hh, hb0, if_false, Res.ok_bind, hfn, hfnn,
          hs0]
        rw [hb, this]
        congr 1
        have : ∀ x y : Nat, (x :: y :: F).length / 2 = F.length / 2 + 1 := by
          intro x y; simp only [List.length_cons]; omega
        rw [this, List.getD_cons_succ]

theorem q_delete_mid_spec {h : Heap} {head : Nat} {L : List Nat} (hr : Ring h head L)
    (hL : L ≠ []) {fuel : Nat} (hf : L.length < fuel) (hi : L.length ≤ 2147483647) :
    ∃ h', q_delete_mid fuel h head = .ok (h', true) ∧
      Ring h' head (L.eraseIdx (L.length / 2)) ∧
      (∀ x ∈ L.eraseIdx (L.length / 2), h'.value x = h.value x) ∧
      h'.live (L.getD (L.length / 2) head) = false := by
  have hlen : 0 < L.length := List.length_pos.2 hL
  have hsz := q_size_eq hr hf hi
  have hk : L.length / 2 < L.length := Nat.div_lt_self hlen (by decide)
  have hne : h.next head ≠ head := by
    rw [ring_next_head hr]
    cases L with
    | nil => exact absurd rfl hL
    | cons a L =>
      intro e
      have e' : a = head := by simpa using e
      exact ring_not_mem hr (by simp [e'])
  have hfirst : h.next head ∉ L.tail := by
    rw [ring_next_head hr]
    cases L with
    | nil => exact absurd rfl hL
    | cons a L => simpa using (List.nodup_cons.1 (ring_nodup hr)).1
  have hloop := q_delete_mid_loop_spec h head hr.1 hne L.length L L (h.next head) (h.next head)
    fuel (le_refl _) (le_refl _) hr.2.2.2.1 hr.2.2.2.1 hfirst hr.2.1 hr.2.1 hf
  have hsplit : L = L.take (L.length / 2) ++ L.getD (L.length / 2) head ::
      L.drop (L.length / 2 + 1) := by
    rw [List.getD_eq_getElem _ _ hk]
    exact (List.take_append_drop (L.length / 2) L).symm.trans
      (by rw [List.drop_eq_getElem_cons hk])
  have hers : L.eraseIdx (L.length / 2) = L.take (L.length / 2) ++ L.drop (L.length / 2 + 1) :=
    List.eraseIdx_eq_take_drop_succ _ _
  generalize L.getD (L.length / 2) head = x at hloop hsplit ⊢
  rw [hers]
  generalize L.take (L.length / 2) = L1 at hsplit ⊢
  generalize L.drop (L.length / 2 + 1) = L2 at hsplit ⊢
  subst hsplit
  have hd := ring_delete hr
  have hxn := ring_mid_not_mem hr
  refine ⟨h.delete x, ?_, hd.1, ?_, by simp [hd.2.2]⟩
  · simp only [q_delete_mid, hr.1, if_false, hsz, Res.ok_bind, Heap.rdNext]
    rw [if_neg (by simp), hloop]
    simp only [Res.ok_bind]
    exact ring_delete_run hr _
  · intro z hz
    rw [hd.2.1]
    exact upd_ne _ _ (fun e => hxn (e ▸ List.mem_cons_of_mem _ hz))

theorem q_delete_mid_empty {h : Heap} {head : Nat} (hr : Ring h head []) {fuel : Nat}
    (hf : 0 < fuel) : q_delete_mid fuel h head = .ok (h, false) := by
  simp [q_delete_mid, hr.1, q_size_eq hr hf (Nat.zero_le _)]

/-! ## strcmp -/

theorem strcmp_eq_zero : ∀ (s t : List Nat), strcmp s t = 0 ↔ s = t
  | [], [] => by simp [strcmp]
  | [], _ :: _ => by simp [strcmp]
  | _ :: _, [] => by simp [strcmp]
  | a :: s, b :: t => by
    simp only [strcmp, List.cons.injEq]
    split_ifs with h1 h2
    · simp; omega
    · simp; omega
    · rw [strcmp_eq_zero s t]
      have : a = b := by omega
      simp [this]

theorem strcmp_swap : ∀ (s t : List Nat), strcmp t s = - strcmp s t
  | [], [] => by simp [strcmp]
  | [], _ :: _ => by simp [strcmp]
  | _ :: _, [] => by simp [strcmp]
  | a :: s, b :: t => by
    simp only [strcmp]
    split_ifs <;> first | omega | simp | exact strcmp_swap s t

theorem strcmp_lt_trans : ∀ (s t u : List Nat), strcmp s t < 0 → strcmp t u < 0 → strcmp s u < 0
  | [], [], _ => by simp [strcmp]
  | [], _ :: _, [] => by simp [strcmp]
  | [], _ :: _, _ :: _ => by simp [strcmp]
  | _ :: _, [], _ => by simp [strcmp]
  | _ :: _, _ :: _, [] => by simp [strcmp]
  | a :: s, b :: t, c :: u => by
    simp only [strcmp]
    intro h1 h2
    split_ifs at h1 h2 ⊢ <;> first | omega | exact strcmp_lt_trans s t u h1 h2

theorem strcmp_le_trans {s t u : List Nat} (h1 : strcmp s t ≤ 0) (h2 : strcmp t u ≤ 0) :
    strcmp s u ≤ 0 := by
  rcases lt_or_eq_of_le h1 with h1 | h1
  · rcases lt_or_eq_of_le h2 with h2 | h2
    · exact le_of_lt (strcmp_lt_trans _ _ _ h1 h2)
    · rw [strcmp_eq_zero] at h2; subst h2; exact le_of_lt h1
  · rw [strcmp_eq_zero] at h1; subst h1; exact h2

theorem strcmp_le_total (s t : List Nat) : strcmp s t ≤ 0 ∨ strcmp t s ≤ 0 := by
  rw [strcmp_swap s t]; omega

theorem strcmp_le_antisymm {s t : List Nat} (h1 : strcmp s t ≤ 0) (h2 : strcmp t s ≤ 0) :
    s = t := by
  rw [strcmp_swap s t] at h2
  exact (strcmp_eq_zero s t).1 (by omega)

theorem strcmp_self (s : List Nat) : strcmp s s = 0 := (strcmp_eq_zero s s).2 rfl

/-! ## q_delete_dup -/

theorem dedupFrom_congr {κ : Type} [DecidableEq κ] {k k' : Nat → κ} : ∀ (R : List Nat) (cur : Nat),
    (∀ x ∈ cur :: R, k' x = k x) → dedupFrom k' cur R = dedupFrom k cur R := by
  intro R
  induction R with
  | nil => intro cur _; rfl
  | cons y R ih =>
    intro cur hk
    simp only [dedupFrom]
    rw [hk cur (by simp), hk y (by simp), ih cur (fun x hx => hk x (by
      simp only [List.mem_cons] at hx ⊢; tauto)),
      ih y (fun x hx => hk x (List.mem_cons_of_mem _ hx))]

theorem dedupFrom_sublist {κ : Type} [DecidableEq κ] (k : Nat → κ) : ∀ (R : List Nat) (cur : Nat),
    (dedupFrom k cur R).Sublist (cur :: R) := by
  intro R
  induction R with
  | nil => intro cur; exact List.Sublist.refl _
  | cons y R ih =>
    intro cur
    simp only [dedupFrom]
    split_ifs
    · exact (ih cur).trans (List.Sublist.cons₂ _ (List.sublist_cons_self _ _))
    · exact List.Sublist.cons₂ _ (ih y)

theorem q_delete_dup_loop_spec (head : Nat) : ∀ (R D : List Nat) (cur : Nat) (h : Heap)
    (fuel : Nat), Ring h head (D ++ cur :: R) → (∀ x ∈ cur :: R, (h.value x).isSome) →
    R.length < fuel →
    ∃ h', q_delete_dup_loop fuel h head cur = .ok h' ∧
      Ring h' head (D ++ dedupFrom h.value cur R) ∧
      ∀ x ∈ D ++ dedupFrom h.value cur R, h'.value x = h.value x := by
  intro R
  induction R with
  | nil =>
    intro D cur h fuel hr _ hf
    obtain ⟨fuel, rfl⟩ : ∃ k, fuel = k + 1 := ⟨fuel - 1, by simp at hf; omega⟩
    have hc0 : cur ≠ 0 := ring_ne_zero hr (by simp)
    have hn : h.next cur = head := ring_next_mid hr
    exact ⟨h, by simp [q_delete_dup_loop, Heap.rdNext, hc0, hn], hr, fun _ _ => rfl⟩
  | cons y R ih =>
    intro D cur h fuel hr hv hf
    obtain ⟨fuel, rfl⟩ : ∃ k, fuel = k + 1 := ⟨fuel - 1, by simp at hf; omega⟩
    have hc0 : cur ≠ 0 := ring_ne_zero hr (by simp)
    have hy0 : y ≠ 0 := ring_ne_zero hr (by simp)
    have hyh : y ≠ head := fun e => ring_not_mem hr (by simp [← e])
    have hn : h.next cur = y := ring_next_mid hr
    obtain ⟨s1, hs1⟩ := Option.isSome_iff_exists.1 (hv cur (by simp))
    obtain ⟨s2, hs2⟩ := Option.isSome_iff_exists.1 (hv y (by simp))
    have hr' : Ring h head ((D ++ [cur]) ++ y :: R) := by simpa using hr
    have hstep : q_delete_dup_loop (fuel + 1) h head cur =
        if s1 = s2 then q_delete_dup_loop fuel (h.delete y) head cur
        else q_delete_dup_loop fuel h head y := by
      simp only [q_delete_dup_loop, Heap.rdNext, hc0, if_false, Res.ok_bind, hn, hyh,
        Heap.rdValue, hy0, hs1, hs2, strcmpPtr, strcmp_eq_zero]
      split_ifs
      · exact ring_delete_run hr' _
      · rfl
    rw [hstep]
    by_cases hc : s1 = s2
    · have hkey : h.value cur = h.value y := by rw [hs1, hs2, hc]
      simp only [hc, if_true, dedupFrom, hkey]
      have hd := ring_delete hr'
      have hyn := ring_mid_not_mem hr'
      have hval : ∀ x ∈ D ++ cur :: R, (h.delete y).value x = h.value x := by
        intro x hx
        rw [hd.2.1]
        exact upd_ne _ _ (fun e => hyn (e ▸ List.mem_cons_of_mem _ (by simpa using hx)))
      obtain ⟨h', he, hr3, hv3⟩ := ih D cur (h.delete y) fuel (by simpa using hd.1)
        (fun x hx => by
          rw [hval x (by simp [hx])]
          exact hv x (by simp only [List.mem_cons] at hx ⊢; tauto))
        (by simpa using hf)
      have hcg : dedupFrom (h.delete y).value cur R = dedupFrom h.value cur R :=
        dedupFrom_congr R cur (fun x hx => hval x (by simp [hx]))
      rw [hcg] at hr3 hv3
      refine ⟨h', he, hr3, fun x hx => ?_⟩
      rw [hv3 x hx]
      apply hval
      simp only [List.mem_append] at hx ⊢
      rcases hx with hx | hx
      · exact Or.inl hx
      · exact Or.inr ((dedupFrom_sublist h.value R cur).subset hx)
    · have hkey : h.value cur ≠ h.value y := by
        rw [hs1, hs2]; exact fun e => hc (Option.some.inj e)
      simp only [hc, if_false, dedupFrom, hkey]
      obtain ⟨h', he, hr3, hv3⟩ := ih (D ++ [cur]) y h fuel hr'
        (fun x hx => hv x (List.mem_cons_of_mem _ hx)) (by simpa using hf)
      exact ⟨h', he, by simpa using hr3, by simpa using hv3⟩

theorem q_delete_dup_spec {h : Heap} {head : Nat} {L : List Nat} (hr : Ring h head L)
    (hL : L ≠ []) (hv : ∀ x ∈ L, (h.value x).isSome) {fuel : Nat} (hf : L.length < fuel)
    (hi : L.length ≤ 2147483647) :
    ∃ h', q_delete_dup fuel h head = .ok (h', true) ∧ Ring h' head (dedupAdj h.value L) ∧
      ∀ x ∈ dedupAdj h.value L, h'.value x = h.value x := by
  cases L with
  | nil => exact absurd rfl hL
  | cons a L =>
    obtain ⟨h', he, hr', hv'⟩ := q_delete_dup_loop_spec head L [] a h fuel hr hv
      (by simp at hf; omega)
    refine ⟨h', ?_, by simpa [dedupAdj] using hr', by simpa [dedupAdj] using hv'⟩
    have hn : h.next head = a := ring_next_head hr
    simp [q_delete_dup, q_size_eq hr hf hi, Heap.rdNext, hr.1, hn, he]

theorem q_delete_dup_empty {h : Heap} {head : Nat} (hr : Ring h head []) {fuel : Nat}
    (hf : 0 < fuel) : q_delete_dup fuel h head = .ok (h, false) := by
  simp [q_delete_dup, q_size_eq hr hf (Nat.zero_le _)]

theorem q_delete_dup_null (fuel : Nat) (h : Heap) : q_delete_dup fuel h 0 = .ok (h, false) := by
  simp [q_delete_dup, q_size]

/-! ## q_mergefinal -/

theorem path_append (f : Nat → Nat) (A B : List Nat) : ∀ p q,
    Path f p (A ++ B) q ↔ Path f p A (B.headD q) ∧ Path f (B.headD q) B q := by
  cases B with
  | nil => intro p q; simp [Path]
  | cons b B => intro p q; simp [path_append_cons, Path]

theorem backLinked_cons (g : Nat → Nat) (b : Nat) (B : List Nat) :
    BackLinked g (b :: B) ↔ Path g (B.getLastD b) B.reverse b := by
  unfold BackLinked
  simp only [List.reverse_cons, path_snoc, List.getLastD_cons]
  constructor
  · rintro ⟨e, h, _⟩; exact h
  · intro h; exact ⟨g b, h, rfl⟩

theorem backLinked_nil (g : Nat → Nat) : BackLinked g [] := ⟨0, rfl⟩

theorem backLinked_congr {g g' : Nat → Nat} {L : List Nat} (hg : ∀ x ∈ L, g' x = g x)
    (hb : BackLinked g L) : BackLinked g' L := by
  obtain ⟨e, he⟩ := hb
  exact ⟨e, (path_congr _ _ _ (fun x hx => hg x (List.mem_reverse.1 hx))).2 he⟩

theorem backLinked_tail {g g' : Nat → Nat} {a : Nat} {A : List Nat}
    (hg : ∀ x ∈ A, g' x = g x) (hb : BackLinked g (a :: A)) : BackLinked g' A := by
  rw [backLinked_cons] at hb
  cases A with
  | nil => exact backLinked_nil _
  | cons c A =>
    refine ⟨a, ?_⟩
    rw [List.getLastD_cons] at hb ⊢
    exact (path_congr _ _ _ (fun x hx => hg x (List.mem_reverse.1 hx))).2 hb

theorem store_out {h : Heap} {headv prev : Nat} {ptr : Option Nat} {O : List Nat}
    (hO : OutInv h headv ptr prev O) (hnd : O.Nodup) (h0 : 0 ∉ O) (w : Nat) :
    ∃ h1 hv1, storeThrough h headv ptr w = .ok (h1, hv1) ∧ loadThrough h1 hv1 ptr = .ok w ∧
      Path h1.next hv1 O w ∧ h1.prev = h.prev ∧ h1.value = h.value ∧ h1.live = h.live ∧
      ∀ z, z ∉ O → h1.next z = h.next z := by
  rcases hO with ⟨rfl, rfl, _⟩ | ⟨O', t, rfl, rfl, _, hp⟩
  · exact ⟨h, w, rfl, rfl, rfl, rfl, rfl, rfl, fun _ _ => rfl⟩
  · have ht0 : t ≠ 0 := fun e => h0 (by simp [e])
    have htO : t ∉ O' := by
      intro hx
      have := List.disjoint_of_nodup_append hnd hx
      simp at this
    refine ⟨{ h with next := upd h.next t w }, headv, ?_, ?_, ?_, rfl, rfl, rfl, ?_⟩
    · simp [storeThrough, Heap.wrNext, ht0]
    · simp [loadThrough, Heap.rdNext, ht0]
    · rw [path_snoc]
      exact ⟨(path_upd _ _ _ htO).2 hp, upd_same _ _ _⟩
    · intro z hz
      exact upd_ne _ _ (fun e => hz (by simp [e]))

/-- One round of the loop of `q_mergefinal`: the node `x` is appended to the
output. -/
theorem pick_step {h : Heap} {headv prev x : Nat} {ptr : Option Nat} {O : List Nat}
    (hO : OutInv h headv ptr prev O) (hb : Path h.prev prev O.reverse 0)
    (hnd : O.Nodup) (h0 : 0 ∉ O) (hxO : x ∉ O) :
    ∃ h1 hv1, storeThrough { h with prev := upd h.prev x prev } headv ptr x = .ok (h1, hv1) ∧
      loadThrough h1 hv1 ptr = .ok x ∧ h1.next x = h.next x ∧
      OutInv h1 hv1 (some x) x (O ++ [x]) ∧ Path h1.prev x (O ++ [x]).reverse 0 ∧
      h1.prev = upd h.prev x prev ∧ h1.value = h.value ∧ h1.live = h.live ∧
      ∀ z, z ∉ O → h1.next z = h.next z := by
  have hO' : OutInv { h with prev := upd h.prev x prev } headv ptr prev O := hO
  obtain ⟨h1, hv1, hs, hl, hp, hpr, hva, hli, hfr⟩ := store_out hO' hnd h0 x
  refine ⟨h1, hv1, hs, hl, hfr x hxO, ?_, ?_, hpr, hva, hli, hfr⟩
  · exact Or.inr ⟨O, x, rfl, rfl, rfl, hp⟩
  · rw [hpr]
    simp only [List.reverse_append, List.reverse_cons, List.reverse_nil, List.nil_append,
      List.singleton_append, Path, upd_same, true_and]
    exact (path_upd _ _ _ (fun e => hxO (List.mem_reverse.1 e))).2 hb

/-- The two statements after the loop of `q_mergefinal`: the remaining chain
`r :: R` is attached to the output. -/
theorem mergefinal_exit {h : Heap} {headv prev r : Nat} {ptr : Option Nat} {O R : List Nat}
    (hO : OutInv h headv ptr prev O) (hb : Path h.prev prev O.reverse 0)
    (hnd : (O ++ r :: R).Nodup) (h0 : 0 ∉ O ++ r :: R)
    (hp : Path h.next r (r :: R) 0) (hbl : BackLinked h.prev (r :: R)) :
    ∃ h' p, (storeThrough h headv ptr r >>= fun r1 => loadThrough r1.1 r1.2 ptr >>= fun q =>
        r1.1.wrPrev q prev >>= fun h2 => Res.ok (h2, r1.2)) = .ok (h', p) ∧
      Path h'.next p (O ++ r :: R) 0 ∧
      Path h'.prev ((O ++ r :: R).getLastD 0) (O ++ r :: R).reverse 0 ∧
      h'.value = h.value ∧ h'.live = h.live ∧
      ∀ z, z ∉ O ++ r :: R → h'.next z = h.next z ∧ h'.prev z = h.prev z := by
  have hndO : O.Nodup := (List.nodup_append.1 hnd).1
  have hndR : (r :: R).Nodup := (List.nodup_append.1 hnd).2.1
  have hdis : ∀ z, z ∈ r :: R → z ∉ O := fun z hz hzO =>
    List.disjoint_of_nodup_append hnd hzO hz
  have h0O : 0 ∉ O := fun e => h0 (List.mem_append_left _ e)
  have hr0 : r ≠ 0 := fun e => h0 (by simp [e])
  obtain ⟨h1, hv1, hs, hl, hpo, hpr, hva, hli, hfr⟩ := store_out hO hndO h0O r
  refine ⟨{ h1 with prev := upd h1.prev r prev }, hv1, ?_, ?_, ?_, hva, hli, ?_⟩
  · simp [hs, hl, Heap.wrPrev, hr0]
  · rw [path_append_cons]
    refine ⟨hpo, ?_⟩
    simp only [Path, true_and] at hp
    rw [hfr r (hdis r (List.mem_cons_self _ _))]
    exact (path_congr _ _ _ (fun x hx => hfr x (hdis x (List.mem_cons_of_mem _ hx)))).2 hp
  · rw [backLinked_cons] at hbl
    have hlast : (O ++ r :: R).getLastD 0 = R.getLastD r := by
      rw [List.getLastD_eq_getLast?, List.getLast?_append, List.getLast?_cons]
      simp [List.getLastD_eq_getLast?]
    rw [hlast, List.reverse_append, List.reverse_cons, List.append_assoc, List.singleton_append,
      path_append_cons]
    simp only [upd_same, hpr]
    constructor
    · refine (path_upd _ _ _ ?_).2 hbl
      exact fun e => (List.nodup_cons.1 hndR).1 (List.mem_reverse.1 e)
    · refine (path_upd _ _ _ ?_).2 hb
      exact fun e => hdis r (List.mem_cons_self _ _) (List.mem_reverse.1 e)
  · intro z hz
    simp only [List.mem_append, List.mem_cons, not_or] at hz
    refine ⟨hfr z hz.1, ?_⟩
    show upd h1.prev r prev z = h.prev z
    rw [upd_ne _ _ hz.2.1, hpr]

/-- One round of the loop of `q_mergefinal` with its frame: the node `x` is
appended to the output and the nodes `Z` still to be merged are untouched. -/
theorem merge_pick {h : Heap} {headv prev x : Nat} {ptr : Option Nat} {O Z : List Nat}
    (hO : OutInv h headv ptr prev O) (hb : Path h.prev prev O.reverse 0)
    (hnd : ((O ++ [x]) ++ Z).Nodup) (h0 : 0 ∉ O) :
    ∃ h1 hv1, storeThrough { h with prev := upd h.prev x prev } headv ptr x = .ok (h1, hv1) ∧
      loadThrough h1 hv1 ptr = .ok x ∧ h1.next x = h.next x ∧
      OutInv h1 hv1 (some x) x (O ++ [x]) ∧ Path h1.prev x (O ++ [x]).reverse 0 ∧
      h1.value = h.value ∧ h1.live = h.live ∧
      (∀ z ∈ Z, h1.next z = h.next z ∧ h1.prev z = h.prev z) ∧
      ∀ z, z ∉ (O ++ [x]) ++ Z → h1.next z = h.next z ∧ h1.prev z = h.prev z := by
  have hndO : (O ++ [x]).Nodup := (List.nodup_append.1 hnd).1
  have hxO : x ∉ O := fun e => List.disjoint_of_nodup_append hndO e (by simp)
  obtain ⟨h1, hv1, hs, hl, hnx, hO1, hb1, hpr, hva, hli, hfr⟩ :=
    pick_step (x := x) hO hb (List.nodup_append.1 hndO).1 h0 hxO
  refine ⟨h1, hv1, hs, hl, hnx, hO1, hb1, hva, hli, ?_, ?_⟩
  · intro z hz
    have hzO : z ∉ O ++ [x] := fun e => List.disjoint_of_nodup_append hnd e hz
    simp only [List.mem_append, List.mem_singleton, not_or] at hzO
    exact ⟨hfr z hzO.1, by rw [hpr]; exact upd_ne _ _ hzO.2⟩
  · intro z hz
    simp only [List.mem_append, List.mem_singleton, not_or] at hz
    exact ⟨hfr z hz.1.1, by rw [hpr]; exact upd_ne _ _ hz.1.2⟩

theorem takeLeft_eq {v : Nat → Option (List Nat)} {a b : Nat} {s t : List Nat}
    (ha : v a = some s) (hb : v b = some t) : takeLeft v a b = decide (strcmp s t < 0) := by
  simp [takeLeft, ha, hb]

theorem q_mergefinal_loop_spec (v : Nat → Option (List Nat)) :
    ∀ (n : Nat) (A B O : List Nat) (h : Heap) (left right headv prev : Nat) (ptr : Option Nat)
      (fuel : Nat),
    A.length + B.length ≤ n → A.length + B.length ≤ fuel →
    (O ++ (A ++ B)).Nodup → 0 ∉ O ++ (A ++ B) → (A ≠ [] ∨ B ≠ []) →
    Path h.next left A 0 → Path h.next right B 0 →
    BackLinked h.prev A → BackLinked h.prev B →
    OutInv h headv ptr prev O → Path h.prev prev O.reverse 0 →
    h.value = v → (∀ x ∈ A ++ B, (v x).isSome) →
    ∃ h' p, q_mergefinal_loop fuel h left right headv prev ptr = .ok (h', p) ∧
      Path h'.next p (O ++ mergeNodes v A B) 0 ∧
      Path h'.prev ((O ++ mergeNodes v A B).getLastD 0) (O ++ mergeNodes v A B).reverse 0 ∧
      h'.value = v ∧ h'.live = h.live ∧
      ∀ z, z ∉ O ++ (A ++ B) → h'.next z = h.next z ∧ h'.prev z = h.prev z := by
  intro n
  induction n with
  | zero =>
    intro A B O h left right headv prev ptr fuel hn _ _ _ hne
    exfalso
    rcases hne with hne | hne
    · exact hne (List.length_eq_zero.1 (by omega))
    · exact hne (List.length_eq_zero.1 (by omega))
  | succ n ih =>
    intro A B O h left right headv prev ptr fuel hn hfu hnd h0 hne hpA hpB hbA hbB hO hb hv hsome
    obtain ⟨fuel, rfl⟩ : ∃ k, fuel = k + 1 := by
      refine ⟨fuel - 1, ?_⟩
      have : 0 < A.length + B.length := by
        rcases hne with hne | hne
        · have := List.length_pos.2 hne; omega
        · have := List.length_pos.2 hne; omega
      omega
    match A, B, hn, hfu, hnd, h0, hne, hpA, hpB, hbA, hbB, hsome with
    | [], [], _, _, _, _, hne, _, _, _, _, _ => simp at hne
    | [], b :: B, _, _, hnd, h0, _, hpA, hpB, _, hbB, _ =>
      simp only [Path] at hpA
      have hrb : right = b := hpB.1
      subst hpA hrb
      obtain ⟨h', p, he, h1, h2, h3, h4, h5⟩ := mergefinal_exit hO hb
        (by simpa using hnd) (by simpa using h0) hpB hbB
      refine ⟨h', p, ?_, by simpa [mergeNodes] using h1, by simpa [mergeNodes] using h2,
        h3.trans hv, h4, by simpa using h5⟩
      simp only [q_mergefinal_loop, ne_eq, not_true_eq_false, false_and, if_false]
      exact he
    | a :: A, [], _, _, hnd, h0, _, hpA, hpB, hbA, _, _ =>
      simp only [Path] at hpB
      have hla : left = a := hpA.1
      subst hpB hla
      have ha0 : left ≠ 0 := fun e => h0 (by simp [e])
      obtain ⟨h', p, he, h1, h2, h3, h4, h5⟩ := mergefinal_exit hO hb
        (by simpa using hnd) (by simpa using h0) hpA hbA
      refine ⟨h', p, ?_, by simpa [mergeNodes] using h1, by simpa [mergeNodes] using h2,
        h3.trans hv, h4, by simpa using h5⟩
      simp only [q_mergefinal_loop, ne_eq, not_true_eq_false, and_false, if_false, ha0,
        not_false_eq_true, if_true]
      exact he
    | a :: A, b :: B, hn, hfu, hnd, h0, _, hpA, hpB, hbA, hbB, hsome =>
      have hla : left = a := hpA.1
      have hrb : right = b := hpB.1
      subst hla hrb
      have ha0 : left ≠ 0 := fun e => h0 (by simp [e])
      have hb0 : right ≠ 0 := fun e => h0 (by simp [e])
      have h0O : 0 ∉ O := fun e => h0 (List.mem_append_left _ e)
      obtain ⟨s1, hs1⟩ := Option.isSome_iff_exists.1 (hsome left (by simp))
      obtain ⟨s2, hs2⟩ := Option.isSome_iff_exists.1 (hsome right (by simp))
      have hv1 : h.value left = some s1 := by rw [hv]; exact hs1
      have hv2 : h.value right = some s2 := by rw [hv]; exact hs2
      have htl := takeLeft_eq hs1 hs2
      simp only [Path, true_and] at hpA hpB
      by_cases ht : takeLeft v left right = true
      · have hperm : ((O ++ [left]) ++ (A ++ right :: B)).Perm (O ++ (left :: A ++ right :: B)) := by
          simp
        obtain ⟨h1, hv1', hs, hl, hnx, hO1, hb1, hva, hli, hfr, hfr'⟩ :=
          merge_pick (x := left) hO hb (hperm.nodup_iff.2 hnd) h0O
        have hdec : decide (strcmp s1 s2 < 0) = true := htl ▸ ht
        obtain ⟨h', p, he, r1, r2, r3, r4, r5⟩ := ih A (right :: B) (O ++ [left]) h1
          (h.next left) right hv1' left (some left) fuel
          (by simp at hn ⊢; omega) (by simp at hfu ⊢; omega)
          (hperm.nodup_iff.2 hnd) (fun e => h0 (hperm.mem_iff.1 e)) (Or.inr (by simp))
          ((path_congr _ _ _ (fun x hx => (hfr x (by simp [hx])).1)).2 hpA)
          (by
            simp only [Path, true_and]
            rw [(hfr right (by simp)).1]
            exact (path_congr _ _ _ (fun x hx => (hfr x (by simp [hx])).1)).2 hpB)
          (backLinked_tail (fun x hx => (hfr x (by simp [hx])).2) hbA)
          (backLinked_congr (fun x hx => (hfr x (List.mem_append_right _ hx)).2) hbB)
          hO1 hb1 (hva.trans hv)
          (fun x hx => hsome x (by simp only [List.mem_append, List.mem_cons] at hx ⊢; tauto))
        have hmg : mergeNodes v (left :: A) (right :: B) = left :: mergeNodes v A (right :: B) := by
          rw [mergeNodes]; simp [ht]
        refine ⟨h', p, ?_, by simpa [hmg] using r1, by simpa [hmg] using r2, r3,
          r4.trans hli, ?_⟩
        · simp only [q_mergefinal_loop, ne_eq, ha0, hb0, not_false_eq_true, and_self, if_true,
            Heap.rdValue, if_false, Res.ok_bind, hv1, hv2, strcmpPtr, hdec, Heap.wrPrev, hs, hl,
            Heap.rdNext, hnx]
          exact he
        · intro z hz
          have hz' : z ∉ (O ++ [left]) ++ (A ++ right :: B) := fun e => hz (hperm.mem_iff.1 e)
          rw [(r5 z hz').1, (r5 z hz').2]
          exact hfr' z hz'
      · have hperm : ((O ++ [right]) ++ (left :: A ++ B)).Perm
            (O ++ (left :: A ++ right :: B)) := by
          rw [List.append_assoc]
          exact List.Perm.append_left O
            (by simpa using (@List.perm_middle Nat right (left :: A) B).symm)
        obtain ⟨h1, hv1', hs, hl, hnx, hO1, hb1, hva, hli, hfr, hfr'⟩ :=
          merge_pick (x := right) hO hb (hperm.nodup_iff.2 hnd) h0O
        have hdec : decide (strcmp s1 s2 < 0) = false := by
          rw [← htl]; exact Bool.eq_false_iff.2 ht
        obtain ⟨h', p, he, r1, r2, r3, r4, r5⟩ := ih (left :: A) B (O ++ [right]) h1
          left (h.next right) hv1' right (some right) fuel
          (by simp at hn ⊢; omega) (by simp at hfu ⊢; omega)
          (hperm.nodup_iff.2 hnd) (fun e => h0 (hperm.mem_iff.1 e)) (Or.inl (by simp))
          (by
            simp only [Path, true_and]
            rw [(hfr left (by simp)).1]
            exact (path_congr _ _ _ (fun x hx => (hfr x (by simp [hx])).1)).2 hpA)
          ((path_congr _ _ _ (fun x hx => (hfr x (by simp [hx])).1)).2 hpB)
          (backLinked_congr (fun x hx => (hfr x (List.mem_append_left _ hx)).2) hbA)
          (backLinked_tail (fun x hx => (hfr x (by simp [hx])).2) hbB)
          hO1 hb1 (hva.trans hv)
          (fun x hx => hsome x (by simp only [List.mem_append, List.mem_cons] at hx ⊢; tauto))
        have hmg : mergeNodes v (left :: A) (right :: B) = right :: mergeNodes v (left :: A) B := by
          rw [mergeNodes]; simp [ht]
        refine ⟨h', p, ?_, by simpa [hmg] using r1, by simpa [hmg] using r2, r3,
          r4.trans hli, ?_⟩
        · simp only [q_mergefinal_loop, ne_eq, ha0, hb0, not_false_eq_true, and_self, if_true,
            Heap.rdValue, if_false, Res.ok_bind, hv1, hv2, strcmpPtr, hdec, Heap.wrPrev, hs, hl,
            Heap.rdNext, hnx, Bool.false_eq_true]
          exact he
        · intro z hz
          have hz' : z ∉ (O ++ [right]) ++ (left :: A ++ B) := fun e => hz (hperm.mem_iff.1 e)
          rw [(r5 z hz').1, (r5 z hz').2]
          exact hfr' z hz'

/-! ## q_merge -/

theorem mergeNodes_nil_right (v : Nat → Option (List Nat)) (A : List Nat) :
    mergeNodes v A [] = A := by
  cases A <;> rw [mergeNodes]

theorem mergeNodes_perm (v : Nat → Option (List Nat)) : ∀ (n : Nat) (A B : List Nat),
    A.length + B.length ≤ n → (mergeNodes v A B).Perm (A ++ B) := by
  intro n
  induction n with
  | zero =>
    intro A B hn
    have hA : A = [] := List.length_eq_zero.1 (by omega)
    subst hA
    rw [mergeNodes]; simp
  | succ n ih =>
    intro A B hn
    match A, B, hn with
    | [], B, _ => rw [mergeNodes]; simp
    | a :: A, [], _ => rw [mergeNodes]; simp
    | a :: A, b :: B, hn =>
      rw [mergeNodes]
      split_ifs
      · exact (ih A (b :: B) (by simp at hn ⊢; omega)).cons a
      · exact ((ih (a :: A) B (by simp at hn ⊢; omega)).cons b).trans
          (@List.perm_middle Nat b (a :: A) B).symm

theorem sortNodes_perm (v : Nat → Option (List Nat)) : ∀ L : List Nat,
    (sortNodes v L).Perm L
  | [] => List.Perm.refl _
  | x :: R =>
    (mergeNodes_perm v _ [x] (sortNodes v R) (le_refl _)).trans ((sortNodes_perm v R).cons x)

theorem q_merge_loop_eq {h : Heap} {ptr : Nat} (hp : ptr ≠ 0) (fuel : Nat) :
    q_merge_loop (fuel + 1) h ptr ptr ptr = .ok ptr := by
  simp [q_merge_loop, Heap.rdNext, hp]

theorem q_merge_spec (v : Nat → Option (List Nat)) : ∀ (L : List Nat) (h : Heap) (ptr fuel : Nat),
    L.length < fuel → Path h.next ptr L 0 → L.Nodup → 0 ∉ L → h.value = v →
    (∀ x ∈ L, (v x).isSome) →
    ∃ h' p, q_merge fuel h ptr = .ok (h', p) ∧ Path h'.next p (sortNodes v L) 0 ∧
      BackLinked h'.prev (sortNodes v L) ∧ h'.value = v ∧ h'.live = h.live ∧
      ∀ z, z ∉ L → h'.next z = h.next z ∧ h'.prev z = h.prev z := by
  intro L
  induction L with
  | nil =>
    intro h ptr fuel hf hp _ _ hv _
    obtain ⟨fuel, rfl⟩ : ∃ k, fuel = k + 1 := ⟨fuel - 1, by simp at hf; omega⟩
    simp only [Path] at hp
    subst hp
    exact ⟨h, 0, by simp [q_merge], by simp [sortNodes, Path], backLinked_nil _, hv, rfl,
      fun _ _ => ⟨rfl, rfl⟩⟩
  | cons x R ih =>
    intro h ptr fuel hf hp hnd h0 hv hsome
    obtain ⟨fuel, rfl⟩ : ∃ k, fuel = k + 1 := ⟨fuel - 1, by simp at hf; omega⟩
    simp only [Path] at hp
    obtain ⟨rfl, hp⟩ := hp
    have hx0 : ptr ≠ 0 := fun e => h0 (by simp [e])
    cases R with
    | nil =>
      simp only [Path] at hp
      refine ⟨h, ptr, by simp [q_merge, hx0, Heap.rdNext, hp], ?_, ?_, hv, rfl,
        fun _ _ => ⟨rfl, rfl⟩⟩
      · simp [sortNodes, mergeNodes, Path, hp]
      · simp only [sortNodes, mergeNodes_nil_right]
        exact ⟨h.prev ptr, by simp [Path]⟩
    | cons y R =>
      obtain ⟨fuel, rfl⟩ : ∃ k, fuel = k + 1 := ⟨fuel - 1, by simp at hf; omega⟩
      have hy : h.next ptr = y := path_start hp
      have hy0 : y ≠ 0 := fun e => h0 (by simp [e])
      have hxR : ptr ∉ y :: R := (List.nodup_cons.1 hnd).1
      -- the chain is cut after its first node
      have hp1 : Path (upd h.next ptr 0) y (y :: R) 0 := by
        have := (path_upd (f := h.next) 0 (h.next ptr) 0 hxR).2 hp
        rwa [hy] at this
      obtain ⟨h2, p2, he2, r1, r2, r3, r4, r5⟩ := ih { h with next := upd h.next ptr 0 } y
        (fuel + 1) (by simp at hf ⊢; omega) hp1 (List.nodup_cons.1 hnd).2
        (fun e => h0 (List.mem_cons_of_mem _ e)) hv
        (fun z hz => hsome z (List.mem_cons_of_mem _ hz))
      have hperm := sortNodes_perm v (y :: R)
      have hx2 : h2.next ptr = 0 := by rw [(r5 ptr hxR).1]; exact upd_same _ _ _
      obtain ⟨h', p, he, s1, s2, s3, s4, s5⟩ := q_mergefinal_loop_spec v _ [ptr]
        (sortNodes v (y :: R)) [] h2 ptr p2 ptr 0 none (fuel + 1) (le_refl _)
        (by rw [List.length_singleton, hperm.length_eq]; simp at hf ⊢; omega)
        (by
          rw [List.nil_append, List.singleton_append, List.nodup_cons]
          exact ⟨fun e => hxR (hperm.mem_iff.1 e), hperm.nodup_iff.2 (List.nodup_cons.1 hnd).2⟩)
        (by
          rw [List.nil_append, List.singleton_append, List.mem_cons, not_or]
          exact ⟨fun e => hx0 e.symm, fun e => h0 (List.mem_cons_of_mem _ (hperm.mem_iff.1 e))⟩)
        (Or.inl (by simp)) (by simp [Path, hx2]) r1 ⟨h2.prev ptr, by simp [Path]⟩ r2
        (Or.inl ⟨rfl, rfl, rfl⟩) rfl r3
        (by
          intro z hz
          rw [List.singleton_append, List.mem_cons] at hz
          rcases hz with rfl | hz
          · exact hsome _ (by simp)
          · exact hsome z (List.mem_cons_of_mem _ (hperm.mem_iff.1 hz)))
      refine ⟨h', p, ?_, by simpa [sortNodes] using s1, ⟨0, by simpa [sortNodes] using s2⟩, s3,
        s4.trans r4, ?_⟩
      · have hl : q_merge (fuel + 1) { h with next := upd h.next ptr 0 } ptr =
            .ok ({ h with next := upd h.next ptr 0 }, ptr) := by
          simp [q_merge, hx0, Heap.rdNext]
        rw [q_merge]
        simp only [hx0, if_false, Heap.rdNext, Res.ok_bind, hy, hy0,
          q_merge_loop_eq hx0, Heap.wrNext]
        rw [hl]
        simp only [Res.ok_bind]
        rw [he2]
        simp only [Res.ok_bind, q_mergefinal]
        exact he
      · intro z hz
        simp only [List.mem_cons, not_or] at hz
        have hz1 : z ∉ [] ++ ([ptr] ++ sortNodes v (y :: R)) := by
          rw [List.nil_append, List.singleton_append, List.mem_cons, not_or]
          exact ⟨hz.1, fun e => by
            have := hperm.mem_iff.1 e
            simp only [List.mem_cons] at this
            tauto⟩
        have hz2 : z ∉ y :: R := by simp only [List.mem_cons, not_or]; exact hz.2
        rw [(s5 z hz1).1, (s5 z hz1).2, (r5 z hz2).1, (r5 z hz2).2]
        exact ⟨upd_ne _ _ hz.1, rfl⟩

/-! ## q_sort -/

theorem q_sort_loop_eq (h : Heap) : ∀ (X : List Nat) (p t fuel : Nat),
    Path h.next p (X ++ [t]) 0 → 0 ∉ X ++ [t] → X.length < fuel →
    q_sort_loop fuel h p = .ok t := by
  intro X
  induction X with
  | nil =>
    intro p t fuel hp h0 hf
    obtain ⟨fuel, rfl⟩ : ∃ k, fuel = k + 1 := ⟨fuel - 1, by simp at hf; omega⟩
    simp only [List.nil_append, Path] at hp
    obtain ⟨rfl, hp⟩ := hp
    have : p ≠ 0 := fun e => h0 (by simp [e])
    simp [q_sort_loop, Heap.rdNext, this, hp]
  | cons a X ih =>
    intro p t fuel hp h0 hf
    obtain ⟨fuel, rfl⟩ : ∃ k, fuel = k + 1 := ⟨fuel - 1, by simp at hf; omega⟩
    simp only [List.cons_append, Path] at hp
    obtain ⟨rfl, hp⟩ := hp
    have hp0 : p ≠ 0 := fun e => h0 (by simp [e])
    have hn0 : h.next p ≠ 0 := by
      rw [path_start hp]
      intro e
      apply h0
      rw [← e]
      cases X <;> simp
    simp only [q_sort_loop, Heap.rdNext, hp0, if_false, Res.ok_bind, ne_eq, hn0,
      not_false_eq_true, if_true]
    exact ih _ t fuel hp (fun e => h0 (List.mem_cons_of_mem _ e)) (by simpa using hf)

theorem exists_snoc {L : List Nat} (hL : L ≠ []) : ∃ L0 t, L = L0 ++ [t] :=
  ⟨L.dropLast, L.getLast hL, (List.dropLast_append_getLast hL).symm⟩

theorem sortNodes_single (v : Nat → Option (List Nat)) (x : Nat) : sortNodes v [x] = [x] := by
  simp [sortNodes, mergeNodes_nil_right]

theorem q_sort_spec (v : Nat → Option (List Nat)) {h : Heap} {head : Nat} {L : List Nat}
    (hr : Ring h head L) (hv : h.value = v) (hsome : ∀ x ∈ L, (v x).isSome) {fuel : Nat}
    (hf : L.length < fuel) (hi : L.length ≤ 2147483647) :
    ∃ h', q_sort fuel h head = .ok h' ∧ Ring h' head (sortNodes v L) ∧ h'.value = v ∧
      h'.live = h.live := by
  match L, hr, hsome, hf, hi with
  | [], hr, _, hf, hi => exact ⟨h, by simp [q_sort, q_size_eq hr hf hi], hr, hv, rfl⟩
  | [x], hr, _, hf, hi =>
    exact ⟨h, by simp [q_sort, q_size_eq hr hf hi, hr.1], by rwa [sortNodes_single], hv, rfl⟩
  | a :: b :: L, hr, hsome, hf, hi =>
    obtain ⟨L0, t, hL⟩ := exists_snoc (L := a :: b :: L) (by simp)
    have hlen : (a :: b :: L).length = L.length + 2 := rfl
    generalize a :: b :: L = M at hr hsome hf hi hL hlen
    subst hL
    have hth : t ≠ head := fun e => ring_not_mem hr (by simp [← e])
    have ht0 : t ≠ 0 := ring_ne_zero hr (by simp)
    have hnd := ring_nodup hr
    have htL0 : t ∉ L0 := fun e => List.disjoint_of_nodup_append hnd e (by simp)
    have hprev : h.prev head = t := by rw [ring_prev_head hr]; simp
    have hfw := hr.2.2.2.1
    rw [path_snoc] at hfw
    have hch : Path (upd h.next t 0) (h.next head) (L0 ++ [t]) 0 := by
      rw [path_snoc]
      exact ⟨(path_upd _ _ _ htL0).2 hfw.1, upd_same _ _ _⟩
    obtain ⟨h2, p, he2, r1, r2, r3, r4, r5⟩ := q_merge_spec v (L0 ++ [t])
      { h with next := upd h.next t 0 } (h.next head) fuel hf hch hnd hr.2.1 hv hsome
    have hperm := sortNodes_perm v (L0 ++ [t])
    have hS : sortNodes v (L0 ++ [t]) ≠ [] := by
      intro e
      have := hperm.length_eq
      rw [e] at this
      simp at this
    obtain ⟨S0, t', hS'⟩ := exists_snoc hS
    rw [hS'] at r1 r2 hperm ⊢
    have hhS : head ∉ S0 ++ [t'] := fun e => ring_not_mem hr (hperm.mem_iff.1 e)
    have h0S : 0 ∉ S0 ++ [t'] := fun e => hr.2.1 (hperm.mem_iff.1 e)
    have hndS : (S0 ++ [t']).Nodup := hperm.nodup_iff.2 hnd
    have ht'h : t' ≠ head := fun e => hhS (by simp [e])
    have ht'0 : t' ≠ 0 := fun e => h0S (by simp [e])
    have ht'S0 : t' ∉ S0 := fun e => List.disjoint_of_nodup_append hndS e (by simp)
    have hhS0 : head ∉ S0 := fun e => hhS (List.mem_append_left _ e)
    have hp : p = S0.headD t' := by
      rw [path_start r1]; cases S0 <;> rfl
    have hp0 : p ≠ 0 := by
      intro e
      apply h0S
      rw [← e, hp]
      cases S0 <;> simp
    have hloop : q_sort_loop fuel
        { h2 with next := upd h2.next head p, prev := upd h2.prev p head } p = .ok t' :=
      q_sort_loop_eq _ S0 p t' fuel ((path_upd _ _ _ hhS).2 r1) h0S (by
        have := hperm.length_eq
        simp at this hf
        omega)
    refine ⟨{ h2 with next := upd (upd h2.next head p) t' head,
                      prev := upd (upd h2.prev p head) head t' }, ?_, ?_, r3, r4⟩
    · have hnh : upd h.next t 0 head = h.next head := upd_ne _ _ hth.symm
      simp only [q_sort, hr.1, if_false, q_size_eq hr hf hi, Res.ok_bind, Heap.rdPrev, hprev,
        Heap.wrNext, ht0, Heap.rdNext, hnh, he2, Heap.wrPrev, hp0, hloop, ht'0]
      rw [if_neg (by omega), if_neg (by omega)]
    · refine ⟨hr.1, h0S, List.nodup_cons.2 ⟨hhS, hndS⟩, ?_, ?_, ?_⟩
      · show Path (upd (upd h2.next head p) t' head) (upd (upd h2.next head p) t' head head)
          (S0 ++ [t']) head
        rw [upd_ne _ _ ht'h.symm, upd_same, path_snoc, path_upd _ _ _ ht'S0,
          path_upd _ _ _ hhS0]
        exact ⟨((path_snoc _ _ _ _ _).1 r1).1, upd_same _ _ _⟩
      · show Path (upd (upd h2.prev p head) head t') (upd (upd h2.prev p head) head t' head)
          (S0 ++ [t']).reverse head
        obtain ⟨e, he⟩ := r2
        have hl : (S0 ++ [t']).getLastD e = t' := by
          simp [List.getLastD_eq_getLast?]
        rw [hl, List.reverse_append, List.reverse_singleton, List.singleton_append] at he
        have := path_retarget head S0.reverse t' e he (by
          rw [List.nodup_cons]
          exact ⟨fun e => ht'S0 (List.mem_reverse.1 e),
            List.nodup_reverse.2 (List.nodup_append.1 hndS).1⟩)
        rw [getLastD_reverse, ← hp] at this
        rw [upd_same, List.reverse_append, List.reverse_singleton, List.singleton_append,
          path_upd _ _ _ (by
            rw [List.mem_cons, not_or]
            exact ⟨fun e => ht'h e.symm, fun e => hhS0 (List.mem_reverse.1 e)⟩)]
        exact this
      · intro x hx
        show h2.live x = true
        rw [r4]
        apply hr.2.2.2.2.2
        simp only [List.mem_cons] at hx ⊢
        rcases hx with rfl | hx
        · exact Or.inl rfl
        · exact Or.inr (hperm.mem_iff.1 hx)

/-! ## The order computed by q_sort -/

theorem takeLeft_iff (v : Nat → Option (List Nat)) (a b : Nat) :
    takeLeft v a b = true ↔ nodeLt v a b := by
  simp [takeLeft, nodeLt, strLt]

theorem nodeLt_le {v : Nat → Option (List Nat)} {a b : Nat} (h : nodeLt v a b) : nodeLe v a b :=
  le_of_lt h

theorem nodeLe_of_not_lt {v : Nat → Option (List Nat)} {a b : Nat} (h : ¬ nodeLt v a b) :
    nodeLe v b a := by
  unfold nodeLt strLt at h
  unfold nodeLe strLe
  rw [strcmp_swap]
  omega

theorem nodeLe_trans {v : Nat → Option (List Nat)} {a b c : Nat} (h1 : nodeLe v a b)
    (h2 : nodeLe v b c) : nodeLe v a c :=
  strcmp_le_trans h1 h2

theorem mergeNodes_sorted (v : Nat → Option (List Nat)) : ∀ (n : Nat) (A B : List Nat),
    A.length + B.length ≤ n → A.Pairwise (nodeLe v) → B.Pairwise (nodeLe v) →
    (mergeNodes v A B).Pairwise (nodeLe v) := by
  intro n
  induction n with
  | zero =>
    intro A B hn _ hB
    have hA : A = [] := List.length_eq_zero.1 (by omega)
    subst hA
    rw [mergeNodes]; exact hB
  | succ n ih =>
    intro A B hn hA hB
    match A, B, hn, hA, hB with
    | [], B, _, _, hB => rw [mergeNodes]; exact hB
    | a :: A, [], _, hA, _ => rw [mergeNodes]; exact hA
    | a :: A, b :: B, hn, hA, hB =>
      rw [mergeNodes]
      rw [List.pairwise_cons] at hA hB
      split_ifs with ht
      · rw [takeLeft_iff] at ht
        rw [List.pairwise_cons]
        refine ⟨?_, ih A (b :: B) (by simp at hn ⊢; omega) hA.2 (List.pairwise_cons.2 hB)⟩
        intro z hz
        have := (mergeNodes_perm v _ A (b :: B) (le_refl _)).mem_iff.1 hz
        simp only [List.mem_append, List.mem_cons] at this
        rcases this with hz | rfl | hz
        · exact hA.1 z hz
        · exact nodeLt_le ht
        · exact nodeLe_trans (nodeLt_le ht) (hB.1 z hz)
      · rw [takeLeft_iff] at ht
        rw [List.pairwise_cons]
        refine ⟨?_, ih (a :: A) B (by simp at hn ⊢; omega) (List.pairwise_cons.2 hA) hB.2⟩
        intro z hz
        have := (mergeNodes_perm v _ (a :: A) B (le_refl _)).mem_iff.1 hz
        simp only [List.mem_append, List.mem_cons] at this
        rcases this with (rfl | hz) | hz
        · exact nodeLe_of_not_lt ht
        · exact nodeLe_trans (nodeLe_of_not_lt ht) (hA.1 z hz)
        · exact hB.1 z hz

theorem sortNodes_sorted (v : Nat → Option (List Nat)) : ∀ L : List Nat,
    (sortNodes v L).Pairwise (nodeLe v)
  | [] => List.Pairwise.nil
  | x :: R =>
    mergeNodes_sorted v _ [x] (sortNodes v R) (le_refl _) (List.pairwise_singleton _ _)
      (sortNodes_sorted v R)

theorem payloads_iff (h : Heap) (L : List Nat) (vs : List (List Nat)) :
    Payloads h L vs ↔ (∀ x ∈ L, (h.value x).isSome) ∧ L.map h.str = vs := by
  unfold Payloads
  induction L generalizing vs with
  | nil => cases vs <;> simp
  | cons a L ih =>
    cases vs with
    | nil => simp
    | cons s vs =>
      simp only [List.map_cons, List.cons.injEq, ih, List.mem_cons, forall_eq_or_imp, Heap.str]
      constructor
      · rintro ⟨h1, h2, h3⟩
        exact ⟨⟨by simp [h1], h2⟩, by simp [h1], h3⟩
      · rintro ⟨⟨h1, h2⟩, h3, h4⟩
        obtain ⟨s', hs'⟩ := Option.isSome_iff_exists.1 h1
        rw [hs'] at h3 ⊢
        exact ⟨by simpa using h3, h2, h4⟩

theorem strLe_sorted_unique {l1 l2 : List (List Nat)} (hp : l1.Perm l2)
    (h1 : l1.Pairwise strLe) (h2 : l2.Pairwise strLe) : l1 = l2 := by
  haveI : IsAntisymm (List Nat) strLe := ⟨fun _ _ => strcmp_le_antisymm⟩
  exact List.eq_of_perm_of_sorted hp h1 h2

theorem insertionSort_strLe_sorted (vs : List (List Nat)) :
    (vs.insertionSort strLe).Pairwise strLe := by
  haveI : IsTotal (List Nat) strLe := ⟨strcmp_le_total⟩
  haveI : IsTrans (List Nat) strLe := ⟨fun _ _ _ => strcmp_le_trans⟩
  exact List.sorted_insertionSort strLe vs

/-- The payloads after sorting are the reference sort of the payloads before. -/
theorem sortNodes_payloads {h : Heap} {L : List Nat} {vs : List (List Nat)}
    (hp : Payloads h L vs) :
    (sortNodes h.value L).map h.str = vs.insertionSort strLe := by
  rw [payloads_iff] at hp
  apply strLe_sorted_unique
  · refine ((sortNodes_perm h.value L).map _).trans ?_
    rw [hp.2]
    exact (List.perm_insertionSort strLe vs).symm
  · exact List.Pairwise.map _ (fun _ _ h => h) (sortNodes_sorted h.value L)
  · exact insertionSort_strLe_sorted vs

/-! ## Elements with equal payloads -/

theorem mem_mergeNodes_single (v : Nat → Option (List Nat)) (x : Nat) (S : List Nat) :
    x ∈ mergeNodes v [x] S :=
  (mergeNodes_perm v _ [x] S (le_refl _)).mem_iff.2 (by simp)

theorem sublist_mergeNodes_single (v : Nat → Option (List Nat)) (x : Nat) : ∀ S : List Nat,
    S.Sublist (mergeNodes v [x] S)
  | [] => List.nil_sublist _
  | s :: S => by
    rw [mergeNodes]
    split_ifs
    · rw [mergeNodes]; exact List.sublist_cons_self _ _
    · exact List.Sublist.cons₂ _ (sublist_mergeNodes_single v x S)

/-- Inserting `x` into a sorted chain puts it behind every node with an equal
payload. -/
theorem mergeNodes_single_after (v : Nat → Option (List Nat)) (x y : Nat)
    (hxy : (v y).getD [] = (v x).getD []) : ∀ S : List Nat, S.Pairwise (nodeLe v) → y ∈ S →
    [y, x].Sublist (mergeNodes v [x] S)
  | [], _, hy => by simp at hy
  | s :: S, hS, hy => by
    rw [List.pairwise_cons] at hS
    rw [mergeNodes]
    split_ifs with ht
    · exfalso
      rw [takeLeft_iff] at ht
      have hsy : nodeLe v s y := by
        rcases List.mem_cons.1 hy with rfl | hy
        · exact le_of_eq (strcmp_self _)
        · exact hS.1 y hy
      unfold nodeLt strLt at ht
      unfold nodeLe strLe at hsy
      rw [hxy] at hsy
      rw [strcmp_swap] at hsy
      omega
    · rcases List.mem_cons.1 hy with rfl | hy
      · exact List.Sublist.cons₂ _ (List.singleton_sublist.2 (mem_mergeNodes_single v x S))
      · exact (mergeNodes_single_after v x y hxy S hS.2 hy).trans (List.sublist_cons_self _ _)

/-- `q_sort` reverses the relative order of elements with equal payloads. -/
theorem sortNodes_equal_reversed (v : Nat → Option (List Nat)) (x y : Nat)
    (hxy : (v y).getD [] = (v x).getD []) : ∀ L : List Nat, [x, y].Sublist L →
    [y, x].Sublist (sortNodes v L)
  | [], h => by simp at h
  | z :: R, h => by
    simp only [sortNodes]
    cases h with
    | cons _ h =>
      exact (sortNodes_equal_reversed v x y hxy R h).trans (sublist_mergeNodes_single v z _)
    | cons₂ _ h =>
      exact mergeNodes_single_after v x y hxy _ (sortNodes_sorted v R)
        ((sortNodes_perm v R).mem_iff.2 (List.singleton_sublist.1 h))

/-! ## The list left by q_delete_dup -/

theorem dedupFrom_head {κ : Type} [DecidableEq κ] (k : Nat → κ) : ∀ (R : List Nat) (cur : Nat),
    ∃ T, dedupFrom k cur R = cur :: T := by
  intro R
  induction R with
  | nil => intro cur; exact ⟨[], rfl⟩
  | cons y R ih =>
    intro cur
    simp only [dedupFrom]
    split_ifs
    · exact ih cur
    · exact ⟨_, rfl⟩

theorem dedupFrom_covers {κ : Type} [DecidableEq κ] (k : Nat → κ) : ∀ (R : List Nat) (cur : Nat),
    ∀ x ∈ cur :: R, ∃ y ∈ dedupFrom k cur R, k y = k x := by
  intro R
  induction R with
  | nil =>
    intro cur x hx
    simp only [List.mem_singleton] at hx
    subst hx
    exact ⟨x, by simp [dedupFrom], rfl⟩
  | cons y R ih =>
    intro cur x hx
    simp only [dedupFrom]
    split_ifs with hk
    · simp only [List.mem_cons] at hx
      rcases hx with rfl | rfl | hx
      · exact ih x x (List.mem_cons_self _ _)
      · obtain ⟨z, hz, hkz⟩ := ih cur cur (List.mem_cons_self _ _)
        exact ⟨z, hz, hkz.trans hk⟩
      · exact ih cur x (List.mem_cons_of_mem _ hx)
    · simp only [List.mem_cons] at hx
      rcases hx with rfl | hx
      · exact ⟨x, List.mem_cons_self _ _, rfl⟩
      · obtain ⟨z, hz, hkz⟩ := ih y x (List.mem_cons.2 hx)
        exact ⟨z, List.mem_cons_of_mem _ hz, hkz⟩

theorem dedupFrom_adjacent {κ : Type} [DecidableEq κ] (k : Nat → κ) : ∀ (R : List Nat)
    (cur : Nat), (dedupFrom k cur R).Chain' (fun a b => k a ≠ k b) := by
  intro R
  induction R with
  | nil => intro cur; simp [dedupFrom]
  | cons y R ih =>
    intro cur
    simp only [dedupFrom]
    split_ifs with hk
    · exact ih cur
    · obtain ⟨T, hT⟩ := dedupFrom_head k R y
      have := ih y
      rw [hT] at this ⊢
      exact List.chain'_cons.2 ⟨hk, this⟩

theorem strcmp_lt_of_lt_of_le {s t u : List Nat} (h1 : strcmp s t < 0) (h2 : strcmp t u ≤ 0) :
    strcmp s u < 0 := by
  rcases lt_or_eq_of_le h2 with h2 | h2
  · exact strcmp_lt_trans _ _ _ h1 h2
  · rw [strcmp_eq_zero] at h2; subst h2; exact h1

theorem nodeLt_of_le_of_ne {v : Nat → Option (List Nat)} {a b : Nat} (hle : nodeLe v a b)
    (ha : (v a).isSome) (hb : (v b).isSome) (hne : v a ≠ v b) : nodeLt v a b := by
  obtain ⟨s, hs⟩ := Option.isSome_iff_exists.1 ha
  obtain ⟨t, ht⟩ := Option.isSome_iff_exists.1 hb
  unfold nodeLe strLe at hle
  unfold nodeLt strLt
  rw [hs, ht] at hle hne ⊢
  simp only [Option.getD_some] at hle ⊢
  have : strcmp s t ≠ 0 := fun e => hne (by rw [(strcmp_eq_zero s t).1 e])
  omega

theorem dedupFrom_strict (v : Nat → Option (List Nat)) : ∀ (R : List Nat) (cur : Nat),
    (cur :: R).Pairwise (nodeLe v) → (∀ x ∈ cur :: R, (v x).isSome) →
    (dedupFrom v cur R).Pairwise (nodeLt v) := by
  intro R
  induction R with
  | nil => intro cur _ _; simp [dedupFrom]
  | cons y R ih =>
    intro cur hs hv
    simp only [dedupFrom]
    split_ifs with hk
    · exact ih cur (hs.sublist (List.Sublist.cons₂ _ (List.sublist_cons_self _ _)))
        (fun x hx => hv x (by simp only [List.mem_cons] at hx ⊢; tauto))
    · rw [List.pairwise_cons] at hs ⊢
      refine ⟨?_, ih y hs.2 (fun x hx => hv x (List.mem_cons_of_mem _ hx))⟩
      intro z hz
      have hzy := (dedupFrom_sublist v R y).subset hz
      have hlt : nodeLt v cur y :=
        nodeLt_of_le_of_ne (hs.1 y (List.mem_cons_self _ _)) (hv cur (by simp)) (hv y (by simp)) hk
      rcases List.mem_cons.1 hzy with rfl | hzR
      · exact hlt
      · exact strcmp_lt_of_lt_of_le hlt ((List.pairwise_cons.1 hs.2).1 z hzR)

theorem strLt_pairwise_nodup {vs : List (List Nat)} (h : vs.Pairwise strLt) : vs.Nodup :=
  h.imp (fun {a b} hab e => by
    unfold strLt at hab
    rw [e, strcmp_self] at hab
    exact absurd hab (lt_irrefl _))

/-- On a queue with ascending payloads `q_delete_dup` leaves strictly ascending
payloads with the same set of values. -/
theorem dedupAdj_payloads {h : Heap} {L : List Nat} {vs : List (List Nat)}
    (hp : Payloads h L vs) (hs : vs.Pairwise strLe) :
    ((dedupAdj h.value L).map h.str).Pairwise strLt ∧
      (∀ s, s ∈ (dedupAdj h.value L).map h.str ↔ s ∈ vs) ∧
      (dedupAdj h.value L).Sublist L := by
  rw [payloads_iff] at hp
  obtain ⟨hsome, rfl⟩ := hp
  cases L with
  | nil => simp [dedupAdj]
  | cons a L =>
    simp only [dedupAdj]
    have hsub := dedupFrom_sublist h.value L a
    refine ⟨?_, ?_, hsub⟩
    · exact List.Pairwise.map _ (fun _ _ h => h)
        (dedupFrom_strict h.value L a (List.pairwise_map.1 hs : (a :: L).Pairwise
          (fun x y => strLe (h.str x) (h.str y))) hsome)
    · intro s
      constructor
      · exact fun hx => (hsub.map h.str).subset hx
      · intro hx
        obtain ⟨x, hxL, rfl⟩ := List.mem_map.1 hx
        obtain ⟨y, hy, hky⟩ := dedupFrom_covers h.value L a x hxL
        exact List.mem_map.2 ⟨y, hy, by simp [Heap.str, hky]⟩

theorem payloads_of_agree {h h' : Heap} {L : List Nat}
    (hsome : ∀ x ∈ L, (h.value x).isSome) (hv : ∀ x ∈ L, h'.value x = h.value x) :
    Payloads h' L (L.map h.str) := by
  rw [payloads_iff]
  refine ⟨fun x hx => by rw [hv x hx]; exact hsome x hx, ?_⟩
  exact List.map_congr_left (fun x hx => by simp [Heap.str, hv x hx])

/-! ## The ring invariant, node by node -/

theorem ringC_local_front {h : Heap} {x : Nat} {R : List Nat} (hr : RingC h (x :: R)) :
    h.prev (h.next x) = x ∧ h.next (h.prev x) = x := by
  cases R with
  | nil =>
    have h1 := cyc2_next_front hr.2.2.1
    have h2 := cyc2_prev_front hr.2.2.1
    simp only [List.headD_nil, List.getLastD_nil] at h1 h2
    exact ⟨by rw [h1, h2], by rw [h2, h1]⟩
  | cons r R =>
    constructor
    · have h1 : h.next x = r := cyc2_next_front hr.2.2.1
      have hr' : RingC h ([x] ++ (r :: R)) := hr
      rw [ringC_rotate] at hr'
      have h2 := cyc2_prev_front (x := r) (R := R ++ [x]) hr'.2.2.1
      rw [h1, h2]
      simp [List.getLastD_eq_getLast?]
    · obtain ⟨R0, l, hl⟩ := exists_snoc (L := r :: R) (by simp)
      rw [hl] at hr
      have h2 : h.prev x = l := by
        rw [cyc2_prev_front hr.2.2.1]
        simp [List.getLastD_eq_getLast?]
      have hr' : RingC h ((x :: R0) ++ [l]) := hr
      rw [ringC_rotate] at hr'
      have h1 : h.next l = x := cyc2_next_front (x := l) (R := x :: R0) hr'.2.2.1
      rw [h2, h1]

theorem ring_doubly_linked {h : Heap} {head : Nat} {L : List Nat} (hr : Ring h head L) :
    DoublyLinked h head L := by
  intro n hn
  obtain ⟨A, B, hAB⟩ := List.append_of_mem hn
  have hc : RingC h (head :: L) := (ring_iff _ _ _).1 hr
  rw [hAB, ringC_rotate] at hc
  exact ringC_local_front (R := B ++ A) hc

theorem ring_wellFormed {h : Heap} {head : Nat} {L : List Nat} (hr : Ring h head L) :
    WellFormed h head :=
  ⟨L, hr, ring_doubly_linked hr⟩

theorem copy_out_ok {h : Heap} {x : Nat} (hx0 : x ≠ 0) (hv : (h.value x).isSome)
    {sp : Option (List Nat)} {bufsize : Nat} (hb : BufferFits sp bufsize) :
    ∃ sp', copy_out h x sp bufsize = .ok sp' := by
  cases sp with
  | none => exact ⟨none, rfl⟩
  | some buf =>
    obtain ⟨s, hs⟩ := Option.isSome_iff_exists.1 hv
    obtain ⟨h1, h2⟩ := hb buf rfl
    refine ⟨some ((((s ++ List.replicate bufsize 0).take bufsize) ++ buf.drop bufsize).set
      (bufsize - 1) 0), ?_⟩
    have h3 : ¬ buf.length < bufsize := by omega
    have h4 : bufsize ≠ 0 := by omega
    simp [copy_out, Heap.rdValue, hx0, hs, strncpy, h3, h4]

theorem payloads_isSome {h : Heap} {L : List Nat} {vs : List (List Nat)} (hp : Payloads h L vs) :
    ∀ x ∈ L, (h.value x).isSome :=
  ((payloads_iff h L vs).1 hp).1

/-! ## Sorting and removing duplicates, on payloads -/

theorem q_sort_payloads {h : Heap} {head : Nat} {L : List Nat} {vs : List (List Nat)}
    {fuel : Nat} (hr : Ring h head L) (hp : Payloads h L vs) (hf : L.length < fuel)
    (hi : L.length ≤ 2147483647) :
    ∃ h', q_sort fuel h head = .ok h' ∧ Ring h' head (sortNodes h.value L) ∧
      h'.value = h.value ∧ Payloads h' (sortNodes h.value L) (vs.insertionSort strLe) := by
  obtain ⟨h', he, hr', hv, _⟩ := q_sort_spec h.value hr rfl (payloads_isSome hp) hf hi
  have hperm := sortNodes_perm h.value L
  refine ⟨h', he, hr', hv, ?_⟩
  have := @payloads_of_agree h h' (sortNodes h.value L)
    (fun x hx => payloads_isSome hp x (hperm.mem_iff.1 hx)) (fun x _ => by rw [hv])
  rwa [sortNodes_payloads hp] at this

theorem q_delete_dup_payloads {h : Heap} {head : Nat} {L : List Nat} {vs : List (List Nat)}
    {fuel : Nat} (hr : Ring h head L) (hp : Payloads h L vs) (hs : vs.Pairwise strLe)
    (hL : L ≠ []) (hf : L.length < fuel) (hi : L.length ≤ 2147483647) :
    ∃ h' L' vs', q_delete_dup fuel h head = .ok (h', true) ∧
      Ring h' head L' ∧ Payloads h' L' vs' ∧ L'.Sublist L ∧ vs'.Sublist vs ∧
      vs'.Pairwise strLt ∧ (∀ s, s ∈ vs' ↔ s ∈ vs) ∧ vs'.Nodup := by
  obtain ⟨h', he, hr', hv⟩ := q_delete_dup_spec hr hL (payloads_isSome hp) hf hi
  obtain ⟨d1, d2, d3⟩ := dedupAdj_payloads hp hs
  refine ⟨h', dedupAdj h.value L, (dedupAdj h.value L).map h.str, he, hr',
    payloads_of_agree (fun x hx => payloads_isSome hp x (d3.subset hx)) hv, d3, ?_, d1, d2,
    strLt_pairwise_nodup d1⟩
  have := d3.map h.str
  rwa [((payloads_iff h L vs).1 hp).2] at this

/-! ## The claims -/

/-- Claim C1. On a well-formed queue of at most `INT_MAX` elements `q_sort`
returns, the queue is again a ring of the same elements, and the payloads read from head to tail are the
reference ascending sort of the original payloads: non-decreasing in `strcmp`
order and a permutation of the original payloads. -/
theorem q_sort_sorts (h : Heap) (head : Nat) (L : List Nat) (vs : List (List Nat))
    (fuel : Nat) (hr : Ring h head L) (hp : Payloads h L vs) (hf : L.length < fuel)
    (hi : L.length ≤ 2147483647) :
    ∃ h' L', q_sort fuel h head = .ok h' ∧ Ring h' head L' ∧ L'.Perm L ∧
      h'.value = h.value ∧ Payloads h' L' (vs.insertionSort strLe) ∧
      (vs.insertionSort strLe).Pairwise strLe ∧ (vs.insertionSort strLe).Perm vs ∧
      (vs.insertionSort strLe).length = vs.length := by
  obtain ⟨h', he, hr', hv, hp'⟩ := q_sort_payloads hr hp hf hi
  exact ⟨h', sortNodes h.value L, he, hr', sortNodes_perm h.value L, hv, hp',
    insertionSort_strLe_sorted vs, List.perm_insertionSort strLe vs,
    List.length_insertionSort strLe vs⟩

theorem q_sort_sorts_witness :
    Ring heapCabac 1 [2, 3, 4, 5, 6] ∧
      Payloads heapCabac [2, 3, 4, 5, 6] [[99], [97], [98], [97], [99]] ∧
      [2, 3, 4, 5, 6].length < 6 ∧ [2, 3, 4, 5, 6].length ≤ 2147483647 ∧
      ∃ h' L', q_sort 6 heapCabac 1 = .ok h' ∧ Ring h' 1 L' ∧ L'.Perm [2, 3, 4, 5, 6] ∧
        h'.value = heapCabac.value ∧
        Payloads h' L' ([[99], [97], [98], [97], [99]].insertionSort strLe) ∧
        ([[99], [97], [98], [97], [99]].insertionSort strLe).Pairwise strLe ∧
        ([[99], [97], [98], [97], [99]].insertionSort strLe).Perm
          [[99], [97], [98], [97], [99]] ∧
        ([[99], [97], [98], [97], [99]].insertionSort strLe).length = 5 :=
  ⟨by decide, by decide, by decide, by decide,
    q_sort_sorts heapCabac 1 [2, 3, 4, 5, 6] [[99], [97], [98], [97], [99]] 6
      (by decide) (by decide) (by decide) (by decide)⟩

/-- Claim C2, as stated, fails: in the queue `[a, a]` the element `2` comes
first and has the same payload as the element `3`, and after `q_sort` the
element `3` comes first. -/
theorem q_sort_not_stable :
    Ring heapTie 1 [2, 3] ∧ heapTie.value 2 = heapTie.value 3 ∧
      (q_sort 3 heapTie 1).map (fun h' => h'.elems 1 3) = .ok [3, 2] ∧
      ∃ h', q_sort 3 heapTie 1 = .ok h' ∧ Ring h' 1 [3, 2] :=
  ⟨by decide, by decide, by decide, ⟨_, rfl, by decide⟩⟩

/-- Claim C2, amended. `q_sort` is not stable: on a well-formed queue of at
most `INT_MAX` elements, of two elements with equal payloads, the one that came first in the original queue comes after the other
one after `q_sort`, because `q_mergefinal` takes the left-half element only
when its payload is strictly smaller and so takes the right-half element when
the two payloads are equal. -/
theorem q_sort_equal_payloads_reversed (h : Heap) (head : Nat) (L : List Nat)
    (vs : List (List Nat)) (fuel : Nat) (x y : Nat) (hr : Ring h head L)
    (hp : Payloads h L vs) (hf : L.length < fuel) (hi : L.length ≤ 2147483647)
    (hxy : [x, y].Sublist L) (he : h.value x = h.value y) :
    takeLeft h.value x y = false ∧
      ∃ h' L', q_sort fuel h head = .ok h' ∧ Ring h' head L' ∧ L'.Perm L ∧
        [y, x].Sublist L' := by
  obtain ⟨h', he', hr', _, _⟩ := q_sort_spec h.value hr rfl (payloads_isSome hp) hf hi
  refine ⟨?_, h', sortNodes h.value L, he', hr', sortNodes_perm h.value L,
    sortNodes_equal_reversed h.value x y (by rw [he]) L hxy⟩
  simp [takeLeft, he, strcmp_self]

theorem q_sort_equal_payloads_reversed_witness :
    Ring heapCabac 1 [2, 3, 4, 5, 6] ∧
      Payloads heapCabac [2, 3, 4, 5, 6] [[99], [97], [98], [97], [99]] ∧
      [2, 3, 4, 5, 6].length < 6 ∧ [2, 3, 4, 5, 6].length ≤ 2147483647 ∧
      [3, 5].Sublist [2, 3, 4, 5, 6] ∧ heapCabac.value 3 = heapCabac.value 5 ∧
      takeLeft heapCabac.value 3 5 = false ∧
      ∃ h' L', q_sort 6 heapCabac 1 = .ok h' ∧ Ring h' 1 L' ∧ L'.Perm [2, 3, 4, 5, 6] ∧
        [5, 3].Sublist L' :=
  ⟨by decide, by decide, by decide, by decide, by decide, by decide,
    q_sort_equal_payloads_reversed heapCabac 1 [2, 3, 4, 5, 6]
      [[99], [97], [98], [97], [99]] 6 3 5 (by decide) (by decide) (by decide) (by decide)
      (by decide) (by decide)⟩

/-- Claim C3. On a well-formed queue of any length `q_reverse` returns and the
elements from head to tail are the original elements in reverse order: the
same nodes, with unchanged payloads; only links change. -/
theorem q_reverse_reverses (h : Heap) (head : Nat) (L : List Nat) (fuel : Nat)
    (hr : Ring h head L) (hf : L.length < fuel) :
    ∃ h', q_reverse fuel h head = .ok h' ∧ Ring h' head L.reverse ∧
      h'.value = h.value ∧ h'.live = h.live :=
  q_reverse_spec hr hf

theorem q_reverse_reverses_witness :
    Ring heapCabac 1 [2, 3, 4, 5, 6] ∧
      ∃ h', q_reverse 6 heapCabac 1 = .ok h' ∧ Ring h' 1 [2, 3, 4, 5, 6].reverse ∧
        h'.value = heapCabac.value ∧ h'.live = heapCabac.live :=
  ⟨by decide, q_reverse_reverses heapCabac 1 [2, 3, 4, 5, 6] 6 (by decide) (by decide)⟩

/-- Claim C4. On a well-formed queue `q_swap` returns and exchanges each
adjacent pair counted from the head; with an odd length the last element stays
in place. So `[a, b, c, d]` becomes `[b, a, d, c]` and `[a, b, c]` becomes
`[b, a, c]`. -/
theorem q_swap_swaps_pairs (h : Heap) (head : Nat) (L : List Nat) (fuel : Nat)
    (hr : Ring h head L) (hf : L.length < fuel) :
    (∃ h', q_swap fuel h head = .ok h' ∧ Ring h' head (swapPairs L) ∧
      h'.value = h.value ∧ h'.live = h.live) ∧
      (∀ a b c d : Nat, swapPairs [a, b, c, d] = [b, a, d, c]) ∧
      (∀ a b c : Nat, swapPairs [a, b, c] = [b, a, c]) ∧
      (∀ (a b : Nat) (r : List Nat), swapPairs (a :: b :: r) = b :: a :: swapPairs r) ∧
      (∀ a : Nat, swapPairs [a] = [a]) ∧ swapPairs [] = [] :=
  ⟨q_swap_spec hr hf, fun _ _ _ _ => rfl, fun _ _ _ => rfl, fun _ _ _ => rfl, fun _ => rfl, rfl⟩

theorem q_swap_swaps_pairs_witness :
    Ring heapCabac 1 [2, 3, 4, 5, 6] ∧
      ((∃ h', q_swap 6 heapCabac 1 = .ok h' ∧ Ring h' 1 (swapPairs [2, 3, 4, 5, 6]) ∧
        h'.value = heapCabac.value ∧ h'.live = heapCabac.live) ∧
      (∀ a b c d : Nat, swapPairs [a, b, c, d] = [b, a, d, c]) ∧
      (∀ a b c : Nat, swapPairs [a, b, c] = [b, a, c]) ∧
      (∀ (a b : Nat) (r : List Nat), swapPairs (a :: b :: r) = b :: a :: swapPairs r) ∧
      (∀ a : Nat, swapPairs [a] = [a]) ∧ swapPairs [] = []) :=
  ⟨by decide, q_swap_swaps_pairs heapCabac 1 [2, 3, 4, 5, 6] 6 (by decide) (by decide)⟩

/-- Claim C5. On a queue of `n ≥ 1` elements, `n` at most `INT_MAX`,
`q_delete_mid` returns true and
removes exactly the element at zero-based index `n / 2`, the other elements
keeping their order and payloads (a one-element queue becomes empty); on a
null or an empty queue it returns false and changes nothing. -/
theorem q_delete_mid_removes_middle (h : Heap) (head : Nat) (L : List Nat) (fuel : Nat)
    (hr : Ring h head L) (hf : L.length < fuel) (hi : L.length ≤ 2147483647) :
    q_delete_mid fuel h 0 = .ok (h, false) ∧
      (L = [] → q_delete_mid fuel h head = .ok (h, false)) ∧
      (L ≠ [] → ∃ h', q_delete_mid fuel h head = .ok (h', true) ∧
        Ring h' head (L.eraseIdx (L.length / 2)) ∧
        (L.eraseIdx (L.length / 2)).length = L.length - 1 ∧
        (∀ x ∈ L.eraseIdx (L.length / 2), h'.value x = h.value x) ∧
        h'.live (L.getD (L.length / 2) head) = false) ∧
      (∀ x : Nat, [x].eraseIdx ([x].length / 2) = []) := by
  refine ⟨by simp [q_delete_mid], ?_, ?_, fun _ => by simp⟩
  · rintro rfl
    exact q_delete_mid_empty hr hf
  · intro hL
    obtain ⟨h', he, hr', hv, hl⟩ := q_delete_mid_spec hr hL hf hi
    refine ⟨h', he, hr', ?_, hv, hl⟩
    rw [List.length_eraseIdx]
    have : 0 < L.length := List.length_pos.2 hL
    rw [if_pos (Nat.div_lt_self this (by decide))]

theorem q_delete_mid_removes_middle_witness :
    Ring heapCabac 1 [2, 3, 4, 5, 6] ∧ [2, 3, 4, 5, 6].length < 6 ∧
      [2, 3, 4, 5, 6].length ≤ 2147483647 ∧
      (q_delete_mid 6 heapCabac 0 = .ok (heapCabac, false) ∧
      (([2, 3, 4, 5, 6] : List Nat) = [] →
        q_delete_mid 6 heapCabac 1 = .ok (heapCabac, false)) ∧
      (([2, 3, 4, 5, 6] : List Nat) ≠ [] → ∃ h', q_delete_mid 6 heapCabac 1 = .ok (h', true) ∧
        Ring h' 1 ([2, 3, 4, 5, 6].eraseIdx ([2, 3, 4, 5, 6].length / 2)) ∧
        ([2, 3, 4, 5, 6].eraseIdx ([2, 3, 4, 5, 6].length / 2)).length =
          [2, 3, 4, 5, 6].length - 1 ∧
        (∀ x ∈ [2, 3, 4, 5, 6].eraseIdx ([2, 3, 4, 5, 6].length / 2),
          h'.value x = heapCabac.value x) ∧
        h'.live ([2, 3, 4, 5, 6].getD ([2, 3, 4, 5, 6].length / 2) 1) = false) ∧
      (∀ x : Nat, [x].eraseIdx ([x].length / 2) = [])) :=
  ⟨by decide, by decide, by decide,
    q_delete_mid_removes_middle heapCabac 1 [2, 3, 4, 5, 6] 6 (by decide) (by decide)
      (by decide)⟩

/-- Claim C6, as stated, fails: on the queue `["0", "1", "2", "3", "4", "5"]`
`q_delete_mid` does not leave `["0", "1", "3", "4", "5"]`; the element `"2"` at
index 2 stays and the element `"3"` at index 3 is removed. -/
theorem six_elements_index_two_stays :
    Ring heapDigits 1 [2, 3, 4, 5, 6, 7] ∧
      Payloads heapDigits [2, 3, 4, 5, 6, 7] [[48], [49], [50], [51], [52], [53]] ∧
      (q_delete_mid 7 heapDigits 1).map (fun r => r.1.payloads 1 7) ≠
        .ok [some [48], some [49], some [51], some [52], some [53]] ∧
      (q_delete_mid 7 heapDigits 1).map (fun r => r.1.payloads 1 7) =
        .ok [some [48], some [49], some [50], some [52], some [53]] :=
  ⟨by decide, by decide, by decide, by decide⟩

/-- Claim C6, amended. On a six-element queue `[s0, s1, s2, s3, s4, s5]`
`q_delete_mid` returns true and removes the element at index `3 = 6 / 2` (the
fourth member, `"3"` in `["0", .., "5"]`), leaving the five elements
`[s0, s1, s2, s4, s5]`. -/
theorem q_delete_mid_six (h : Heap) (head : Nat) (a b c d e f : Nat)
    (s0 s1 s2 s3 s4 s5 : List Nat) (fuel : Nat)
    (hr : Ring h head [a, b, c, d, e, f])
    (hp : Payloads h [a, b, c, d, e, f] [s0, s1, s2, s3, s4, s5]) (hf : 6 < fuel) :
    ∃ h', q_delete_mid fuel h head = .ok (h', true) ∧ Ring h' head [a, b, c, e, f] ∧
      Payloads h' [a, b, c, e, f] [s0, s1, s2, s4, s5] := by
  obtain ⟨h', he, hr', hv, _⟩ := q_delete_mid_spec hr (by simp) hf (by simp)
  have h6 : [a, b, c, d, e, f].eraseIdx ([a, b, c, d, e, f].length / 2) = [a, b, c, e, f] := by
    simp
  rw [h6] at hr' hv
  refine ⟨h', he, hr', ?_⟩
  have hv' : ∀ x ∈ [a, b, c, e, f], h'.value x = h.value x := hv
  unfold Payloads at hp ⊢
  simp only [List.map_cons, List.map_nil, List.cons.injEq, and_true] at hp ⊢
  simp only [List.mem_cons, List.mem_singleton, forall_eq_or_imp, forall_eq, List.not_mem_nil,
    false_implies, implies_true, and_true] at hv'
  obtain ⟨h1, h2, h3, h4, h5⟩ := hv'
  rw [h1, h2, h3, h4, h5]
  exact ⟨hp.1, hp.2.1, hp.2.2.1, hp.2.2.2.2.1, hp.2.2.2.2.2⟩

theorem q_delete_mid_six_witness :
    Ring heapDigits 1 [2, 3, 4, 5, 6, 7] ∧
      Payloads heapDigits [2, 3, 4, 5, 6, 7] [[48], [49], [50], [51], [52], [53]] ∧
      ∃ h', q_delete_mid 7 heapDigits 1 = .ok (h', true) ∧ Ring h' 1 [2, 3, 4, 6, 7] ∧
        Payloads h' [2, 3, 4, 6, 7] [[48], [49], [50], [52], [53]] :=
  ⟨by decide, by decide,
    q_delete_mid_six heapDigits 1 2 3 4 5 6 7 [48] [49] [50] [51] [52] [53] 7
      (by decide) (by decide) (by decide)⟩

/-- Claim C7. On a non-empty queue of at most `INT_MAX` elements whose
payloads are sorted ascending `q_delete_dup` returns true and leaves exactly one element per distinct payload
value, in the same order: the remaining payloads are strictly ascending, are a
subsequence of the original ones and have the same set of values. On a null or
an empty queue it returns false. -/
theorem q_delete_dup_sorted (h : Heap) (head : Nat) (L : List Nat) (vs : List (List Nat))
    (fuel : Nat) (hr : Ring h head L) (hp : Payloads h L vs) (hs : vs.Pairwise strLe)
    (hf : L.length < fuel) (hi : L.length ≤ 2147483647) :
    q_delete_dup fuel h 0 = .ok (h, false) ∧
      (L = [] → q_delete_dup fuel h head = .ok (h, false)) ∧
      (L ≠ [] → ∃ h' L' vs', q_delete_dup fuel h head = .ok (h', true) ∧
        Ring h' head L' ∧ Payloads h' L' vs' ∧ L'.Sublist L ∧ vs'.Sublist vs ∧
        vs'.Pairwise strLt ∧ (∀ s, s ∈ vs' ↔ s ∈ vs) ∧ vs'.Nodup) := by
  refine ⟨q_delete_dup_null fuel h, ?_, ?_⟩
  · rintro rfl
    exact q_delete_dup_empty hr hf
  · intro hL
    exact q_delete_dup_payloads hr hp hs hL hf hi

theorem q_delete_dup_sorted_witness :
    Ring heapAabcc 1 [2, 3, 4, 5, 6] ∧
      Payloads heapAabcc [2, 3, 4, 5, 6] [[97], [97], [98], [99], [99]] ∧
      [[97], [97], [98], [99], [99]].Pairwise strLe ∧
      [2, 3, 4, 5, 6].length < 6 ∧ [2, 3, 4, 5, 6].length ≤ 2147483647 ∧
      (q_delete_dup 6 heapAabcc 1).map (fun r => (r.2, r.1.payloads 1 6)) =
        .ok (true, [some [97], some [98], some [99]]) ∧
      (q_delete_dup 6 heapAabcc 0 = .ok (heapAabcc, false) ∧
      (([2, 3, 4, 5, 6] : List Nat) = [] →
        q_delete_dup 6 heapAabcc 1 = .ok (heapAabcc, false)) ∧
      (([2, 3, 4, 5, 6] : List Nat) ≠ [] → ∃ h' L' vs',
        q_delete_dup 6 heapAabcc 1 = .ok (h', true) ∧
        Ring h' 1 L' ∧ Payloads h' L' vs' ∧ L'.Sublist [2, 3, 4, 5, 6] ∧
        vs'.Sublist [[97], [97], [98], [99], [99]] ∧
        vs'.Pairwise strLt ∧ (∀ s, s ∈ vs' ↔ s ∈ [[97], [97], [98], [99], [99]]) ∧
        vs'.Nodup)) :=
  ⟨by decide, by decide, by decide, by decide, by decide, by decide,
    q_delete_dup_sorted heapAabcc 1 [2, 3, 4, 5, 6] [[97], [97], [98], [99], [99]] 6
      (by decide) (by decide) (by decide) (by decide) (by decide)⟩

/-- Claim C8. On a non-empty queue of at most `INT_MAX` elements `q_sort`
followed by `q_delete_dup` leaves
the payloads in strictly ascending order, each distinct value of the original
queue appearing exactly once; `[c, a, b, a, c]` becomes `[a, b, c]`. -/
theorem q_sort_then_delete_dup (h : Heap) (head : Nat) (L : List Nat) (vs : List (List Nat))
    (fuel : Nat) (hr : Ring h head L) (hp : Payloads h L vs) (hL : L ≠ [])
    (hf : L.length < fuel) (hi : L.length ≤ 2147483647) :
    ∃ h1 h2 L' vs', q_sort fuel h head = .ok h1 ∧ q_delete_dup fuel h1 head = .ok (h2, true) ∧
      Ring h2 head L' ∧ Payloads h2 L' vs' ∧ L'.Sublist (sortNodes h.value L) ∧
      vs'.Pairwise strLt ∧ (∀ s, s ∈ vs' ↔ s ∈ vs) ∧ vs'.Nodup := by
  obtain ⟨h1, e1, r1, _, p1⟩ := q_sort_payloads hr hp hf hi
  have hperm := sortNodes_perm h.value L
  have hne : sortNodes h.value L ≠ [] := fun e =>
    hL (List.length_eq_zero.1 (by rw [← hperm.length_eq, e]; rfl))
  obtain ⟨h2, L', vs', e2, r2, p2, sub, _, sorted, mem, nd⟩ :=
    q_delete_dup_payloads r1 p1 (insertionSort_strLe_sorted vs) hne
      (by rw [hperm.length_eq]; exact hf) (by rw [hperm.length_eq]; exact hi)
  refine ⟨h1, h2, L', vs', e1, e2, r2, p2, sub, sorted, ?_, nd⟩
  intro s
  rw [mem s]
  exact (List.perm_insertionSort strLe vs).mem_iff

theorem q_sort_then_delete_dup_witness :
    Ring heapCabac 1 [2, 3, 4, 5, 6] ∧
      Payloads heapCabac [2, 3, 4, 5, 6] [[99], [97], [98], [97], [99]] ∧
      ([2, 3, 4, 5, 6] : List Nat) ≠ [] ∧ [2, 3, 4, 5, 6].length < 6 ∧
      [2, 3, 4, 5, 6].length ≤ 2147483647 ∧
      ((q_sort 6 heapCabac 1).bind (fun h1 => q_delete_dup 6 h1 1)).map
        (fun r => (r.2, r.1.payloads 1 6)) = .ok (true, [some [97], some [98], some [99]]) ∧
      ∃ h1 h2 L' vs', q_sort 6 heapCabac 1 = .ok h1 ∧
        q_delete_dup 6 h1 1 = .ok (h2, true) ∧
        Ring h2 1 L' ∧ Payloads h2 L' vs' ∧
        L'.Sublist (sortNodes heapCabac.value [2, 3, 4, 5, 6]) ∧
        vs'.Pairwise strLt ∧ (∀ s, s ∈ vs' ↔ s ∈ [[99], [97], [98], [97], [99]]) ∧
        vs'.Nodup :=
  ⟨by decide, by decide, by decide, by decide, by decide, by decide,
    q_sort_then_delete_dup heapCabac 1 [2, 3, 4, 5, 6] [[99], [97], [98], [97], [99]] 6
      (by decide) (by decide) (by decide) (by decide) (by decide)⟩

/-- Claim C9. The ring invariant: a well-formed queue of at most `INT_MAX`
elements has `n.next.prev == n`
and `n.prev.next == n` for every node, the sentinel included, and it is again
well-formed (the backward traversal from the sentinel being the reverse of the
forward one) after each of `q_insert_head`, `q_insert_tail`, `q_remove_head`,
`q_remove_tail`, `q_delete_mid`, `q_delete_dup`, `q_swap`, `q_reverse` and
`q_sort`, each of which returns. -/
theorem ring_invariant_preserved (h : Heap) (head : Nat) (L : List Nat)
    (vs : List (List Nat)) (fuel : Nat) (hr : Ring h head L) (hp : Payloads h L vs)
    (hf : L.length < fuel) (hi : L.length ≤ 2147483647) :
    DoublyLinked h head L ∧
      (∀ (s : List Nat) (m : Nat) (sd : Bool), m = 0 ∨ h.live m = false →
        ∃ h' b, q_insert_head h head s m sd = .ok (h', b) ∧ WellFormed h' head) ∧
      (∀ (s : List Nat) (m : Nat) (sd : Bool), m = 0 ∨ h.live m = false →
        ∃ h' b, q_insert_tail h head s m sd = .ok (h', b) ∧ WellFormed h' head) ∧
      (∀ (sp : Option (List Nat)) (bufsize : Nat), BufferFits sp bufsize →
        ∃ h' e sp', q_remove_head fuel h head sp bufsize = .ok (h', e, sp') ∧
          WellFormed h' head) ∧
      (∀ (sp : Option (List Nat)) (bufsize : Nat), BufferFits sp bufsize →
        ∃ h' e sp', q_remove_tail fuel h head sp bufsize = .ok (h', e, sp') ∧
          WellFormed h' head) ∧
      (∃ h' b, q_delete_mid fuel h head = .ok (h', b) ∧ WellFormed h' head) ∧
      (∃ h' b, q_delete_dup fuel h head = .ok (h', b) ∧ WellFormed h' head) ∧
      (∃ h', q_swap fuel h head = .ok h' ∧ WellFormed h' head) ∧
      (∃ h', q_reverse fuel h head = .ok h' ∧ WellFormed h' head) ∧
      (∃ h', q_sort fuel h head = .ok h' ∧ WellFormed h' head) := by
  have hsome := payloads_isSome hp
  refine ⟨ring_doubly_linked hr, ?_, ?_, ?_, ?_, ?_, ?_, ?_, ?_, ?_⟩
  · rintro s m sd (rfl | hm)
    · exact ⟨h, false, q_insert_head_fail h head s sd, ring_wellFormed hr⟩
    · by_cases hm0 : m = 0
      · subst hm0
        exact ⟨h, false, q_insert_head_fail h head s sd, ring_wellFormed hr⟩
      · obtain ⟨h', he, hr', _⟩ := q_insert_head_spec hr s sd hm0 (not_live_not_mem hr hm)
        exact ⟨h', true, he, ring_wellFormed hr'⟩
  · rintro s m sd (rfl | hm)
    · exact ⟨h, false, q_insert_tail_fail h head s sd, ring_wellFormed hr⟩
    · by_cases hm0 : m = 0
      · subst hm0
        exact ⟨h, false, q_insert_tail_fail h head s sd, ring_wellFormed hr⟩
      · obtain ⟨h', he, hr', _⟩ := q_insert_tail_spec hr s sd hm0 (not_live_not_mem hr hm)
        exact ⟨h', true, he, ring_wellFormed hr'⟩
  · intro sp bufsize hb
    cases L with
    | nil =>
      exact ⟨h, 0, sp, q_remove_head_empty hr hf sp bufsize, ring_wellFormed hr⟩
    | cons x L =>
      obtain ⟨sp', hc⟩ := copy_out_ok (ring_ne_zero hr (by simp)) (hsome x (by simp)) hb
      obtain ⟨h', he, hr', _⟩ := q_remove_head_spec hr hf hi hc
      exact ⟨h', x, sp', he, ring_wellFormed hr'⟩
  · intro sp bufsize hb
    by_cases hL : L = []
    · subst hL
      exact ⟨h, 0, sp, q_remove_tail_empty hr hf sp bufsize, ring_wellFormed hr⟩
    · obtain ⟨L0, x, rfl⟩ := exists_snoc hL
      obtain ⟨sp', hc⟩ := copy_out_ok (ring_ne_zero hr (by simp)) (hsome x (by simp)) hb
      obtain ⟨h', he, hr', _⟩ := q_remove_tail_spec hr hf hi hc
      exact ⟨h', x, sp', he, ring_wellFormed hr'⟩
  · by_cases hL : L = []
    · subst hL
      exact ⟨h, false, q_delete_mid_empty hr hf, ring_wellFormed hr⟩
    · obtain ⟨h', he, hr', _⟩ := q_delete_mid_spec hr hL hf hi
      exact ⟨h', true, he, ring_wellFormed hr'⟩
  · by_cases hL : L = []
    · subst hL
      exact ⟨h, false, q_delete_dup_empty hr hf, ring_wellFormed hr⟩
    · obtain ⟨h', he, hr', _⟩ := q_delete_dup_spec hr hL hsome hf hi
      exact ⟨h', true, he, ring_wellFormed hr'⟩
  · obtain ⟨h', he, hr', _⟩ := q_swap_spec hr hf
    exact ⟨h', he, ring_wellFormed hr'⟩
  · obtain ⟨h', he, hr', _⟩ := q_reverse_spec hr hf
    exact ⟨h', he, ring_wellFormed hr'⟩
  · obtain ⟨h', he, hr', _⟩ := q_sort_spec h.value hr rfl hsome hf hi
    exact ⟨h', he, ring_wellFormed hr'⟩

theorem ring_invariant_preserved_witness :
    Ring heapCabac 1 [2, 3, 4, 5, 6] ∧
      Payloads heapCabac [2, 3, 4, 5, 6] [[99], [97], [98], [97], [99]] ∧
      [2, 3, 4, 5, 6].length < 6 ∧ [2, 3, 4, 5, 6].length ≤ 2147483647 ∧
      (DoublyLinked heapCabac 1 [2, 3, 4, 5, 6] ∧
      (∀ (s : List Nat) (m : Nat) (sd : Bool), m = 0 ∨ heapCabac.live m = false →
        ∃ h' b, q_insert_head heapCabac 1 s m sd = .ok (h', b) ∧ WellFormed h' 1) ∧
      (∀ (s : List Nat) (m : Nat) (sd : Bool), m = 0 ∨ heapCabac.live m = false →
        ∃ h' b, q_insert_tail heapCabac 1 s m sd = .ok (h', b) ∧ WellFormed h' 1) ∧
      (∀ (sp : Option (List Nat)) (bufsize : Nat), BufferFits sp bufsize →
        ∃ h' e sp', q_remove_head 6 heapCabac 1 sp bufsize = .ok (h', e, sp') ∧
          WellFormed h' 1) ∧
      (∀ (sp : Option (List Nat)) (bufsize : Nat), BufferFits sp bufsize →
        ∃ h' e sp', q_remove_tail 6 heapCabac 1 sp bufsize = .ok (h', e, sp') ∧
          WellFormed h' 1) ∧
      (∃ h' b, q_delete_mid 6 heapCabac 1 = .ok (h', b) ∧ WellFormed h' 1) ∧
      (∃ h' b, q_delete_dup 6 heapCabac 1 = .ok (h', b) ∧ WellFormed h' 1) ∧
      (∃ h', q_swap 6 heapCabac 1 = .ok h' ∧ WellFormed h' 1) ∧
      (∃ h', q_reverse 6 heapCabac 1 = .ok h' ∧ WellFormed h' 1) ∧
      (∃ h', q_sort 6 heapCabac 1 = .ok h' ∧ WellFormed h' 1)) :=
  ⟨by decide, by decide, by decide, by decide,
    ring_invariant_preserved heapCabac 1 [2, 3, 4, 5, 6] [[99], [97], [98], [97], [99]] 6
      (by decide) (by decide) (by decide) (by decide)⟩

/-- Claim C10. On a non-null well-formed queue with elements `L`, when the
allocations succeed, `q_insert_head` returns true and the queue becomes the new
element followed by `L`, and `q_insert_tail` returns true and the queue becomes
`L` followed by the new element; the new payload equals `s` and the existing
elements keep their order and payloads. -/
theorem q_insert_links (h : Heap) (head : Nat) (L : List Nat) (vs : List (List Nat))
    (s : List Nat) (m : Nat) (hr : Ring h head L) (hp : Payloads h L vs) (hm0 : m ≠ 0)
    (hm : h.live m = false) :
    (∃ h', q_insert_head h head s m true = .ok (h', true) ∧ Ring h' head (m :: L) ∧
      Payloads h' (m :: L) (s :: vs) ∧ h'.value m = some s ∧
      ∀ x, x ≠ m → h'.value x = h.value x) ∧
    (∃ h', q_insert_tail h head s m true = .ok (h', true) ∧ Ring h' head (L ++ [m]) ∧
      Payloads h' (L ++ [m]) (vs ++ [s]) ∧ h'.value m = some s ∧
      ∀ x, x ≠ m → h'.value x = h.value x) := by
  have hmL : m ∉ head :: L := not_live_not_mem hr hm
  have hmL' : ∀ x ∈ L, x ≠ m := fun x hx e => hmL (e ▸ List.mem_cons_of_mem _ hx)
  constructor
  · obtain ⟨h', he, hr', hv, hv'⟩ := q_insert_head_spec hr s true hm0 hmL
    refine ⟨h', he, hr', ?_, hv, hv'⟩
    unfold Payloads at hp ⊢
    rw [List.map_cons, List.map_cons, hv, ← hp]
    exact congrArg _ (List.map_congr_left (fun x hx => hv' x (hmL' x hx)))
  · obtain ⟨h', he, hr', hv, hv'⟩ := q_insert_tail_spec hr s true hm0 hmL
    refine ⟨h', he, hr', ?_, hv, hv'⟩
    unfold Payloads at hp ⊢
    rw [List.map_append, List.map_append, List.map_singleton, List.map_singleton, hv, ← hp]
    exact congrArg (· ++ _) (List.map_congr_left (fun x hx => hv' x (hmL' x hx)))

theorem q_insert_links_witness :
    Ring heapCabac 1 [2, 3, 4, 5, 6] ∧
      Payloads heapCabac [2, 3, 4, 5, 6] [[99], [97], [98], [97], [99]] ∧ (9 : Nat) ≠ 0 ∧
      heapCabac.live 9 = false ∧
      ((∃ h', q_insert_head heapCabac 1 [100] 9 true = .ok (h', true) ∧
        Ring h' 1 (9 :: [2, 3, 4, 5, 6]) ∧
        Payloads h' (9 :: [2, 3, 4, 5, 6]) ([100] :: [[99], [97], [98], [97], [99]]) ∧
        h'.value 9 = some [100] ∧ ∀ x, x ≠ 9 → h'.value x = heapCabac.value x) ∧
      (∃ h', q_insert_tail heapCabac 1 [100] 9 true = .ok (h', true) ∧
        Ring h' 1 ([2, 3, 4, 5, 6] ++ [9]) ∧
        Payloads h' ([2, 3, 4, 5, 6] ++ [9]) ([[99], [97], [98], [97], [99]] ++ [[100]]) ∧
        h'.value 9 = some [100] ∧ ∀ x, x ≠ 9 → h'.value x = heapCabac.value x)) :=
  ⟨by decide, by decide, by decide, by decide,
    q_insert_links heapCabac 1 [2, 3, 4, 5, 6] [[99], [97], [98], [97], [99]] [100] 9
      (by decide) (by decide) (by decide) (by decide)⟩

/-! ## Claims C14 to C18 -/

/-- Claim C14: the code does not do what the claim says for `q_reverse` and
`q_swap`. Called with a null queue, `q_free`, `q_insert_head`, `q_insert_tail`,
`q_remove_head`, `q_remove_tail`, `q_size`, `q_delete_mid`, `q_delete_dup` and
`q_sort` return their no-op / false / `NULL` / `0` result with the heap
unchanged, but `q_reverse` and `q_swap` start with `head->next` and so
dereference the null pointer. -/
theorem null_queue_calls (fuel : Nat) (h : Heap) (s : List Nat) (m : Nat) (sd : Bool)
    (sp : Option (List Nat)) (bufsize : Nat) :
    q_free fuel h 0 = .ok h ∧
      q_insert_head h 0 s m sd = .ok (h, false) ∧
      q_insert_tail h 0 s m sd = .ok (h, false) ∧
      q_remove_head fuel h 0 sp bufsize = .ok (h, 0, sp) ∧
      q_remove_tail fuel h 0 sp bufsize = .ok (h, 0, sp) ∧
      q_size fuel h 0 = .ok 0 ∧
      q_delete_mid fuel h 0 = .ok (h, false) ∧
      q_delete_dup fuel h 0 = .ok (h, false) ∧
      q_sort fuel h 0 = .ok h ∧
      q_reverse fuel h 0 = .fault ∧
      q_swap fuel h 0 = .fault := by
  refine ⟨?_, ?_, ?_, ?_, ?_, ?_, ?_, ?_, ?_, ?_, ?_⟩
  · simp [q_free]
  · simp [q_insert_head]
  · simp [q_insert_tail]
  · simp [q_remove_head]
  · simp [q_remove_tail]
  · simp [q_size]
  · simp [q_delete_mid]
  · simp [q_delete_dup, q_size]
  · simp [q_sort]
  · simp [q_reverse, Heap.rdNext]
  · simp [q_swap, Heap.rdNext]

/-- Claim C15: the code does not do what the claim says when `strdup` fails.
When `malloc` fails, `q_insert_head` and `q_insert_tail` return false and leave
the heap as it was. When `malloc` succeeds and `strdup` fails, they return true
and link in an element whose payload is `NULL`: on the queue `[c, a, b, a, c]`
the payloads become `[NULL, c, a, b, a, c]` and `[c, a, b, a, c, NULL]`. -/
theorem insert_ignores_strdup_failure :
    (∀ (h : Heap) (head : Nat) (s : List Nat) (sd : Bool),
      q_insert_head h head s 0 sd = .ok (h, false) ∧
        q_insert_tail h head s 0 sd = .ok (h, false)) ∧
      Ring heapCabac 1 [2, 3, 4, 5, 6] ∧ heapCabac.live 9 = false ∧
      strdup [100] false = none ∧
      (q_insert_head heapCabac 1 [100] 9 false).map (fun r => (r.2, r.1.payloads 1 7)) =
        .ok (true, [none, some [99], some [97], some [98], some [97], some [99]]) ∧
      (q_insert_tail heapCabac 1 [100] 9 false).map (fun r => (r.2, r.1.payloads 1 7)) =
        .ok (true, [some [99], some [97], some [98], some [97], some [99], none]) :=
  ⟨fun h head s sd => ⟨q_insert_head_fail h head s sd, q_insert_tail_fail h head s sd⟩,
    by decide, by decide, by decide, by decide, by decide⟩

/-- Claim C16. `q_reverse` is its own inverse: on a well-formed queue of any
length, applying `q_reverse` twice returns and restores the original order of
the elements, with their payloads. -/
theorem q_reverse_twice (h : Heap) (head : Nat) (L : List Nat) (fuel : Nat)
    (hr : Ring h head L) (hf : L.length < fuel) :
    ∃ h1 h2, q_reverse fuel h head = .ok h1 ∧ q_reverse fuel h1 head = .ok h2 ∧
      Ring h2 head L ∧ h2.value = h.value ∧ h2.live = h.live := by
  obtain ⟨h1, e1, r1, v1, l1⟩ := q_reverse_spec hr hf
  obtain ⟨h2, e2, r2, v2, l2⟩ := q_reverse_spec r1 (by rw [List.length_reverse]; exact hf)
  rw [List.reverse_reverse] at r2
  exact ⟨h1, h2, e1, e2, r2, v2.trans v1, l2.trans l1⟩

theorem q_reverse_twice_witness :
    Ring heapCabac 1 [2, 3, 4, 5, 6] ∧
      ∃ h1 h2, q_reverse 6 heapCabac 1 = .ok h1 ∧ q_reverse 6 h1 1 = .ok h2 ∧
        Ring h2 1 [2, 3, 4, 5, 6] ∧ h2.value = heapCabac.value ∧ h2.live = heapCabac.live :=
  ⟨by decide, q_reverse_twice heapCabac 1 [2, 3, 4, 5, 6] 6 (by decide) (by decide)⟩

/-- Claim C17: the code does not do what its doc comment and the claim say.
On the sorted queue `[a, a, b]` `q_delete_dup` removes only the second `a` and
leaves `[a, b]`; it does not remove every node that has a duplicate, which
would leave `[b]`. -/
theorem q_delete_dup_keeps_one_copy :
    Ring heapAab 1 [2, 3, 4] ∧ Payloads heapAab [2, 3, 4] [[97], [97], [98]] ∧
      [[97], [97], [98]].Pairwise strLe ∧
      (q_delete_dup 4 heapAab 1).map (fun r => (r.2, r.1.payloads 1 4)) =
        .ok (true, [some [97], some [98]]) ∧
      (q_delete_dup 4 heapAab 1).map (fun r => (r.2, r.1.payloads 1 4)) ≠
        .ok (true, [some [98]]) :=
  ⟨by decide, by decide, by decide, by decide, by decide⟩

/-- Claim C18: the code does not do what the claim says. The fast/slow loop of
`q_merge` starts with `fast == ptr` and tests `fast->next != ptr->next`, so it
stops at once with `slow == ptr`: a chain of `n ≥ 2` nodes is split into its
first node and the remaining `n - 1` nodes, the remainder is sorted
recursively and the single node is merged into it. For the chain of the four
nodes `2, 3, 4, 5` the two parts are `[2]` and `[3, 4, 5]`. -/
theorem q_merge_splits_off_first_node :
    (∀ (fuel : Nat) (h : Heap) (ptr : Nat), ptr ≠ 0 →
      q_merge_loop (fuel + 1) h ptr ptr ptr = .ok ptr) ∧
      (∀ (fuel : Nat) (h : Heap) (x y : Nat) (R : List Nat),
        Path h.next x (x :: y :: R) 0 → 0 ∉ x :: y :: R → (x :: y :: R).Nodup →
        Path (upd h.next x 0) x [x] 0 ∧ Path (upd h.next x 0) y (y :: R) 0 ∧
          q_merge (fuel + 2) h x =
            (q_merge (fuel + 1) { h with next := upd h.next x 0 } y >>= fun r =>
              q_mergefinal (fuel + 1) r.1 x r.2)) ∧
      Path heapChain.next 2 [2, 3, 4, 5] 0 ∧
      q_merge_loop 5 heapChain 2 2 2 = .ok 2 ∧
      Path (upd heapChain.next 2 0) 2 [2] 0 ∧
      Path (upd heapChain.next 2 0) 3 [3, 4, 5] 0 ∧
      (q_merge 5 heapChain 2).map (fun r => walk 5 r.1.next 0 r.2) = .ok [5, 4, 3, 2] := by
  refine ⟨fun fuel h ptr hp => q_merge_loop_eq hp fuel, ?_, by decide, by decide, by decide,
    by decide, by decide⟩
  intro fuel h x y R hp h0 hnd
  simp only [Path, true_and] at hp
  have hx0 : x ≠ 0 := fun e => h0 (by simp [e])
  have hy0 : y ≠ 0 := fun e => h0 (by simp [e])
  have hxR : x ∉ y :: R := (List.nodup_cons.1 hnd).1
  have hy : h.next x = y := hp.1
  refine ⟨by simp [Path], ?_, ?_⟩
  · have := (path_upd (f := h.next) 0 (h.next x) 0 hxR).2
      (by simp only [Path]; exact ⟨hp.1, hp.2⟩)
    rwa [hy] at this
  · have hl : q_merge (fuel + 1) { h with next := upd h.next x 0 } x =
        .ok ({ h with next := upd h.next x 0 }, x) := by
      simp [q_merge, hx0, Heap.rdNext]
    rw [q_merge]
    simp only [hx0, if_false, Heap.rdNext, Res.ok_bind, hy, hy0, q_merge_loop_eq hx0,
      Heap.wrNext]
    rw [hl]
    rfl

/-! ## The buffer after a removal -/

theorem cstring_of (l : List Nat) (n : Nat) (h1 : l[n]? = some 0)
    (h2 : ∀ z ∈ l.take n, z ≠ 0) : cstring l = l.take n := by
  obtain ⟨hn, hz⟩ := List.getElem?_eq_some_iff.1 h1
  have hl : l = l.take n ++ 0 :: l.drop (n + 1) := by
    conv_lhs => rw [← List.take_append_drop n l, List.drop_eq_getElem_cons hn, hz]
  unfold cstring
  conv_lhs => rw [hl]
  rw [List.takeWhile_append_of_pos (by simpa using h2)]
  simp

/-- The buffer after `strncpy(sp, v, k + 1); sp[k] = 0`, byte by byte. -/
theorem buffer_getElem (v buf : List Nat) (k i : Nat) (hk : k + 1 ≤ buf.length) :
    ((((v ++ List.replicate (k + 1) 0).take (k + 1)) ++ buf.drop (k + 1)).set k 0)[i]? =
      if i < k then (if i < v.length then v[i]? else some 0)
      else if i = k then some 0 else buf[i]? := by
  have hlen : ((v ++ List.replicate (k + 1) 0).take (k + 1)).length = k + 1 := by
    simp
  rw [List.getElem?_set]
  by_cases hik : i = k
  · subst hik
    simp [hlen]
    omega
  · rw [if_neg (fun e => hik e.symm)]
    by_cases hlt : i < k
    · rw [if_pos hlt, List.getElem?_append_left (by omega), List.getElem?_take_of_lt (by omega)]
      by_cases hv : i < v.length
      · rw [if_pos hv, List.getElem?_append_left hv]
      · rw [if_neg hv, List.getElem?_append_right (by omega), List.getElem?_replicate_of_lt
          (by omega)]
    · rw [if_neg hlt, if_neg hik, List.getElem?_append_right (by omega), hlen,
        List.getElem?_drop]
      congr 1
      omega

theorem buffer_after (v buf : List Nat) (k : Nat) (hv : 0 ∉ v) (hk : k + 1 ≤ buf.length) :
    ((((v ++ List.replicate (k + 1) 0).take (k + 1)) ++ buf.drop (k + 1)).set k 0).length =
        buf.length ∧
      cstring ((((v ++ List.replicate (k + 1) 0).take (k + 1)) ++ buf.drop (k + 1)).set k 0) =
        v.take (min v.length k) ∧
      ((((v ++ List.replicate (k + 1) 0).take (k + 1)) ++ buf.drop (k + 1)).set k 0)[min
        v.length k]? = some 0 ∧
      ∀ i, k < i → ((((v ++ List.replicate (k + 1) 0).take (k + 1)) ++
        buf.drop (k + 1)).set k 0)[i]? = buf[i]? := by
  generalize hb : (((v ++ List.replicate (k + 1) 0).take (k + 1)) ++ buf.drop (k + 1)).set k 0
    = b
  have hget : ∀ i, b[i]? = if i < k then (if i < v.length then v[i]? else some 0)
      else if i = k then some 0 else buf[i]? := by
    intro i; rw [← hb]; exact buffer_getElem v buf k i hk
  have hlen : b.length = buf.length := by
    rw [← hb]; simp; omega
  have hterm : b[min v.length k]? = some 0 := by
    rw [hget]
    by_cases h1 : v.length < k
    · rw [Nat.min_eq_left (le_of_lt h1), if_pos h1, if_neg (lt_irrefl _)]
    · rw [Nat.min_eq_right (by omega), if_neg (lt_irrefl _), if_pos rfl]
  have htake : b.take (min v.length k) = v.take (min v.length k) := by
    apply List.ext_getElem?
    intro i
    rw [List.getElem?_take, List.getElem?_take]
    by_cases hi : i < min v.length k
    · rw [if_pos hi, if_pos hi, hget, if_pos (by omega), if_pos (by omega)]
    · rw [if_neg hi, if_neg hi]
  refine ⟨hlen, ?_, hterm, ?_⟩
  · rw [cstring_of b _ hterm, htake]
    rw [htake]
    intro z hz e
    exact hv (e ▸ List.mem_of_mem_take hz)
  · intro i hi
    rw [hget, if_neg (by omega), if_neg (by omega)]

theorem copy_out_eq {h : Heap} {x : Nat} (hx0 : x ≠ 0) {v buf : List Nat}
    (hv : h.value x = some v) {k : Nat} (hk : k + 1 ≤ buf.length) :
    copy_out h x (some buf) (k + 1) = .ok (some
      ((((v ++ List.replicate (k + 1) 0).take (k + 1)) ++ buf.drop (k + 1)).set k 0)) := by
  have h3 : ¬ buf.length < k + 1 := by omega
  simp [copy_out, Heap.rdValue, hx0, hv, strncpy, h3]

/-- Claim C13. On a non-empty queue of at most `INT_MAX` elements, with a
non-null buffer `sp` and a capacity
`bufsize ≥ 1`, after `q_remove_head` or `q_remove_tail` the buffer holds a
null-terminated string equal to the first `min (len v) (bufsize - 1)` bytes of
the removed payload `v`: the whole payload when it fits, a truncated prefix
otherwise. With a null `sp` nothing is copied and the element is still
removed. -/
theorem q_remove_copies_payload (h : Heap) (head : Nat) (L : List Nat) (fuel : Nat)
    (buf : List Nat) (bufsize : Nat) (x y : Nat) (v w : List Nat) (R T : List Nat)
    (hr : Ring h head L) (hf : L.length < fuel) (hi : L.length ≤ 2147483647)
    (hx : L = x :: R) (hy : L = T ++ [y])
    (hv : h.value x = some v) (hw : h.value y = some w) (hv0 : 0 ∉ v) (hw0 : 0 ∉ w)
    (hb1 : 1 ≤ bufsize) (hb2 : bufsize ≤ buf.length) :
    (∃ h' b, q_remove_head fuel h head (some buf) bufsize = .ok (h', x, some b) ∧
      Ring h' head R ∧ b.length = buf.length ∧
      cstring b = v.take (min v.length (bufsize - 1)) ∧
      b[min v.length (bufsize - 1)]? = some 0 ∧ (v.length < bufsize → cstring b = v)) ∧
    (∃ h' b, q_remove_tail fuel h head (some buf) bufsize = .ok (h', y, some b) ∧
      Ring h' head T ∧ b.length = buf.length ∧
      cstring b = w.take (min w.length (bufsize - 1)) ∧
      b[min w.length (bufsize - 1)]? = some 0 ∧ (w.length < bufsize → cstring b = w)) ∧
    (∀ n, ∃ h', q_remove_head fuel h head none n = .ok (h', x, none) ∧ Ring h' head R) ∧
    (∀ n, ∃ h', q_remove_tail fuel h head none n = .ok (h', y, none) ∧ Ring h' head T) := by
  obtain ⟨k, rfl⟩ : ∃ k, bufsize = k + 1 := ⟨bufsize - 1, by omega⟩
  have hx0 : x ≠ 0 := ring_ne_zero hr (by simp [hx])
  have hy0 : y ≠ 0 := ring_ne_zero hr (by simp [hy])
  have hrx : Ring h head (x :: R) := hx ▸ hr
  have hry : Ring h head (T ++ [y]) := hy ▸ hr
  have hfx : (x :: R).length < fuel := hx ▸ hf
  have hfy : (T ++ [y]).length < fuel := hy ▸ hf
  have hix : (x :: R).length ≤ 2147483647 := hx ▸ hi
  have hiy : (T ++ [y]).length ≤ 2147483647 := hy ▸ hi
  simp only [Nat.add_sub_cancel]
  refine ⟨?_, ?_, ?_, ?_⟩
  · obtain ⟨h', he, hr', _⟩ := q_remove_head_spec hrx hfx hix (copy_out_eq hx0 hv hb2)
    obtain ⟨b1, b2, b3, _⟩ := buffer_after v buf k hv0 hb2
    refine ⟨h', _, he, hr', b1, b2, b3, fun hlt => ?_⟩
    rw [b2, Nat.min_eq_left (by omega), List.take_length]
  · obtain ⟨h', he, hr', _⟩ := q_remove_tail_spec hry hfy hiy (copy_out_eq hy0 hw hb2)
    obtain ⟨b1, b2, b3, _⟩ := buffer_after w buf k hw0 hb2
    refine ⟨h', _, he, hr', b1, b2, b3, fun hlt => ?_⟩
    rw [b2, Nat.min_eq_left (by omega), List.take_length]
  · intro n
    obtain ⟨h', he, hr', _⟩ := @q_remove_head_spec h head x R hrx fuel hfx hix none none n rfl
    exact ⟨h', he, hr'⟩
  · intro n
    obtain ⟨h', he, hr', _⟩ := @q_remove_tail_spec h head y T hry fuel hfy hiy none none n rfl
    exact ⟨h', he, hr'⟩

theorem q_remove_copies_payload_witness :
    Ring heapWords 1 [2, 3] ∧ [2, 3].length < 3 ∧ [2, 3].length ≤ 2147483647 ∧
      ([2, 3] : List Nat) = 2 :: [3] ∧ ([2, 3] : List Nat) = [2] ++ [3] ∧
      heapWords.value 2 = some [104, 101, 108, 108, 111] ∧
      heapWords.value 3 = some [104, 105] ∧
      (0 : Nat) ∉ [104, 101, 108, 108, 111] ∧ (0 : Nat) ∉ [104, 105] ∧
      1 ≤ 4 ∧ 4 ≤ [7, 7, 7, 7, 7].length ∧
      (q_remove_head 3 heapWords 1 (some [7, 7, 7, 7, 7]) 4).map (fun r => r.2.2) =
        .ok (some [104, 101, 108, 0, 7]) ∧
      (q_remove_tail 3 heapWords 1 (some [7, 7, 7, 7, 7]) 4).map (fun r => r.2.2) =
        .ok (some [104, 105, 0, 0, 7]) ∧
      ((∃ h' b, q_remove_head 3 heapWords 1 (some [7, 7, 7, 7, 7]) 4 = .ok (h', 2, some b) ∧
        Ring h' 1 [3] ∧ b.length = [7, 7, 7, 7, 7].length ∧
        cstring b = [104, 101, 108, 108, 111].take (min [104, 101, 108, 108, 111].length (4 - 1)) ∧
        b[min [104, 101, 108, 108, 111].length (4 - 1)]? = some 0 ∧
        ([104, 101, 108, 108, 111].length < 4 → cstring b = [104, 101, 108, 108, 111])) ∧
      (∃ h' b, q_remove_tail 3 heapWords 1 (some [7, 7, 7, 7, 7]) 4 = .ok (h', 3, some b) ∧
        Ring h' 1 [2] ∧ b.length = [7, 7, 7, 7, 7].length ∧
        cstring b = [104, 105].take (min [104, 105].length (4 - 1)) ∧
        b[min [104, 105].length (4 - 1)]? = some 0 ∧
        ([104, 105].length < 4 → cstring b = [104, 105])) ∧
      (∀ n, ∃ h', q_remove_head 3 heapWords 1 none n = .ok (h', 2, none) ∧ Ring h' 1 [3]) ∧
      (∀ n, ∃ h', q_remove_tail 3 heapWords 1 none n = .ok (h', 3, none) ∧ Ring h' 1 [2])) :=
  ⟨by decide, by decide, by decide, by decide, by decide, by decide, by decide, by decide,
    by decide, by decide, by decide, by decide, by decide,
    q_remove_copies_payload heapWords 1 [2, 3] 3 [7, 7, 7, 7, 7] 4 2 3
      [104, 101, 108, 108, 111] [104, 105] [3] [2] (by decide) (by decide) (by decide)
      (by decide) (by decide) (by decide) (by decide) (by decide) (by decide) (by decide)
      (by decide)⟩

/-! ## Runs of equal payloads -/

theorem afterPrev_congr {κ : Type} [DecidableEq κ] (key : Nat → κ) {p q : Nat}
    (hpq : key p = key q) (r : List Nat) : afterPrev key p r = afterPrev key q r := by
  cases r with
  | nil => rfl
  | cons y r => simp [afterPrev, hpq]

theorem dedupFrom_eq_afterPrev {κ : Type} [DecidableEq κ] (key : Nat → κ) :
    ∀ (R : List Nat) (x : Nat), dedupFrom key x R = x :: afterPrev key x R := by
  intro R
  induction R with
  | nil => intro x; rfl
  | cons y R ih =>
    intro x
    simp only [dedupFrom, afterPrev]
    by_cases hk : key x = key y
    · rw [if_pos hk, if_pos hk.symm, ih x, afterPrev_congr key hk]
    · rw [if_neg hk, if_neg (fun e => hk e.symm), ih y]

theorem dedupAdj_eq_survivors {κ : Type} [DecidableEq κ] (key : Nat → κ) (L : List Nat) :
    dedupAdj key L = survivors key L := by
  cases L with
  | nil => rfl
  | cons x R => exact dedupFrom_eq_afterPrev key R x

theorem afterPrev_of_chain {κ : Type} [DecidableEq κ] (key : Nat → κ) :
    ∀ (r : List Nat) (p : Nat), (p :: r).Chain' (fun a b => key a ≠ key b) →
      afterPrev key p r = r := by
  intro r
  induction r with
  | nil => intro p _; rfl
  | cons y r ih =>
    intro p hc
    rw [List.chain'_cons] at hc
    simp only [afterPrev]
    rw [if_neg (fun e => hc.1 e.symm), ih y hc.2]

theorem survivors_of_chain {κ : Type} [DecidableEq κ] (key : Nat → κ) (L : List Nat)
    (hc : L.Chain' (fun a b => key a ≠ key b)) : survivors key L = L := by
  cases L with
  | nil => rfl
  | cons x r => simp only [survivors]; rw [afterPrev_of_chain key r x hc]

theorem chain'_congr_mem {R S : Nat → Nat → Prop} {l : List Nat} (hc : l.Chain' R)
    (hi : ∀ a b, a ∈ l → b ∈ l → R a b → S a b) : l.Chain' S :=
  (List.Chain'.iff_mem.1 hc).imp (fun _ _ h => hi _ _ h.1 h.2.1 h.2.2)

/-- Claim C19. On every non-empty queue of at most `INT_MAX` elements, sorted
or not, `q_delete_dup` returns
true and removes exactly the elements whose payload equals that of the element
immediately before them, keeping the first element of each run of equal
adjacent payloads: the result is a subsequence of the input in which no two
adjacent payloads are equal, and a queue without equal adjacent payloads, such
as `[a, b, a]`, is left as it is. -/
theorem q_delete_dup_keeps_first_of_runs (h : Heap) (head : Nat) (L : List Nat)
    (vs : List (List Nat)) (fuel : Nat) (hr : Ring h head L) (hp : Payloads h L vs)
    (hL : L ≠ []) (hf : L.length < fuel) (hi : L.length ≤ 2147483647) :
    ∃ h' L', q_delete_dup fuel h head = .ok (h', true) ∧ Ring h' head L' ∧
      L' = survivors h.value L ∧ L'.Sublist L ∧
      (∀ x ∈ L', h'.value x = h.value x) ∧
      L'.Chain' (fun a b => h'.value a ≠ h'.value b) ∧
      (L.Chain' (fun a b => h.value a ≠ h.value b) → L' = L) := by
  obtain ⟨h', he, hr', hv⟩ := q_delete_dup_spec hr hL (payloads_isSome hp) hf hi
  have hsub : (dedupAdj h.value L).Sublist L := by
    cases L with
    | nil => exact absurd rfl hL
    | cons a R => exact dedupFrom_sublist h.value R a
  have hadj : (dedupAdj h.value L).Chain' (fun a b => h.value a ≠ h.value b) := by
    cases L with
    | nil => exact absurd rfl hL
    | cons a R => exact dedupFrom_adjacent h.value R a
  refine ⟨h', dedupAdj h.value L, he, hr', dedupAdj_eq_survivors h.value L, hsub, hv, ?_, ?_⟩
  · exact chain'_congr_mem hadj (fun a b ha hb hab => by rw [hv a ha, hv b hb]; exact hab)
  · intro hc
    rw [dedupAdj_eq_survivors, survivors_of_chain h.value L hc]

theorem q_delete_dup_keeps_first_of_runs_witness :
    Ring heapAba 1 [2, 3, 4] ∧ Payloads heapAba [2, 3, 4] [[97], [98], [97]] ∧
      ([2, 3, 4] : List Nat) ≠ [] ∧ [2, 3, 4].length < 4 ∧ [2, 3, 4].length ≤ 2147483647 ∧
      (q_delete_dup 4 heapAba 1).map (fun r => (r.2, r.1.payloads 1 4)) =
        .ok (true, [some [97], some [98], some [97]]) ∧
      ∃ h' L', q_delete_dup 4 heapAba 1 = .ok (h', true) ∧ Ring h' 1 L' ∧
        L' = survivors heapAba.value [2, 3, 4] ∧ L'.Sublist [2, 3, 4] ∧
        (∀ x ∈ L', h'.value x = heapAba.value x) ∧
        L'.Chain' (fun a b => h'.value a ≠ h'.value b) ∧
        (([2, 3, 4] : List Nat).Chain' (fun a b => heapAba.value a ≠ heapAba.value b) →
          L' = [2, 3, 4]) :=
  ⟨by decide, by decide, by decide, by decide, by decide, by decide,
    q_delete_dup_keeps_first_of_runs heapAba 1 [2, 3, 4] [[97], [98], [97]] 4
      (by decide) (by decide) (by decide) (by decide) (by decide)⟩

/-! ## The order of equal payloads after q_sort -/

theorem mergeNodes_single_split (v : Nat → Option (List Nat)) (x : Nat) :
    ∀ S : List Nat, S.Pairwise (nodeLe v) →
      ∃ S1 S2, S = S1 ++ S2 ∧ mergeNodes v [x] S = S1 ++ x :: S2 ∧ ∀ z ∈ S2, nodeLt v x z := by
  intro S
  induction S with
  | nil => intro _; exact ⟨[], [], rfl, by rw [mergeNodes]; rfl, by simp⟩
  | cons s S ih =>
    intro hS
    rw [List.pairwise_cons] at hS
    rw [mergeNodes]
    split_ifs with ht
    · rw [takeLeft_iff] at ht
      refine ⟨[], s :: S, rfl, by rw [mergeNodes]; rfl, ?_⟩
      intro z hz
      rcases List.mem_cons.1 hz with rfl | hz
      · exact ht
      · exact strcmp_lt_of_lt_of_le ht (hS.1 z hz)
    · obtain ⟨S1, S2, h1, h2, h3⟩ := ih hS.2
      exact ⟨s :: S1, S2, by rw [h1]; rfl, by rw [h2]; rfl, h3⟩

theorem filter_payload_after (v : Nat → Option (List Nat)) (x : Nat) (s : List Nat)
    (hx : v x = some s) {S2 : List Nat} (h3 : ∀ z ∈ S2, nodeLt v x z) :
    S2.filter (fun z => decide (v z = some s)) = [] := by
  rw [List.filter_eq_nil_iff]
  intro z hz
  simp only [decide_eq_true_eq]
  intro hzs
  have := h3 z hz
  unfold nodeLt strLt at this
  rw [hx, hzs, Option.getD_some, strcmp_self] at this
  exact absurd this (lt_irrefl _)

/-- The elements with a given payload come out of `q_sort` in the reverse of
their original order. -/
theorem sortNodes_filter (v : Nat → Option (List Nat)) (s : List Nat) : ∀ L : List Nat,
    (sortNodes v L).filter (fun z => decide (v z = some s)) =
      (L.filter (fun z => decide (v z = some s))).reverse
  | [] => rfl
  | x :: R => by
    obtain ⟨S1, S2, h1, h2, h3⟩ := mergeNodes_single_split v x (sortNodes v R)
      (sortNodes_sorted v R)
    have ih := sortNodes_filter v s R
    rw [h1, List.filter_append] at ih
    simp only [sortNodes]
    rw [h2, List.filter_append]
    by_cases hx : v x = some s
    · rw [filter_payload_after v x s hx h3, List.append_nil] at ih
      rw [List.filter_cons_of_pos (by simpa using hx), filter_payload_after v x s hx h3, ih,
        List.filter_cons_of_pos (by simpa using hx), List.reverse_cons]
    · rw [List.filter_cons_of_neg (by simpa using hx), ih,
        List.filter_cons_of_neg (by simpa using hx)]

/-- Claim C20. On every queue of at most `INT_MAX` elements, in particular one
of at least two elements, `q_sort` places elements with equal payloads in exactly the
reverse of their original relative order: whenever two elements have equal
payloads, the one that was later in the input precedes the other in the
output; the elements carrying any one payload come out in the reverse of their
input order, and two equal elements `[a1, a2]` come out as `[a2, a1]`. -/
theorem q_sort_reverses_equal_payloads (h : Heap) (head : Nat) (L : List Nat)
    (vs : List (List Nat)) (fuel : Nat) (hr : Ring h head L) (hp : Payloads h L vs)
    (hf : L.length < fuel) (hi : L.length ≤ 2147483647) :
    ∃ h' L', q_sort fuel h head = .ok h' ∧ Ring h' head L' ∧ L'.Perm L ∧
      h'.value = h.value ∧
      (∀ x y, [x, y].Sublist L → h.value x = h.value y → [y, x].Sublist L') ∧
      (∀ s, L'.filter (fun z => decide (h.value z = some s)) =
        (L.filter (fun z => decide (h.value z = some s))).reverse) ∧
      (∀ a b, L = [a, b] → h.value a = h.value b → L' = [b, a]) := by
  obtain ⟨h', he, hr', hv, _⟩ := q_sort_spec h.value hr rfl (payloads_isSome hp) hf hi
  refine ⟨h', sortNodes h.value L, he, hr', sortNodes_perm h.value L, hv, ?_, ?_, ?_⟩
  · intro x y hxy hval
    exact sortNodes_equal_reversed h.value x y (by rw [hval]) L hxy
  · intro s
    exact sortNodes_filter h.value s L
  · rintro a b rfl hab
    have ht : takeLeft h.value a b = false := by simp [takeLeft, hab, strcmp_self]
    simp [sortNodes, mergeNodes, ht]

theorem q_sort_reverses_equal_payloads_witness :
    Ring heapTie 1 [2, 3] ∧ Payloads heapTie [2, 3] [[97], [97]] ∧ 2 ≤ [2, 3].length ∧
      [2, 3].length < 3 ∧ [2, 3].length ≤ 2147483647 ∧
      (q_sort 3 heapTie 1).map (fun h' => h'.elems 1 3) = .ok [3, 2] ∧
      ∃ h' L', q_sort 3 heapTie 1 = .ok h' ∧ Ring h' 1 L' ∧ L'.Perm [2, 3] ∧
        h'.value = heapTie.value ∧
        (∀ x y, [x, y].Sublist [2, 3] → heapTie.value x = heapTie.value y →
          [y, x].Sublist L') ∧
        (∀ s, L'.filter (fun z => decide (heapTie.value z = some s)) =
          (([2, 3] : List Nat).filter (fun z => decide (heapTie.value z = some s))).reverse) ∧
        (∀ a b, ([2, 3] : List Nat) = [a, b] → heapTie.value a = heapTie.value b →
          L' = [b, a]) :=
  ⟨by decide, by decide, by decide, by decide, by decide, by decide,
    q_sort_reverses_equal_payloads heapTie 1 [2, 3] [[97], [97]] 3
      (by decide) (by decide) (by decide) (by decide)⟩

/-! ## Sequences of insertions and removals -/

theorem q_new_spec (h : Heap) {m : Nat} (hm : m ≠ 0) :
    ∃ h', q_new h m = .ok (h', m) ∧ Ring h' m [] ∧ h'.value = h.value ∧
      h'.live = upd h.live m true := by
  refine ⟨({ h with live := upd h.live m true } : Heap).selfLink m, ?_, ?_, rfl, rfl⟩
  · simp [q_new, malloc, hm, init_list_head_eq hm]
  · refine ⟨hm, by simp, by simp, ?_, ?_, ?_⟩
    · simp [Heap.selfLink, Path]
    · simp [Heap.selfLink, Path]
    · intro x hx
      simp only [List.mem_singleton] at hx
      subst hx
      simp [Heap.selfLink]

theorem q_insert_head_run {h : Heap} {head : Nat} {L : List Nat} (hr : Ring h head L)
    (s : List Nat) {m : Nat} (sd : Bool) (hm0 : m ≠ 0) (hm : m ∉ head :: L) :
    ∃ h', q_insert_head h head s m sd = .ok (h', true) ∧ Ring h' head (m :: L) ∧
      h'.value = upd h.value m (strdup s sd) ∧ h'.live = upd h.live m true := by
  have hr1 : Ring { h with live := upd h.live m true, value := upd h.value m (strdup s sd) }
      head L :=
    ring_congr hr (fun _ _ => rfl) (fun _ _ => rfl)
      (fun z hz => upd_ne _ _ (fun e => hm (e ▸ hz)))
  have ha := ring_add_head hr1 hm hm0 (by simp)
  refine ⟨_, ?_, ha.2, rfl, rfl⟩
  simp only [q_insert_head, hr.1, if_false, malloc, hm0, Heap.wrValue, Res.ok_bind]
  rw [ha.1]
  rfl

theorem q_insert_tail_run {h : Heap} {head : Nat} {L : List Nat} (hr : Ring h head L)
    (s : List Nat) {m : Nat} (sd : Bool) (hm0 : m ≠ 0) (hm : m ∉ head :: L) :
    ∃ h', q_insert_tail h head s m sd = .ok (h', true) ∧ Ring h' head (L ++ [m]) ∧
      h'.value = upd h.value m (strdup s sd) ∧ h'.live = upd h.live m true := by
  have hr1 : Ring { h with live := upd h.live m true, value := upd h.value m (strdup s sd) }
      head L :=
    ring_congr hr (fun _ _ => rfl) (fun _ _ => rfl)
      (fun z hz => upd_ne _ _ (fun e => hm (e ▸ hz)))
  have ha := ring_add_tail hr1 hm hm0 (by simp)
  refine ⟨_, ?_, ha.2, rfl, rfl⟩
  simp only [q_insert_tail, hr.1, if_false, malloc, hm0, Heap.wrValue, Res.ok_bind]
  rw [ha.1]
  rfl

theorem bufferFits_iff (sp : Option (List Nat)) (bufsize : Nat) :
    bufferFits sp bufsize = true ↔ BufferFits sp bufsize := by
  cases sp with
  | none => simp [bufferFits, BufferFits]
  | some buf => simp [bufferFits, BufferFits]

theorem copy_out_of_pre {h : Heap} {x : Nat} (hx0 : x ≠ 0) {sp : Option (List Nat)}
    {bufsize : Nat} (hb : bufferFits sp bufsize = true)
    (hv : sp.isSome = true → (h.value x).isSome = true) :
    ∃ sp', copy_out h x sp bufsize = .ok sp' := by
  cases sp with
  | none => exact ⟨none, rfl⟩
  | some buf => exact copy_out_ok hx0 (hv rfl) ((bufferFits_iff _ _).1 hb)

theorem tracks_insert {h h' : Heap} {head m : Nat} {Q Rm : Items} {v : Option (List Nat)}
    (ht : Tracks h head Q Rm) (hm : h.live m = false) (hv : h'.value = upd h.value m v)
    (hl : h'.live = upd h.live m true) :
    ∀ p ∈ Q ++ Rm, h'.value p.1 = p.2 ∧ h'.live p.1 = true := by
  intro p hp
  have hp' := ht.2 p hp
  have hne : p.1 ≠ m := fun e => by
    rw [e, hm] at hp'
    exact Bool.noConfusion hp'.2
  rw [hv, hl, upd_ne _ _ hne, upd_ne _ _ hne]
  exact hp'

theorem absOp_removeTail_snoc (R : Items) (p : Nat × Option (List Nat))
    (sp : Option (List Nat)) (bufsize : Nat) :
    absOp (R ++ [p]) (.removeTail sp bufsize) = (R, false, some p) := by
  simp [absOp]

theorem absOp_removeHead_cons (R : Items) (p : Nat × Option (List Nat))
    (sp : Option (List Nat)) (bufsize : Nat) :
    absOp (p :: R) (.removeHead sp bufsize) = (R, false, some p) := by
  simp [absOp]

/-- One call refines the corresponding step on the list of elements. -/
theorem runOp_refines {h : Heap} {head : Nat} {Q Rm : Items} {fuel : Nat} (op : Op)
    (ht : Tracks h head Q Rm) (hpre : OpPre h head op) (hf : Q.length < fuel)
    (hi : Q.length ≤ 2147483647) :
    ∃ h', runOp fuel h head op =
        .ok (h', (absOp Q op).2.1, ((absOp Q op).2.2.map Prod.fst).getD 0) ∧
      Tracks h' head (absOp Q op).1 (Rm ++ (absOp Q op).2.2.toList) ∧
      ∀ p, (absOp Q op).2.2 = some p → p.1 ≠ 0 := by
  have hr := ht.1
  have hlen : (Q.map Prod.fst).length < fuel := by simpa using hf
  have hmax : (Q.map Prod.fst).length ≤ 2147483647 := by simpa using hi
  cases op with
  | insertHead s m sd =>
    by_cases hm0 : m = 0
    · subst hm0
      refine ⟨h, by simp [runOp, q_insert_head_fail, absOp], by simpa [absOp] using ht, ?_⟩
      simp [absOp]
    · have hm : h.live m = false := by
        rcases hpre with e | e
        · exact absurd e hm0
        · exact e
      obtain ⟨h', he, hr', hv, hl⟩ := q_insert_head_run hr s sd hm0 (not_live_not_mem hr hm)
      refine ⟨h', by simp [runOp, he, absOp, hm0], ?_, by simp [absOp, hm0]⟩
      simp only [absOp, hm0, if_false, Option.toList_none, List.append_nil]
      refine ⟨by simpa using hr', ?_⟩
      intro p hp
      rw [List.cons_append, List.mem_cons] at hp
      rcases hp with rfl | hp
      · simp [hv, hl]
      · exact tracks_insert ht hm hv hl p hp
  | insertTail s m sd =>
    by_cases hm0 : m = 0
    · subst hm0
      refine ⟨h, by simp [runOp, q_insert_tail_fail, absOp], by simpa [absOp] using ht, ?_⟩
      simp [absOp]
    · have hm : h.live m = false := by
        rcases hpre with e | e
        · exact absurd e hm0
        · exact e
      obtain ⟨h', he, hr', hv, hl⟩ := q_insert_tail_run hr s sd hm0 (not_live_not_mem hr hm)
      refine ⟨h', by simp [runOp, he, absOp, hm0], ?_, by simp [absOp, hm0]⟩
      simp only [absOp, hm0, if_false, Option.toList_none, List.append_nil]
      refine ⟨by simpa using hr', ?_⟩
      intro p hp
      rw [List.append_assoc, List.mem_append, List.singleton_append, List.mem_cons] at hp
      rcases hp with hp | rfl | hp
      · exact tracks_insert ht hm hv hl p (List.mem_append_left _ hp)
      · simp [hv, hl]
      · exact tracks_insert ht hm hv hl p (List.mem_append_right _ hp)
  | removeHead sp bufsize =>
    cases Q with
    | nil =>
      refine ⟨h, ?_, by simpa [absOp] using ht, by simp [absOp]⟩
      have hr0 : Ring h head [] := hr
      have hpos : 0 < fuel := by simpa using hlen
      simp [runOp, q_remove_head_empty hr0 hpos, absOp]
    | cons p R =>
      have hr1 : Ring h head (p.1 :: R.map Prod.fst) := hr
      have hx0 : p.1 ≠ 0 := ring_ne_zero hr1 (by simp)
      have hnx : h.next head = p.1 := ring_next_head hr1
      have hph : p.1 ≠ head := fun e => ring_not_mem hr1 (by simp [← e])
      obtain ⟨sp', hc⟩ := copy_out_of_pre (h := h) hx0 hpre.1 (fun hs => by
        have := hpre.2 hs (by rw [hnx]; exact hph)
        rwa [hnx] at this)
      obtain ⟨h', he, hr', hv, hl⟩ := q_remove_head_spec hr1 (by simpa using hlen)
        (by simpa using hmax) hc
      rw [absOp_removeHead_cons]
      refine ⟨h', by simp [runOp, he], ⟨hr', ?_⟩, ?_⟩
      · intro q hq
        rw [hv, hl]
        apply ht.2
        simp only [Option.toList_some, List.mem_append, List.mem_singleton,
          List.mem_cons] at hq ⊢
        tauto
      · intro q hq
        simp only [Option.some.injEq] at hq
        exact hq ▸ hx0
  | removeTail sp bufsize =>
    rcases List.eq_nil_or_concat Q with rfl | ⟨R, p, hQ⟩
    · refine ⟨h, ?_, by simpa [absOp] using ht, by simp [absOp]⟩
      have hr0 : Ring h head [] := hr
      have hpos : 0 < fuel := by simpa using hlen
      simp [runOp, q_remove_tail_empty hr0 hpos, absOp]
    · rw [List.concat_eq_append] at hQ
      subst hQ
      have hr1 : Ring h head (R.map Prod.fst ++ [p.1]) := by simpa using hr
      have hx0 : p.1 ≠ 0 := ring_ne_zero hr1 (by simp)
      have hnx : h.prev head = p.1 := by rw [ring_prev_head hr1]; simp
      have hph : p.1 ≠ head := fun e => ring_not_mem hr1 (by simp [← e])
      obtain ⟨sp', hc⟩ := copy_out_of_pre (h := h) hx0 hpre.1 (fun hs => by
        have := hpre.2 hs (by rw [hnx]; exact hph)
        rwa [hnx] at this)
      obtain ⟨h', he, hr', hv, hl⟩ := q_remove_tail_spec hr1 (by simpa using hlen)
        (by simpa using hmax) hc
      rw [absOp_removeTail_snoc]
      refine ⟨h', by simp [runOp, he], ⟨hr', ?_⟩, ?_⟩
      · intro q hq
        rw [hv, hl]
        apply ht.2
        simp only [Option.toList_some, List.mem_append, List.mem_singleton] at hq ⊢
        tauto
      · intro q hq
        simp only [Option.some.injEq] at hq
        exact hq ▸ hx0

theorem absOp_length_le (Q : Items) (op : Op) : (absOp Q op).1.length ≤ Q.length + 1 := by
  cases op with
  | insertHead s m sd => simp only [absOp]; split_ifs <;> simp
  | insertTail s m sd => simp only [absOp]; split_ifs <;> simp
  | removeHead sp bufsize => simp [absOp]; omega
  | removeTail sp bufsize => simp [absOp]; omega

/-- A sequence of calls refines the corresponding run on the list of elements. -/
theorem runOps_refines (head : Nat) (fuel : Nat) : ∀ (ops : List Op) (h : Heap) (Q Rm : Items),
    Tracks h head Q Rm → Admissible fuel h head ops → Q.length + ops.length < fuel →
    (∀ k, (absRun Q (ops.take k)).1.length ≤ 2147483647) →
    ∃ h', runOps fuel h head ops =
        .ok (h', (absRun Q ops).2.1, (absRun Q ops).2.2.map Prod.fst) ∧
      Tracks h' head (absRun Q ops).1 (Rm ++ (absRun Q ops).2.2) := by
  intro ops
  induction ops with
  | nil =>
    intro h Q Rm ht _ _ _
    exact ⟨h, rfl, by simpa [absRun] using ht⟩
  | cons op ops ih =>
    intro h Q Rm ht ha hf hb
    obtain ⟨hpre, hrest⟩ := ha
    have hQ : Q.length ≤ 2147483647 := by simpa [absRun] using hb 0
    obtain ⟨h1, e1, t1, n1⟩ := @runOp_refines h head Q Rm fuel op ht hpre
      (by simp at hf; omega) hQ
    rw [e1] at hrest
    have hrest' : Admissible fuel h1 head ops := hrest
    obtain ⟨h2, e2, t2⟩ := ih h1 (absOp Q op).1 (Rm ++ (absOp Q op).2.2.toList) t1 hrest'
      (by have := absOp_length_le Q op; simp at hf; omega)
      (fun k => by simpa [absRun] using hb (k + 1))
    refine ⟨h2, ?_, by simpa [absRun, List.append_assoc] using t2⟩
    simp only [runOps, e1, Res.ok_bind, e2, absRun]
    cases hopt : (absOp Q op).2.2 with
    | none => simp
    | some p => simp [n1 p hopt]

theorem absRun_count (ops : List Op) : ∀ Q : Items,
    (absRun Q ops).1.length + (absRun Q ops).2.2.length = Q.length + (absRun Q ops).2.1 := by
  induction ops with
  | nil => intro Q; simp [absRun]
  | cons op ops ih =>
    intro Q
    have := ih (absOp Q op).1
    simp only [absRun, List.length_append]
    have hstep : (absOp Q op).1.length + (absOp Q op).2.2.toList.length =
        Q.length + (if (absOp Q op).2.1 then 1 else 0) := by
      cases op with
      | insertHead s m sd => by_cases hm : m = 0 <;> simp [absOp, hm]
      | insertTail s m sd => by_cases hm : m = 0 <;> simp [absOp, hm]
      | removeHead sp bufsize => cases Q <;> simp [absOp]
      | removeTail sp bufsize =>
        rcases List.eq_nil_or_concat Q with rfl | ⟨R, p, hQ⟩
        · simp [absOp]
        · rw [List.concat_eq_append] at hQ
          subst hQ
          rw [absOp_removeTail_snoc]
          simp
    omega

theorem absRun_append (A B : List Op) : ∀ Q : Items,
    absRun Q (A ++ B) = ((absRun (absRun Q A).1 B).1,
      (absRun Q A).2.1 + (absRun (absRun Q A).1 B).2.1,
      (absRun Q A).2.2 ++ (absRun (absRun Q A).1 B).2.2) := by
  induction A with
  | nil => intro Q; simp [absRun]
  | cons op A ih =>
    intro Q
    show absRun Q (op :: (A ++ B)) = _
    simp only [absRun, ih, List.append_assoc, Nat.add_assoc]

theorem absRun_insertHeads (items : List (List Nat × Nat)) (hi : ∀ p ∈ items, p.2 ≠ 0) :
    ∀ Q : Items, absRun Q (insertHeads items) =
      ((items.map (fun p => (p.2, some p.1))).reverse ++ Q, items.length, []) := by
  induction items with
  | nil => intro Q; simp [insertHeads, absRun]
  | cons p items ih =>
    intro Q
    have hp : p.2 ≠ 0 := hi p (List.mem_cons_self _ _)
    have := ih (fun q hq => hi q (List.mem_cons_of_mem _ hq)) ((p.2, some p.1) :: Q)
    simp only [insertHeads, List.map_cons] at this ⊢
    simp only [absRun, absOp, hp, if_false, strdup]
    simp [this, Nat.add_comm]

theorem absRun_removeHeads (sp : Option (List Nat)) (bufsize : Nat) : ∀ (n : Nat) (Q : Items),
    absRun Q (List.replicate n (Op.removeHead sp bufsize)) = (Q.drop n, 0, Q.take n) := by
  intro n
  induction n with
  | zero => intro Q; simp [absRun]
  | succ n ih =>
    intro Q
    cases Q with
    | nil => simp [List.replicate_succ, absRun, absOp, ih]
    | cons p R => simp [List.replicate_succ, absRun, absOp, ih]

theorem absRun_removeTails (sp : Option (List Nat)) (bufsize : Nat) : ∀ (n : Nat) (Q : Items),
    absRun Q (List.replicate n (Op.removeTail sp bufsize)) =
      ((Q.reverse.drop n).reverse, 0, Q.reverse.take n) := by
  intro n
  induction n with
  | zero => intro Q; simp [absRun]
  | succ n ih =>
    intro Q
    rcases List.eq_nil_or_concat Q with rfl | ⟨R, p, hQ⟩
    · simp [List.replicate_succ, absRun, absOp, ih]
    · rw [List.concat_eq_append] at hQ
      subst hQ
      simp only [List.replicate_succ, absRun, absOp_removeTail_snoc, ih]
      simp

theorem tracks_init {h : Heap} {head : Nat} {L : List Nat} (hr : Ring h head L) :
    Tracks h head (L.map (fun x => (x, h.value x))) [] := by
  refine ⟨by simpa [List.map_map, Function.comp_def] using hr, ?_⟩
  intro p hp
  simp only [List.append_nil, List.mem_map] at hp
  obtain ⟨x, hx, rfl⟩ := hp
  exact ⟨rfl, hr.2.2.2.2.2 x (List.mem_cons_of_mem _ hx)⟩

theorem absRun_length_le (ops : List Op) : ∀ Q : Items,
    (absRun Q ops).1.length ≤ Q.length + ops.length := by
  induction ops with
  | nil => intro Q; simp [absRun]
  | cons op ops ih =>
    intro Q
    have h1 := ih (absOp Q op).1
    have h2 := absOp_length_le Q op
    simp only [absRun, List.length_cons]
    omega

theorem insertHeads_length (items : List (List Nat × Nat)) :
    (insertHeads items).length = items.length := by
  simp [insertHeads]

/-- While strings are inserted at the head and then removed from the head, the
queue never holds more than the elements it had and the inserted ones. -/
theorem absRun_take_removeHeads_le (items : List (List Nat × Nat)) (n : Nat)
    (sp : Option (List Nat)) (bufsize : Nat) (Q : Items) (k : Nat) :
    (absRun Q ((insertHeads items ++ List.replicate n (Op.removeHead sp bufsize)).take
      k)).1.length ≤ Q.length + items.length := by
  rw [List.take_append_eq_append_take, absRun_append, List.take_replicate, absRun_removeHeads]
  have h1 := absRun_length_le ((insertHeads items).take k) Q
  have h2 : ((insertHeads items).take k).length ≤ items.length := by
    rw [List.length_take, insertHeads_length]
    exact Nat.min_le_right _ _
  simp only [List.length_drop]
  omega

/-- While strings are inserted at the head and then removed from the tail, the
queue never holds more than the elements it had and the inserted ones. -/
theorem absRun_take_removeTails_le (items : List (List Nat × Nat)) (n : Nat)
    (sp : Option (List Nat)) (bufsize : Nat) (Q : Items) (k : Nat) :
    (absRun Q ((insertHeads items ++ List.replicate n (Op.removeTail sp bufsize)).take
      k)).1.length ≤ Q.length + items.length := by
  rw [List.take_append_eq_append_take, absRun_append, List.take_replicate, absRun_removeTails]
  have h1 := absRun_length_le ((insertHeads items).take k) Q
  have h2 : ((insertHeads items).take k).length ≤ items.length := by
    rw [List.length_take, insertHeads_length]
    exact Nat.min_le_right _ _
  simp only [List.length_reverse, List.length_drop]
  omega

/-- Items inserted at the head come back from as many head removals in the
reverse order of insertion, and the queue is as before. -/
theorem absRun_lifo (items : List (List Nat × Nat)) (hi : ∀ p ∈ items, p.2 ≠ 0)
    (sp : Option (List Nat)) (bufsize : Nat) (Q : Items) :
    absRun Q (insertHeads items ++ List.replicate items.length (Op.removeHead sp bufsize)) =
      (Q, items.length, (items.map (fun p => (p.2, some p.1))).reverse) := by
  rw [absRun_append, absRun_insertHeads items hi, absRun_removeHeads]
  simp only [List.nil_append, Nat.add_zero]
  rw [List.drop_left' (by simp), List.take_left' (by simp)]

/-- Items inserted at the head of an empty queue come back from as many tail
removals in the order of insertion. -/
theorem absRun_fifo (items : List (List Nat × Nat)) (hi : ∀ p ∈ items, p.2 ≠ 0)
    (sp : Option (List Nat)) (bufsize : Nat) :
    absRun [] (insertHeads items ++ List.replicate items.length (Op.removeTail sp bufsize)) =
      ([], items.length, items.map (fun p => (p.2, some p.1))) := by
  rw [absRun_append, absRun_insertHeads items hi, absRun_removeTails]
  simp only [List.nil_append, Nat.add_zero, List.append_nil, List.reverse_reverse]
  rw [List.drop_of_length_le (by simp), List.take_of_length_le (by simp)]
  rfl

/-- Claim C11. On a non-empty queue of at most `INT_MAX` elements
`q_remove_head` returns the first element
and leaves the remaining elements in order, and `q_remove_tail` returns the
last element and leaves the preceding elements in order; so strings inserted
at the head come back from head removals in LIFO order and from tail removals
in FIFO order (the queue and the inserted strings being at most `INT_MAX`
elements together). On a null or an empty queue both return `NULL` and leave the
queue unchanged. -/
theorem q_remove_returns_ends (h : Heap) (head : Nat) (L : List Nat)
    (fuel : Nat) (sp : Option (List Nat)) (bufsize : Nat) (hr : Ring h head L)
    (hp : sp.isSome = true → ∀ x ∈ L, (h.value x).isSome = true)
    (hb : BufferFits sp bufsize) (hf : L.length < fuel) (hi : L.length ≤ 2147483647) :
    q_remove_head fuel h 0 sp bufsize = .ok (h, 0, sp) ∧
    q_remove_tail fuel h 0 sp bufsize = .ok (h, 0, sp) ∧
    (L = [] → q_remove_head fuel h head sp bufsize = .ok (h, 0, sp) ∧
      q_remove_tail fuel h head sp bufsize = .ok (h, 0, sp)) ∧
    (∀ x R, L = x :: R → ∃ h' sp', q_remove_head fuel h head sp bufsize = .ok (h', x, sp') ∧
      x ≠ 0 ∧ Ring h' head R ∧ h'.value = h.value ∧ h'.live = h.live) ∧
    (∀ R x, L = R ++ [x] → ∃ h' sp', q_remove_tail fuel h head sp bufsize = .ok (h', x, sp') ∧
      x ≠ 0 ∧ Ring h' head R ∧ h'.value = h.value ∧ h'.live = h.live) ∧
    (∀ (items : List (List Nat × Nat)) (fuel2 : Nat) (sp2 : Option (List Nat)) (n2 : Nat),
      (∀ p ∈ items, p.2 ≠ 0) → L.length + 2 * items.length < fuel2 →
      L.length + items.length ≤ 2147483647 →
      Admissible fuel2 h head
        (insertHeads items ++ List.replicate items.length (Op.removeHead sp2 n2)) →
      ∃ h', runOps fuel2 h head
          (insertHeads items ++ List.replicate items.length (Op.removeHead sp2 n2)) =
          .ok (h', items.length, (items.map Prod.snd).reverse) ∧
        Ring h' head L ∧ ∀ p ∈ items, h'.value p.2 = some p.1) ∧
    (∀ (items : List (List Nat × Nat)) (fuel2 : Nat) (sp2 : Option (List Nat)) (n2 : Nat),
      L = [] → (∀ p ∈ items, p.2 ≠ 0) → 2 * items.length < fuel2 →
      L.length + items.length ≤ 2147483647 →
      Admissible fuel2 h head
        (insertHeads items ++ List.replicate items.length (Op.removeTail sp2 n2)) →
      ∃ h', runOps fuel2 h head
          (insertHeads items ++ List.replicate items.length (Op.removeTail sp2 n2)) =
          .ok (h', items.length, items.map Prod.snd) ∧
        Ring h' head [] ∧ ∀ p ∈ items, h'.value p.2 = some p.1) := by
  have hb' := (bufferFits_iff sp bufsize).2 hb
  refine ⟨by simp [q_remove_head], by simp [q_remove_tail], ?_, ?_, ?_, ?_, ?_⟩
  · rintro rfl
    exact ⟨q_remove_head_empty hr hf sp bufsize, q_remove_tail_empty hr hf sp bufsize⟩
  · rintro x R rfl
    have hx0 : x ≠ 0 := ring_ne_zero hr (by simp)
    obtain ⟨sp', hc⟩ := copy_out_of_pre hx0 hb' (fun hs => hp hs x (by simp))
    obtain ⟨h', he, hr', hv, hl⟩ := q_remove_head_spec hr hf hi hc
    exact ⟨h', sp', he, hx0, hr', hv, hl⟩
  · rintro R x rfl
    have hx0 : x ≠ 0 := ring_ne_zero hr (by simp)
    obtain ⟨sp', hc⟩ := copy_out_of_pre hx0 hb' (fun hs => hp hs x (by simp))
    obtain ⟨h', he, hr', hv, hl⟩ := q_remove_tail_spec hr hf hi hc
    exact ⟨h', sp', he, hx0, hr', hv, hl⟩
  · intro items fuel2 sp2 n2 hnz hf2 hmax hadm
    obtain ⟨h', he, ht⟩ := runOps_refines head fuel2 _ h _ [] (tracks_init hr) hadm
      (by simp [insertHeads]; omega)
      (fun k => by
        have := absRun_take_removeHeads_le items items.length sp2 n2
          (L.map (fun x => (x, h.value x))) k
        rw [List.length_map] at this
        omega)
    rw [absRun_lifo items hnz] at he ht
    refine ⟨h', ?_, ?_, ?_⟩
    · rw [he]
      simp [List.map_reverse, List.map_map, Function.comp_def]
    · simpa [List.map_map, Function.comp_def] using ht.1
    · intro p hp'
      exact (ht.2 (p.2, some p.1) (by
        simp only [List.nil_append, List.mem_append, List.mem_reverse, List.mem_map]
        exact Or.inr ⟨p, hp', rfl⟩)).1
  · rintro items fuel2 sp2 n2 rfl hnz hf2 hmax hadm
    obtain ⟨h', he, ht⟩ := runOps_refines head fuel2 _ h _ [] (tracks_init hr) hadm
      (by simp [insertHeads]; omega)
      (fun k => by
        have := absRun_take_removeTails_le items items.length sp2 n2
          (([] : List Nat).map (fun x => (x, h.value x))) k
        simp only [List.map_nil, List.length_nil] at this hmax ⊢
        omega)
    simp only [List.map_nil] at he ht
    rw [absRun_fifo items hnz] at he ht
    refine ⟨h', ?_, ?_, ?_⟩
    · rw [he]
      simp [List.map_map, Function.comp_def]
    · simpa using ht.1
    · intro p hp'
      exact (ht.2 (p.2, some p.1) (by
        simp only [List.nil_append, List.mem_map]
        exact ⟨p, hp', rfl⟩)).1

/-- Claim C12. `q_size` returns 0 for a null or an empty queue and otherwise
the number of elements in the ring (at most `INT_MAX`); hence after any
sequence of at most `INT_MAX` `q_insert_head`, `q_insert_tail`, `q_remove_head`
and `q_remove_tail` calls on a new empty queue, `q_size` equals the number of successful insertions minus
the number of successful removals. -/
theorem q_size_counts (h : Heap) (head : Nat) (L : List Nat) (fuel : Nat)
    (hr : Ring h head L) (hf : L.length < fuel) (hi : L.length ≤ 2147483647) :
    q_size fuel h 0 = .ok 0 ∧ q_size fuel h head = .ok L.length ∧
    (L = [] → q_size fuel h head = .ok 0) ∧
    ∀ (h0 : Heap) (m0 : Nat) (ops : List Op) (fuel2 : Nat), m0 ≠ 0 → ops.length < fuel2 →
      ops.length ≤ 2147483647 →
      ∃ hq, q_new h0 m0 = .ok (hq, m0) ∧ q_size fuel2 hq m0 = .ok 0 ∧
        (Admissible fuel2 hq m0 ops →
          ∃ h' ins removed, runOps fuel2 hq m0 ops = .ok (h', ins, removed) ∧
            removed.length ≤ ins ∧ q_size fuel2 h' m0 = .ok (ins - removed.length)) := by
  refine ⟨by simp [q_size], q_size_eq hr hf hi, ?_, ?_⟩
  · rintro rfl
    exact q_size_eq hr hf hi
  · intro h0 m0 ops fuel2 hm hf2 hmax
    obtain ⟨hq, eq, rq, _, _⟩ := q_new_spec h0 hm
    refine ⟨hq, eq, q_size_eq rq (by simp; omega) (Nat.zero_le _), ?_⟩
    intro hadm
    obtain ⟨h', he, ht⟩ := runOps_refines m0 fuel2 ops hq [] [] (tracks_init rq) hadm
      (by simpa using hf2)
      (fun k => by
        have h1 := absRun_length_le (ops.take k) []
        have h2 : (ops.take k).length ≤ ops.length := by
          rw [List.length_take]
          exact Nat.min_le_right _ _
        simp only [List.map_nil, List.length_nil, Nat.zero_add] at h1 ⊢
        omega)
    have hcount := absRun_count ops []
    have hle := absRun_length_le ops []
    simp only [List.length_nil, Nat.zero_add] at hcount hle
    refine ⟨h', _, _, he, by simp; omega, ?_⟩
    have hsz := @q_size_eq h' m0 _ ht.1 fuel2 (by simp; omega) (by simp; omega)
    rw [hsz]
    congr 1
    simp
    omega

theorem q_remove_returns_ends_witness :
    Ring heapCabac 1 [2, 3, 4, 5, 6] ∧
      ((some [0, 0] : Option (List Nat)).isSome = true →
        ∀ x ∈ [2, 3, 4, 5, 6], (heapCabac.value x).isSome = true) ∧
      BufferFits (some [0, 0]) 2 ∧ [2, 3, 4, 5, 6].length < 6 ∧
      [2, 3, 4, 5, 6].length ≤ 2147483647 ∧
      (∃ h' sp', q_remove_head 6 heapCabac 1 (some [0, 0]) 2 = .ok (h', 2, sp') ∧
        2 ≠ 0 ∧ Ring h' 1 [3, 4, 5, 6] ∧ h'.value = heapCabac.value ∧
        h'.live = heapCabac.live) ∧
      (∃ h' sp', q_remove_tail 6 heapCabac 1 (some [0, 0]) 2 = .ok (h', 6, sp') ∧
        6 ≠ 0 ∧ Ring h' 1 [2, 3, 4, 5] ∧ h'.value = heapCabac.value ∧
        h'.live = heapCabac.live) ∧
      (∃ h', runOps 10 heapCabac 1
          [.insertHead [120] 7 true, .insertHead [121] 8 true,
            .removeHead (some [0, 0]) 2, .removeHead (some [0, 0]) 2] =
          .ok (h', 2, [8, 7]) ∧
        Ring h' 1 [2, 3, 4, 5, 6] ∧
        ∀ p ∈ [(([120] : List Nat), 7), ([121], 8)], h'.value p.2 = some p.1) ∧
      Ring heapEmpty 1 [] ∧ BufferFits none 0 ∧
      ([] : List Nat).length < 1 ∧ ([] : List Nat).length ≤ 2147483647 ∧
      (q_remove_head 1 heapEmpty 1 none 0 = .ok (heapEmpty, 0, none) ∧
        q_remove_tail 1 heapEmpty 1 none 0 = .ok (heapEmpty, 0, none)) ∧
      (∃ h', runOps 5 heapEmpty 1
          [.insertHead [120] 7 true, .insertHead [121] 8 true,
            .removeTail (some [0, 0]) 2, .removeTail (some [0, 0]) 2] =
          .ok (h', 2, [7, 8]) ∧
        Ring h' 1 [] ∧
        ∀ p ∈ [(([120] : List Nat), 7), ([121], 8)], h'.value p.2 = some p.1) :=
  have T := q_remove_returns_ends heapCabac 1 [2, 3, 4, 5, 6]
    6 (some [0, 0]) 2 (by decide) (by decide) (by intro b hb; cases hb; decide) (by decide)
    (by decide)
  have E := q_remove_returns_ends heapEmpty 1 [] 1 none 0 (by decide) (by decide)
    (by intro b hb; cases hb) (by decide) (by decide)
  have T4 := T.2.2.2.1
  have T5 := T.2.2.2.2.1
  have T6 := T.2.2.2.2.2.1
  have E3 := E.2.2.1
  have E7 := E.2.2.2.2.2.2
  ⟨by decide, by decide, (by intro b hb; cases hb; decide), by decide, by decide,
    T4 2 [3, 4, 5, 6] rfl, T5 [2, 3, 4, 5] 6 rfl,
    T6 [([120], 7), ([121], 8)] 10 (some [0, 0]) 2 (by decide) (by decide) (by decide)
      (by decide),
    by decide, (by intro b hb; cases hb), by decide, by decide, E3 rfl,
    E7 [([120], 7), ([121], 8)] 5 (some [0, 0]) 2 rfl (by decide) (by decide) (by decide)
      (by decide)⟩

theorem q_size_counts_witness :
    Ring heapCabac 1 [2, 3, 4, 5, 6] ∧ [2, 3, 4, 5, 6].length < 6 ∧
      [2, 3, 4, 5, 6].length ≤ 2147483647 ∧
      q_size 6 heapCabac 0 = .ok 0 ∧ q_size 6 heapCabac 1 = .ok 5 ∧
      ∃ hq, q_new heapChain 9 = .ok (hq, 9) ∧ q_size 8 hq 9 = .ok 0 ∧
        ∃ h', runOps 8 hq 9
            [.insertHead [97] 6 true, .insertTail [98] 7 true, .removeHead none 0,
              .insertHead [99] 0 true, .removeTail (some [0, 0]) 2, .removeTail none 0,
              .insertTail [100] 8 true] = .ok (h', 3, [6, 7]) ∧
          [6, 7].length ≤ 3 ∧ q_size 8 h' 9 = .ok 1 := by
  have T := q_size_counts heapCabac 1 [2, 3, 4, 5, 6] 6 (by decide) (by decide) (by decide)
  refine ⟨by decide, by decide, by decide, T.1, T.2.1, ?_⟩
  obtain ⟨hq, e, s, k⟩ := T.2.2.2 heapChain 9
    [.insertHead [97] 6 true, .insertTail [98] 7 true, .removeHead none 0,
      .insertHead [99] 0 true, .removeTail (some [0, 0]) 2, .removeTail none 0,
      .insertTail [100] 8 true] 8 (by decide) (by decide) (by decide)
  have e0 : q_new heapChain 9 =
      .ok ((({ heapChain with live := upd heapChain.live 9 true } : Heap).selfLink 9), 9) := rfl
  have hqe : hq = ({ heapChain with live := upd heapChain.live 9 true } : Heap).selfLink 9 := by
    rw [e0] at e
    injection e with e
    injection e with e _
    exact e.symm
  subst hqe
  obtain ⟨h', ins, removed, er, hle, hs⟩ := k (by decide)
  have e1 : (runOps 8 (({ heapChain with live := upd heapChain.live 9 true } : Heap).selfLink 9) 9
      [.insertHead [97] 6 true, .insertTail [98] 7 true, .removeHead none 0,
        .insertHead [99] 0 true, .removeTail (some [0, 0]) 2, .removeTail none 0,
        .insertTail [100] 8 true]).map (fun r => r.2) = .ok (3, [6, 7]) := by decide
  rw [er] at e1
  injection e1 with e1
  injection e1 with hi hrm
  subst hi
  subst hrm
  exact ⟨_, e, s, h', er, hle, hs⟩

end Queue
